import Mathlib

/-!
Manifest loading in flux: a verification development.

Shallow embedding of `cluster/kubernetes/resource/load.go` (the stream
splitter `splitYAMLDocument`, the multi-document parser `ParseMultidoc`
and the tree loader `Load`) together with the parts of Go's standard
library they are driven by (`bytes.Index`, `bytes.IndexByte`,
`bufio.Scanner`, `filepath.Walk`, `filepath.Ext`), and of
`integrations/helm/release/utils.go` (`mergeValues`,
`mappifyValueOverride`, `reverse`, `collectValues`) with `strings.Split`.

Conventions.
* A byte is a natural number (its code); `[]byte` is `List Byte`.
* A Go `int` result that is `-1` for "not found" is an `Option Nat`.
* A Go slice result that may be `nil` is an `Option (List Byte)`.
* A Go `error` result is an `Option` of an error type, `none` being `nil`.
* A Go map that a function writes into is a reference to a map object of an
  explicit heap (`GoValue`, `Heap`), so that two values holding the same
  map see each other's assignments; `Value` is the tree such a value reads
  as, and `denotes` relates the two.
-/

namespace Flux

/-! ## Bytes -/

/-- A byte, represented by its code. -/
abbrev Byte := Nat

/-- The newline byte. -/
def newline : Byte := 10

/-- The byte of the dash character. -/
def dash : Byte := 45

/-- Go `bytes.Index(s, sep)`: the index of the first instance of `sep` in
`s`, `none` standing for `-1`. -/
def bytesIndex (sep : List Byte) : List Byte → Option Nat
  | [] => if sep.isPrefixOf [] then some 0 else none
  | b :: t => if sep.isPrefixOf (b :: t) then some 0 else (bytesIndex sep t).map (· + 1)

/-- Go `bytes.IndexByte(s, c)`: the index of the first instance of `c` in
`s`, `none` standing for `-1`. -/
def bytesIndexByte : List Byte → Byte → Option Nat
  | [], _ => none
  | b :: t, c => if b = c then some 0 else (bytesIndexByte t c).map (· + 1)

/-! ## The stream splitter -/

/-- The constant `yamlSeparator`, the string "\n---" as bytes. -/
def yamlSeparator : List Byte := [newline, dash, dash, dash]

/-- Errors a split function can report, `bufio.ErrFinalToken` apart.
`splitYAMLDocument` reports none. -/
inductive SplitError
  | other (msg : String)
  deriving DecidableEq, Repr

/-- The three results of a `bufio.SplitFunc`. -/
structure SplitResult where
  advance : Nat
  token : Option (List Byte)
  err : Option SplitError
  deriving DecidableEq, Repr

/-- The function `splitYAMLDocument(data, atEOF)` of load.go. -/
def splitYAMLDocument (data : List Byte) (atEOF : Bool) : SplitResult :=
  if atEOF && data.length == 0 then
    ⟨0, none, none⟩
  else
    let sep := yamlSeparator.length
    match bytesIndex yamlSeparator data with
    | some i0 =>
      -- We have a potential document terminator
      let i := i0 + sep
      let after := data.drop i
      if after.length == 0 then
        -- we can't read any more characters
        if atEOF then
          ⟨data.length, some (data.take (data.length - sep)), none⟩
        else
          ⟨0, none, none⟩
      else
        match bytesIndexByte after newline with
        | some j => ⟨i + j + 1, some (data.take (i - sep)), none⟩
        | none => ⟨0, none, none⟩
    | none =>
      -- If we're at EOF, we have a final, non-terminated line. Return it.
      if atEOF then
        ⟨data.length, some data, none⟩
      else
        -- Request more data.
        ⟨0, none, none⟩

/-! ## The scanner that drives the splitter

`ParseMultidoc` hands `splitYAMLDocument` to a `bufio.Scanner` reading from
a `bytes.Reader`. The scanner is modelled with its buffer window, its growth
policy and its error field; the contents of the buffer outside the window
`buf[start:end]` are never observed and are not represented. -/

/-- The value of the scanner's `err` field, `io.EOF` included:
`bufio.ErrTooLong`, `bufio.ErrAdvanceTooFar`, `io.ErrNoProgress`, the panic
on too many empty tokens, an error of the split function. `outOfFuel` is no
error of Go: it marks a run of this model that was cut short, which the
bounds chosen in `Scan` and `ParseMultidocRun` exclude (see
`chunksOf_ne_outOfFuel`). -/
inductive ScanError
  | eof
  | tooLong
  | advanceTooFar
  | noProgress
  | tooManyEmpties
  | split (e : SplitError)
  | outOfFuel
  deriving DecidableEq, Repr

/-- The fields of a `bufio.Scanner` over a `bytes.Reader`: `r` is what the
reader has not delivered yet, `bufLen` is `len(s.buf)`, `held` is
`s.buf[s.start:s.end]`. -/
structure Scanner where
  r : List Byte
  maxTokenSize : Nat
  bufLen : Nat
  start : Nat
  held : List Byte
  err : Option ScanError
  empties : Nat
  deriving DecidableEq, Repr

/-- The constant `bufio.MaxScanTokenSize`. -/
def MaxScanTokenSize : Nat := 64 * 1024

/-- The constant `startBufSize` of bufio/scan.go. -/
def startBufSize : Nat := 4096

/-- The constant `maxConsecutiveEmptyReads` of bufio. -/
def maxConsecutiveEmptyReads : Nat := 100

/-- The largest Go `int` on a 64-bit platform. -/
def maxInt : Nat := 2 ^ 63 - 1

/-- Go `bufio.NewScanner(bytes.NewReader(data))`. -/
def NewScanner (data : List Byte) : Scanner :=
  { r := data, maxTokenSize := MaxScanTokenSize, bufLen := 0, start := 0, held := [],
    err := none, empties := 0 }

/-- Go `(*Scanner).Buffer(buf, max)` for a buffer `buf` of capacity `bufCap`. -/
def Scanner.Buffer (s : Scanner) (bufCap max : Nat) : Scanner :=
  { s with bufLen := bufCap, maxTokenSize := max }

/-- Go `(*Scanner).setErr`: records the error unless another one, not
`io.EOF`, is recorded already. -/
def Scanner.setErr (s : Scanner) (e : ScanError) : Scanner :=
  if s.err = none ∨ s.err = some ScanError.eof then { s with err := some e } else s

/-- Go `(*Scanner).Err`: the recorded error, `io.EOF` apart. -/
def Scanner.Err (s : Scanner) : Option ScanError :=
  if s.err = some ScanError.eof then none else s.err

/-- How one pass through the `for` loop of `(*Scanner).Scan` ends. -/
inductive ScanStep
  | token (tok : List Byte) (s : Scanner)
  | halt (s : Scanner)
  | again (s : Scanner)
  deriving DecidableEq, Repr

/-- The read at the end of the loop body of `Scan`, from a `bytes.Reader`:
it delivers as many bytes as fit, or `io.EOF` when none are left. -/
def Scanner.read (s : Scanner) : ScanStep :=
  let space := s.bufLen - (s.start + s.held.length)
  if s.r.length == 0 then
    ScanStep.again (s.setErr ScanError.eof)
  else if space == 0 then
    ScanStep.again (s.setErr ScanError.noProgress)
  else
    ScanStep.again { s with held := s.held ++ s.r.take space, r := s.r.drop space, empties := 0 }

/-- The block of `Scan` that shifts the data to the beginning of the buffer
if there is lots of empty space or space is needed. -/
def Scanner.shift (s : Scanner) : Scanner :=
  if s.start > 0 && (s.start + s.held.length == s.bufLen || s.start > s.bufLen / 2) then
    { s with start := 0 }
  else s

/-- The block of `Scan` that resizes a full buffer, `none` when the buffer
may not grow (`ErrTooLong`). -/
def Scanner.grow (s : Scanner) : Option Scanner :=
  if s.start + s.held.length == s.bufLen then
    if s.bufLen ≥ s.maxTokenSize || s.bufLen > maxInt / 2 then
      none
    else
      let newSize0 := s.bufLen * 2
      let newSize1 := if newSize0 == 0 then startBufSize else newSize0
      let newSize := if newSize1 > s.maxTokenSize then s.maxTokenSize else newSize1
      some { s with bufLen := newSize, start := 0 }
  else
    some s

/-- The part of the loop body of `Scan` after the attempt to split: stop at
end of input, else make room (shift, grow up to `maxTokenSize`) and read. -/
def Scanner.fill (s : Scanner) : ScanStep :=
  if s.err.isSome then
    ScanStep.halt { s with start := 0, held := [] }
  else
    match s.shift.grow with
    | none => ScanStep.halt (s.shift.setErr ScanError.tooLong)
    | some s2 => s2.read

/-- One pass through the `for` loop of `(*Scanner).Scan` with split
function `split`. -/
def Scanner.step (split : List Byte → Bool → SplitResult) (s : Scanner) : ScanStep :=
  if s.held.length > 0 || s.err.isSome then
    let res := split s.held s.err.isSome
    match res.err with
    | some e => ScanStep.halt (s.setErr (ScanError.split e))
    | none =>
      if res.advance > s.held.length then
        ScanStep.halt (s.setErr ScanError.advanceTooFar)
      else
        let s1 : Scanner := { s with start := s.start + res.advance, held := s.held.drop res.advance }
        match res.token with
        | some tok =>
          if s1.err.isNone || res.advance > 0 then
            ScanStep.token tok { s1 with empties := 0 }
          else if s1.empties + 1 > maxConsecutiveEmptyReads then
            ScanStep.halt (s1.setErr ScanError.tooManyEmpties)
          else
            ScanStep.token tok { s1 with empties := s1.empties + 1 }
        | none => Scanner.fill s1
  else
    Scanner.fill s

/-- The `for` loop of `(*Scanner).Scan`, run for at most `fuel` passes. -/
def Scanner.scanLoop (split : List Byte → Bool → SplitResult) :
    Nat → Scanner → Option (List Byte) × Scanner
  | 0, s => (none, { s with err := some ScanError.outOfFuel })
  | fuel + 1, s =>
    match Scanner.step split s with
    | ScanStep.token tok s1 => (some tok, s1)
    | ScanStep.halt s1 => (none, s1)
    | ScanStep.again s1 => Scanner.scanLoop split fuel s1

/-- Go `(*Scanner).Scan`: the next token, if there is one, and the scanner
afterwards. Every pass that does not end the call reads at least one byte
or meets the end of the input, so `r.length + 2` passes are enough. -/
def Scanner.Scan (split : List Byte → Bool → SplitResult) (s : Scanner) :
    Option (List Byte) × Scanner :=
  Scanner.scanLoop split (s.r.length + 2) s

/-- The tokens that at most `n` successive calls of `Scan` yield, and the
scanner when `Scan` first returns false. -/
def Scanner.tokens (split : List Byte → Bool → SplitResult) :
    Nat → Scanner → List (List Byte) × Scanner
  | 0, s => ([], { s with err := some ScanError.outOfFuel })
  | n + 1, s =>
    match Scanner.Scan split s with
    | (some tok, s1) =>
      let rest := Scanner.tokens split n s1
      (tok :: rest.1, rest.2)
    | (none, s1) => ([], s1)

/-! ## Resources and resource maps -/

/-- The part of `resource.Resource` the loader uses: `ResourceID().String()`,
`Source()`, and the bytes the resource was decoded from. -/
structure Resource where
  id : String
  source : String
  bytes : List Byte
  deriving DecidableEq, Repr

/-- A Go `map[string]resource.Resource`, as an association list in which
every key occurs once. -/
abbrev ResourceMap := List (String × Resource)

/-- The lookup `m[k]` with its `ok` flag. -/
def ResourceMap.get (m : ResourceMap) (k : String) : Option Resource :=
  match m with
  | [] => none
  | (k1, v) :: t => if k1 = k then some v else ResourceMap.get t k

/-- The assignment `m[k] = v`. -/
def ResourceMap.set (m : ResourceMap) (k : String) (v : Resource) : ResourceMap :=
  match m with
  | [] => [(k, v)]
  | (k1, v1) :: t => if k1 = k then (k, v) :: t else (k1, v1) :: ResourceMap.set t k v

/-- The keys of a map. -/
def ResourceMap.keys (m : ResourceMap) : List String := m.map Prod.fst

/-! ## The multi-document parser -/

/-- Equality of results that may be errors is decidable. -/
instance instDecidableEqExcept {ε α : Type} [DecidableEq ε] [DecidableEq α] :
    DecidableEq (Except ε α)
  | Except.error a, Except.error b =>
    if h : a = b then isTrue (by rw [h]) else isFalse (fun e => h (Except.error.inj e))
  | Except.ok a, Except.ok b =>
    if h : a = b then isTrue (by rw [h]) else isFalse (fun e => h (Except.ok.inj e))
  | Except.error _, Except.ok _ => isFalse (fun e => Except.noConfusion e)
  | Except.ok _, Except.error _ => isFalse (fun e => Except.noConfusion e)

/-- The decoder `unmarshalObject(source, bytes)`: a resource, nothing, or an
error. -/
abbrev Decoder := String → List Byte → Except String (Option Resource)

/-- The errors `ParseMultidoc` returns, each wrapping its cause with the
source label. -/
inductive ParseError
  | decode (source : String) (cause : String)
  | scan (source : String) (cause : ScanError)
  deriving DecidableEq, Repr

/-- A run of `ParseMultidoc`: the two results of the Go function and, as a
record of what the run did, the chunks handed to the decoder in order. -/
structure ParseRun where
  objs : Option ResourceMap
  err : Option ParseError
  decoded : List (List Byte)
  deriving DecidableEq, Repr

/-- The loop `for chunks.Scan() { ... }` of `ParseMultidoc` and the return
after it, for at most `n` calls of `Scan`. -/
def parseLoop (unmarshalObject : Decoder) (source : String) :
    Nat → Scanner → ResourceMap → List (List Byte) → ParseRun
  | 0, _, objs, decoded => ⟨some objs, some (ParseError.scan source ScanError.outOfFuel), decoded⟩
  | n + 1, chunks, objs, decoded =>
    match Scanner.Scan splitYAMLDocument chunks with
    | (some bytes2, chunks1) =>
      match unmarshalObject source bytes2 with
      | Except.error e => ⟨none, some (ParseError.decode source e), decoded ++ [bytes2]⟩
      | Except.ok none => parseLoop unmarshalObject source n chunks1 objs (decoded ++ [bytes2])
      | Except.ok (some obj) =>
        parseLoop unmarshalObject source n chunks1 (objs.set obj.id obj) (decoded ++ [bytes2])
    | (none, chunks1) =>
      match chunks1.Err with
      | some e => ⟨some objs, some (ParseError.scan source e), decoded⟩
      | none => ⟨some objs, none, decoded⟩

/-- The scanner `ParseMultidoc` sets up: a 4096-byte initial buffer that may
grow to 1MB. -/
def multidocScanner (multidoc : List Byte) : Scanner :=
  (NewScanner multidoc).Buffer 4096 (1024 * 1024)

/-- The run of `ParseMultidoc(multidoc, source)`. Every token consumes at
least one byte, so `multidoc.length + 2` calls of `Scan` are enough. -/
def ParseMultidocRun (unmarshalObject : Decoder) (multidoc : List Byte) (source : String) :
    ParseRun :=
  parseLoop unmarshalObject source (multidoc.length + 2) (multidocScanner multidoc) [] []

/-- The function `ParseMultidoc(multidoc, source)` of load.go. -/
def ParseMultidoc (unmarshalObject : Decoder) (multidoc : List Byte) (source : String) :
    Option ResourceMap × Option ParseError :=
  let run := ParseMultidocRun unmarshalObject multidoc source
  (run.objs, run.err)

/-- The chunks of a file: the tokens the scanner of `ParseMultidoc` yields
over the file's bytes, and the scanner's error at the end. -/
def chunksOf (multidoc : List Byte) : List (List Byte) × Option ScanError :=
  let run := Scanner.tokens splitYAMLDocument (multidoc.length + 2) (multidocScanner multidoc)
  (run.1, run.2.Err)

/-- The chunks decoded one after the other, as `ParseMultidoc` does with the
tokens of its scanner: `chunks` are the tokens still to come and `serr` the
scanner's error after the last of them. -/
def decodeChunks (unmarshalObject : Decoder) (source : String) :
    List (List Byte) → Option ScanError → ResourceMap → List (List Byte) → ParseRun
  | [], serr, objs, decoded => ⟨some objs, serr.map (ParseError.scan source), decoded⟩
  | c :: cs, serr, objs, decoded =>
    match unmarshalObject source c with
    | Except.error e => ⟨none, some (ParseError.decode source e), decoded ++ [c]⟩
    | Except.ok none => decodeChunks unmarshalObject source cs serr objs (decoded ++ [c])
    | Except.ok (some obj) =>
      decodeChunks unmarshalObject source cs serr (objs.set obj.id obj) (decoded ++ [c])

/-! ## The tree loader -/

/-- What the file system holds at a path: a regular file with the content
`ioutil.ReadFile` returns (`none` when the read fails), a directory with its
entries in the order `filepath.Walk` takes them, or something `os.Lstat`
fails on. -/
inductive Node
  | file (content : Option (List Byte))
  | dir (entries : List (String × Node))
  | bad (cause : String)
  deriving Repr

/-- Go `info.IsDir()`. -/
def Node.IsDir : Node → Bool
  | Node.dir _ => true
  | _ => false

/-- Whether `os.Stat` of the entry `name` of this directory finds something:
its error is a not-exist error exactly when the directory lists no such
entry. -/
def Node.hasEntry : Node → String → Bool
  | Node.dir es, name => es.any (fun e => e.1 == name)
  | _, _ => false

/-- Go `ioutil.ReadFile` at a path holding this node; it fails on a
directory. -/
def Node.ReadFile : Node → Option (List Byte)
  | Node.file content => content
  | _ => none

/-- The loop of `filepath.Ext` over the path read backwards; `acc` is what
follows the byte looked at. -/
def extFrom : List Char → List Char → List Char
  | [], _ => []
  | c :: before, acc =>
    if c = '/' then [] else if c = '.' then '.' :: acc else extFrom before (c :: acc)

/-- Go `filepath.Ext(path)`: the suffix beginning at the final dot in the
final element of the path, empty if there is no dot. -/
def Ext (path : String) : String := String.mk (extFrom path.data.reverse [])

/-- The function `looksLikeChart(dir)` of load.go, on the node at `dir`. -/
def looksLikeChart (dir : Node) : Bool :=
  if !dir.hasEntry "Chart.yaml" then false
  else if !dir.hasEntry "values.yaml" then false
  else true

/-- The errors `Load` returns. -/
inductive LoadError
  | walking (path : String) (cause : String)
  | reading (path : String)
  | relative (path : String)
  | parsing (path : String) (cause : ParseError)
  | duplicate (id : String) (first : String) (second : String)
  deriving DecidableEq, Repr

/-- What a walk function returns besides `nil`: `filepath.SkipDir` or an
error of the loader. -/
inductive WalkError
  | skipDir
  | failed (e : LoadError)
  deriving DecidableEq, Repr

/-- What `Load` takes from outside this file: the decoder, the path
functions `filepath.Join` and `filepath.Rel` (`none` for an error), the
order in which `range` goes through a map, and what `os.Lstat` finds at a
root. -/
structure Env where
  unmarshalObject : Decoder
  join : String → String → String
  rel : String → String → Option String
  range : ResourceMap → ResourceMap
  lstat : String → Node

mutual
/-- The function `walk` of path/filepath on the node `info` at `path`, the
walk function threading a state. -/
def walk {σ : Type} (join : String → String → String)
    (walkFn : String → Node → σ → σ × Option WalkError) (path : String) :
    Node → σ → σ × Option WalkError
  | Node.dir es, st =>
    match walkFn path (Node.dir es) st with
    | (st1, some e) => (st1, some e)
    | (st1, none) => walkNames join walkFn path es st1
  | Node.file content, st => walkFn path (Node.file content) st
  | Node.bad cause, st => walkFn path (Node.bad cause) st
/-- The loop of `walk` over the names of a directory. -/
def walkNames {σ : Type} (join : String → String → String)
    (walkFn : String → Node → σ → σ × Option WalkError) (path : String) :
    List (String × Node) → σ → σ × Option WalkError
  | [], st => (st, none)
  | (name, Node.bad cause) :: rest, st =>
    match walkFn (join path name) (Node.bad cause) st with
    | (st1, some e) =>
      if e ≠ WalkError.skipDir then (st1, some e) else walkNames join walkFn path rest st1
    | (st1, none) => walkNames join walkFn path rest st1
  | (name, Node.file content) :: rest, st =>
    match walk join walkFn (join path name) (Node.file content) st with
    | (st1, some e) => (st1, some e)
    | (st1, none) => walkNames join walkFn path rest st1
  | (name, Node.dir es) :: rest, st =>
    match walk join walkFn (join path name) (Node.dir es) st with
    | (st1, some e) =>
      if e ≠ WalkError.skipDir then (st1, some e) else walkNames join walkFn path rest st1
    | (st1, none) => walkNames join walkFn path rest st1
end

/-- Go `filepath.Walk(root, walkFn)` where `info` is what `os.Lstat(root)`
finds. -/
def Walk {σ : Type} (join : String → String → String)
    (walkFn : String → Node → σ → σ × Option WalkError) (root : String) (info : Node) (st : σ) :
    σ × Option LoadError :=
  match walk join walkFn root info st with
  | (st1, some (WalkError.failed e)) => (st1, some e)
  | (st1, some WalkError.skipDir) => (st1, none)
  | (st1, none) => (st1, none)

/-- The loop `for id, obj := range docsInFile` of `Load`, over the entries
in the order `range` yields them. -/
def mergeDocs (source : String) : ResourceMap → ResourceMap → ResourceMap × Option WalkError
  | [], objs => (objs, none)
  | (id, obj) :: rest, objs =>
    match objs.get id with
    | some alreadyDefined =>
      (objs, some (WalkError.failed (LoadError.duplicate id alreadyDefined.source source)))
    | none => mergeDocs source rest (objs.set id obj)

/-- The test of line 31 of load.go that selects what is read and parsed. -/
def selected (info : Node) (path : String) : Bool :=
  ((!info.IsDir) && Ext path == ".yaml") || Ext path == ".yml"

/-- The walk function of `Load`, the map `objs` it updates made explicit. -/
def visit (env : Env) (base : String) (path : String) (info : Node) (objs : ResourceMap) :
    ResourceMap × Option WalkError :=
  match info with
  | Node.bad cause => (objs, some (WalkError.failed (LoadError.walking path cause)))
  | _ =>
    if info.IsDir && looksLikeChart info then
      (objs, some WalkError.skipDir)
    else if selected info path then
      match info.ReadFile with
      | none => (objs, some (WalkError.failed (LoadError.reading path)))
      | some bytes =>
        match env.rel base path with
        | none => (objs, some (WalkError.failed (LoadError.relative path)))
        | some source =>
          match ParseMultidoc env.unmarshalObject bytes source with
          | (_, some e) => (objs, some (WalkError.failed (LoadError.parsing path e)))
          | (docsInFile, none) => mergeDocs source (env.range (docsInFile.getD [])) objs
    else
      (objs, none)

/-- The loop of `Load` over its roots. -/
def loadRoots (env : Env) (base : String) : List String → ResourceMap →
    ResourceMap × Option LoadError
  | [], objs => (objs, none)
  | root :: rest, objs =>
    match Walk env.join (visit env base) root (env.lstat root) objs with
    | (objs1, some e) => (objs1, some e)
    | (objs1, none) => loadRoots env base rest objs1

/-- The function `Load(base, atLeastOne, more...)` of load.go. -/
def Load (env : Env) (base : String) (atLeastOne : String) (more : List String) :
    ResourceMap × Option LoadError :=
  loadRoots env base (atLeastOne :: more) []

/-! ## The sequence of files a load processes

The walk of `Load` is described here as a list of visited entries, and the
files among them that are read and parsed as a list of per-file maps; the
facts below relate `Load` to these lists. -/

mutual
/-- The entries `filepath.Walk` hands to the walk function of `Load` for the
node at `path`, in the order of the walk: the node itself and, unless it
looks like a chart, what is below it. -/
def visits (join : String → String → String) (path : String) : Node → List (String × Node)
  | Node.dir es =>
    (path, Node.dir es) ::
      (if looksLikeChart (Node.dir es) then [] else visitsNames join path es)
  | Node.file content => [(path, Node.file content)]
  | Node.bad cause => [(path, Node.bad cause)]
/-- The entries visited for the names of a directory. -/
def visitsNames (join : String → String → String) (path : String) :
    List (String × Node) → List (String × Node)
  | [] => []
  | (name, n) :: rest => visits join (join path name) n ++ visitsNames join path rest
end

/-- The entries visited by a load of the given roots, in order. -/
def allVisits (env : Env) : List String → List (String × Node)
  | [] => []
  | root :: rest => visits env.join root (env.lstat root) ++ allVisits env rest

/-- What the visit of an entry comes to before any merging: it fails, it
skips a chart directory, it passes over the entry, or it has read and
parsed a file and holds its source label and documents. -/
inductive Visit
  | fails (e : LoadError)
  | skips
  | passes
  | parsed (source : String) (docs : ResourceMap)
  deriving DecidableEq, Repr

/-- The visit of the entry `info` at `path` up to the merge loop. -/
def classify (env : Env) (base : String) (path : String) (info : Node) : Visit :=
  match info with
  | Node.bad cause => Visit.fails (LoadError.walking path cause)
  | _ =>
    if info.IsDir && looksLikeChart info then Visit.skips
    else if selected info path then
      match info.ReadFile with
      | none => Visit.fails (LoadError.reading path)
      | some bytes =>
        match env.rel base path with
        | none => Visit.fails (LoadError.relative path)
        | some source =>
          match ParseMultidoc env.unmarshalObject bytes source with
          | (_, some e) => Visit.fails (LoadError.parsing path e)
          | (docsInFile, none) => Visit.parsed source (docsInFile.getD [])
    else Visit.passes

/-- The source label and documents of an entry that is read and parsed
without error. -/
def entryDocs (env : Env) (base : String) (e : String × Node) : Option (String × ResourceMap) :=
  match classify env base e.1 e.2 with
  | Visit.parsed source docs => some (source, docs)
  | _ => none

/-- Whether the visit of an entry meets no walk, read, path or parse
error. -/
def entryOk (env : Env) (base : String) (e : String × Node) : Bool :=
  match classify env base e.1 e.2 with
  | Visit.fails _ => false
  | _ => true

/-- The files a load of the given roots reads and parses, in order, each
with its source label and its map of documents. -/
def processedFiles (env : Env) (base : String) (roots : List String) :
    List (String × ResourceMap) :=
  (allVisits env roots).filterMap (entryDocs env base)

/-- The walk function of `Load` applied to a list of entries in order, up to
the first error. -/
def runVisits (env : Env) (base : String) :
    List (String × Node) → ResourceMap → ResourceMap × Option LoadError
  | [], objs => (objs, none)
  | (path, info) :: rest, objs =>
    match visit env base path info objs with
    | (objs1, some (WalkError.failed e)) => (objs1, some e)
    | (objs1, some WalkError.skipDir) => runVisits env base rest objs1
    | (objs1, none) => runVisits env base rest objs1

/-- The merge loop of `Load` applied to a list of per-file maps in order, up
to the first duplicate. -/
def mergeFiles (range : ResourceMap → ResourceMap) :
    List (String × ResourceMap) → ResourceMap → ResourceMap × Option LoadError
  | [], objs => (objs, none)
  | (source, docs) :: rest, objs =>
    match mergeDocs source (range docs) objs with
    | (objs1, some (WalkError.failed e)) => (objs1, some e)
    | (objs1, some WalkError.skipDir) => mergeFiles range rest objs1
    | (objs1, none) => mergeFiles range rest objs1

/-- Two per-file maps share no identifier. -/
def DisjointFiles (f g : String × ResourceMap) : Prop :=
  ∀ k, k ∈ f.2.keys → k ∉ g.2.keys

/-! ## A concrete decoder and environment for examples -/

/-- A small decoder: a chunk of blanks and line ends holds nothing, a chunk
that begins with `!` is invalid, any other chunk is a resource named by its
first line. -/
def sampleUnmarshal : Decoder := fun source bytes =>
  if bytes.all (fun b => b == 32 || b == 10) then Except.ok none
  else if bytes.head? == some 33 then Except.error "invalid document"
  else Except.ok (some ⟨String.mk ((bytes.takeWhile (fun b => b != 10)).map Char.ofNat),
    source, bytes⟩)

/-- An environment over the file system `fs`: paths are joined with a
slash, labels are the paths themselves, maps are ranged over in the order
of insertion. -/
def sampleEnv (fs : String → Node) : Env :=
  { unmarshalObject := sampleUnmarshal
    join := fun dir name => dir ++ "/" ++ name
    rel := fun _ path => some path
    range := fun m => m
    lstat := fs }

/-- A file system for examples. At "a.yaml" and "b.yaml" two files that each
hold the document "foo"; at "c.yaml" a file with the documents "bar" and
"baz"; at "conf.yml" an empty directory; at "r" a directory with a
subdirectory "sub.yml" that holds the manifest "a.yaml"; at "s" the same
tree with the subdirectory named "sub"; at "chart" a chart directory with a
manifest below it; nothing elsewhere. -/
def sampleFS : String → Node := fun path =>
  if path = "a.yaml" then Node.file (some [102, 111, 111])
  else if path = "b.yaml" then Node.file (some [102, 111, 111])
  else if path = "c.yaml" then
    Node.file (some [98, 97, 114, 10, 45, 45, 45, 10, 98, 97, 122])
  else if path = "conf.yml" then Node.dir []
  else if path = "r" then
    Node.dir [("sub.yml", Node.dir [("a.yaml", Node.file (some [102, 111, 111]))])]
  else if path = "s" then
    Node.dir [("sub", Node.dir [("a.yaml", Node.file (some [102, 111, 111]))])]
  else if path = "chart" then
    Node.dir [("Chart.yaml", Node.file (some [])), ("templates",
      Node.dir [("a.yaml", Node.file (some [102, 111, 111]))]),
      ("values.yaml", Node.file (some []))]
  else Node.bad "no such file or directory"

/-- A file system for examples with one directory, "d", that lists the given
entries in the given order; nothing elsewhere. -/
def sampleListing (es : List (String × Node)) : String → Node := fun path =>
  if path = "d" then Node.dir es else Node.bad "no such file or directory"

/-- The resources the chunks of a file decode to, in stream order. -/
def resourcesOf (unmarshalObject : Decoder) (source : String) (chunks : List (List Byte)) :
    List Resource :=
  chunks.filterMap (fun c =>
    match unmarshalObject source c with
    | Except.ok (some obj) => some obj
    | _ => none)

/-- The assignments `objs[obj.ResourceID().String()] = obj` for a list of
resources, in order. -/
def ResourceMap.setAll (objs : ResourceMap) (rs : List Resource) : ResourceMap :=
  rs.foldl (fun m obj => m.set obj.id obj) objs

/-- The number of bytes a scanner has not consumed yet. -/
def Scanner.pending (s : Scanner) : Nat := s.held.length + s.r.length

/-- The number of passes of the loop of `Scan` that can still ask for
another pass: one for each byte to read and one for meeting the end of the
input. -/
def Scanner.passes (s : Scanner) : Nat := s.r.length + (if s.err = none then 1 else 0)

/-- The bounds a scanner's window and buffer keep: the window lies in the
buffer, the buffer has not outgrown `maxTokenSize`, and doubling the buffer
length cannot overflow. -/
structure Scanner.WF (s : Scanner) : Prop where
  window : s.start + s.held.length ≤ s.bufLen
  cap : s.bufLen ≤ s.maxTokenSize
  maxOk : s.maxTokenSize ≤ maxInt / 2

/-- The separator line "\n---\n" that joins the documents of a stream. -/
def separatorLine : List Byte := yamlSeparator ++ [newline]

/-- A multi-document stream: the documents joined by the separator line. -/
def joinDocs : List (List Byte) → List Byte
  | [] => []
  | [d] => d
  | d :: d2 :: ds => d ++ (separatorLine ++ joinDocs (d2 :: ds))

/-! ## Value overrides for charts (integrations/helm/release/utils.go) -/

/-- A Go value of type `interface{}` as the value overrides hold them, taken
as a tree: a string, another scalar of a decoded JSON list (given by its
text), a list, or a `map[string]interface{}` given by its entries. Which map
objects of the memory hold these entries, and whether two values hold one
and the same object, is told by `GoValue` and `Heap` below. -/
inductive Value
  | str (s : String)
  | scalar (text : String)
  | list (xs : List Value)
  | map (m : List (String × Value))
  deriving Repr

/-- A Go `map[string]interface{}`, as an association list. -/
abbrev ValueMap := List (String × Value)

/-- The lookup `m[k]` with its `ok` flag. -/
def ValueMap.get (m : ValueMap) (k : String) : Option Value :=
  match m with
  | [] => none
  | (k1, v) :: t => if k1 = k then some v else ValueMap.get t k

/-- The assignment `m[k] = v`. -/
def ValueMap.set (m : ValueMap) (k : String) (v : Value) : ValueMap :=
  match m with
  | [] => [(k, v)]
  | (k1, v1) :: t => if k1 = k then (k, v) :: t else (k1, v1) :: ValueMap.set t k v

/-- The keys of a map. -/
def ValueMap.keys (m : ValueMap) : List String := m.map Prod.fst

/-- Whether the type assertion `v.(map[string]interface{})` succeeds. -/
def Value.isMap : Value → Bool
  | Value.map _ => true
  | _ => false

/-- A Go value of type `interface{}` as it lies in memory: a string, another
scalar, a slice, or a map, which is a reference to a map object of the heap
(its number) or the nil map. -/
inductive GoValue
  | str (s : String)
  | scalar (text : String)
  | list (xs : List GoValue)
  | map (ref : Option Nat)
  deriving Repr

/-- The entries of one map object, as an association list. -/
abbrev GoMap := List (String × GoValue)

/-- The map objects of the memory, each under its number. Two values that
hold the same number hold the same map: an assignment through one is seen
through the other. -/
abbrev Heap := List GoMap

/-- The lookup `m[k]` in the entries of a map object, with its `ok` flag. -/
def GoMap.get (m : GoMap) (k : String) : Option GoValue :=
  match m with
  | [] => none
  | (k1, v) :: t => if k1 = k then some v else GoMap.get t k

/-- The entries of a map object after the assignment `m[k] = v`. -/
def GoMap.set (m : GoMap) (k : String) (v : GoValue) : GoMap :=
  match m with
  | [] => [(k, v)]
  | (k1, v1) :: t => if k1 = k then (k, v) :: t else (k1, v1) :: GoMap.set t k v

/-- The keys of a map object. -/
def GoMap.keys (m : GoMap) : List String := m.map Prod.fst

/-- How a run of `mergeValues` ends when it does not return: with the
runtime panic "assignment to entry in nil map", at a reference to no map
object of the heap (which no Go value holds), or in a recursion deeper than
the bound given to the run. -/
inductive Panic
  | nilMap
  | noObject
  | depth
  deriving DecidableEq, Repr

/-- The lookup `m[k]` of the map value `m`, with its `ok` flag; the nil map
holds no key. -/
def Heap.lookup (h : Heap) (m : Option Nat) (k : String) : Option GoValue :=
  match m with
  | none => none
  | some r =>
    match h[r]? with
    | none => none
    | some es => es.get k

/-- The assignment `dest[k] = v`: it writes into the map object `dest`
refers to, and panics when `dest` is the nil map. -/
def Heap.assign (h : Heap) (dest : Option Nat) (k : String) (v : GoValue) : Except Panic Heap :=
  match dest with
  | none => Except.error Panic.nilMap
  | some d =>
    match h[d]? with
    | none => Except.error Panic.noObject
    | some es => Except.ok (h.set d (es.set k v))

/-- The body of the loop of `mergeValues` for the entry `k, v` of `src`,
`merge` being the recursive call. -/
def mergeValuesAt (merge : Heap → Option Nat → Option Nat → Except Panic Heap) (h : Heap)
    (dest : Option Nat) (k : String) (v : GoValue) : Except Panic Heap :=
  match h.lookup dest k with
  -- If the key doesn't exist already, then just set the key to that value
  | none => h.assign dest k v
  | some dv =>
    match v with
    | GoValue.map nextMap =>
      match dv with
      -- If we got to this point, it is a map in both, so merge them
      | GoValue.map destMap =>
        match merge h destMap nextMap with
        | Except.error e => Except.error e
        | Except.ok h1 => h1.assign dest k (GoValue.map destMap)
      -- Edge case: If the key exists in the destination, but isn't a map
      | _ => h.assign dest k v
    -- If it isn't another map, overwrite the value
    | _ => h.assign dest k v

/-- The loop `for k, v := range src` of `mergeValues` over the keys still to
come, `src` being the map object ranged over: each value is read from `src`
when its key is reached. -/
def mergeValuesLoop (merge : Heap → Option Nat → Option Nat → Except Panic Heap)
    (dest : Option Nat) (src : Nat) : List String → Heap → Except Panic Heap
  | [], h => Except.ok h
  | k :: ks, h =>
    match h.lookup (some src) k with
    | none => mergeValuesLoop merge dest src ks h
    | some v =>
      match mergeValuesAt merge h dest k v with
      | Except.error e => Except.error e
      | Except.ok h1 => mergeValuesLoop merge dest src ks h1

/-- The function `mergeValues(dest, src)` of utils.go on the heap `h`. It
returns `dest` itself, so the result here is the heap it leaves. The keys
`src` has when the loop starts are gone through in the order `range` puts
them in (Go leaves open whether a key put into `src` during the loop is
gone through; here it is not); the first argument bounds the depth of the
recursion, which Go does not bound. -/
def mergeValues (range : List String → List String) :
    Nat → Heap → Option Nat → Option Nat → Except Panic Heap
  | 0, _, _, _ => Except.error Panic.depth
  | fuel + 1, h, dest, src =>
    match src with
    | none => Except.ok h
    | some s =>
      match h[s]? with
      | none => Except.error Panic.noObject
      | some es => mergeValuesLoop (mergeValues range fuel) dest s (range es.keys) h

/-- The loop of Go `strings.Split(s, ".")` over the characters of `s`. -/
def splitDots : List Char → List (List Char)
  | [] => [[]]
  | c :: cs =>
    if c = '.' then [] :: splitDots cs
    else
      match splitDots cs with
      | [] => [[c]]
      | seg :: segs => (c :: seg) :: segs

/-- Go `strings.Split(k, ".")`. -/
def stringsSplit (k : String) : List String := (splitDots k.data).map String.mk

/-- The loop of the function `reverse(s)` of utils.go: swap `s[i]` and
`s[j]` while `i < j`, for at most `n` rounds. -/
def reverseLoop : Nat → Nat → Nat → List String → List String
  | 0, _, _, s => s
  | n + 1, i, j, s =>
    if i < j then reverseLoop n (i + 1) (j - 1) ((s.set i (s.getD j "")).set j (s.getD i ""))
    else s

/-- The function `reverse(s)` of utils.go. -/
def reverse (s : List String) : List String := reverseLoop s.length 0 (s.length - 1) s

/-- The loop of `mappifyValueOverride` over `nests`, `i` being the index of
the next element and `inner` the map built so far. -/
def mappifyLoop (v : Value) : List String → Nat → ValueMap → ValueMap
  | [], _, inner => inner
  | n :: rest, i, inner =>
    if i = 0 then mappifyLoop v rest (i + 1) (inner.set n v)
    else mappifyLoop v rest (i + 1) [(n, Value.map inner)]

/-- The function `mappifyValueOverride(k, v)` of utils.go; its error result
is always `nil`. -/
def mappifyValueOverride (k : String) (v : Value) : ValueMap × Option String :=
  (mappifyLoop v (reverse (stringsSplit k)) 0 [], none)

/-- The type `ifv1.HelmChartParam`: a name and a value. -/
structure HelmChartParam where
  Name : String
  Value : String
  deriving DecidableEq, Repr

/-- What `collectValues` takes from the libraries and the runtime:
`strings.TrimSpace`, `strings.Trim(s, "\n")`, the match of the regular
expression `^\[.*\]$`, `json.Unmarshal` into a `[]interface{}`,
`yaml.Marshal` of a map of the heap, and the order in which `range` goes
through the keys of a map. -/
structure ValuesEnv where
  trimSpace : String → String
  trimNewlines : String → String
  bracketed : String → Bool
  jsonUnmarshal : String → Except String (List Value)
  yamlMarshal : Heap → Nat → Except String (List Byte)
  range : List String → List String

/-- The function `cleanup(k, v)` of utils.go. -/
def cleanup (env : ValuesEnv) (k v : String) : String × String :=
  (env.trimNewlines (env.trimSpace k), env.trimNewlines (env.trimSpace v))

/-- The function `unwrap(v)` of utils.go. -/
def unwrap (env : ValuesEnv) (v : String) : Except String Value :=
  match env.jsonUnmarshal v with
  | Except.error e => Except.error e
  | Except.ok out => Except.ok (Value.list out)

/-- The value `vu` that `collectValues` merges for the cleaned value `v`:
`v` itself, or the list it unwraps to when it matches the regular
expression. -/
def overrideValue (env : ValuesEnv) (v : String) : Except String Value :=
  if env.bracketed v then unwrap env v else Except.ok (Value.str v)

/-- The nested map for the segments of a dotted name: the single key `s1`
holds the map with the single key `s2`, and so on, the innermost key
holding `v`. -/
def nestedMap (v : Value) : List String → ValueMap
  | [] => []
  | [s] => [(s, v)]
  | s :: s2 :: rest => [(s, Value.map (nestedMap v (s2 :: rest)))]

/-- The name with the given segments: the segments joined by dots. -/
def dotted : List String → String
  | [] => ""
  | [s] => s
  | s :: s2 :: rest => s ++ "." ++ dotted (s2 :: rest)

/-- Following a path of keys down nested maps. -/
def lookupPath : List String → ValueMap → Option Value
  | [], _ => none
  | [s], m => m.get s
  | s :: s2 :: rest, m =>
    match m.get s with
    | some (Value.map sub) => lookupPath (s2 :: rest) sub
    | _ => none

mutual
/-- Go builds the value `v` out of new map objects: the heap after it, and
the value as it lies there. Every map of the tree gets an object of its
own. -/
def allocValue : Heap → Value → Heap × GoValue
  | h, Value.str s => (h, GoValue.str s)
  | h, Value.scalar t => (h, GoValue.scalar t)
  | h, Value.list xs =>
    match allocList h xs with
    | (h1, gxs) => (h1, GoValue.list gxs)
  | h, Value.map es =>
    match allocEntries h es with
    | (h1, ges) => (h1 ++ [ges], GoValue.map (some h1.length))
/-- The entries of a new map, built one after the other. -/
def allocEntries : Heap → List (String × Value) → Heap × GoMap
  | h, [] => (h, [])
  | h, (k, v) :: es =>
    match allocValue h v with
    | (h1, gv) =>
      match allocEntries h1 es with
      | (h2, ges) => (h2, (k, gv) :: ges)
/-- The elements of a new slice, built one after the other. -/
def allocList : Heap → List Value → Heap × List GoValue
  | h, [] => (h, [])
  | h, v :: xs =>
    match allocValue h v with
    | (h1, gv) =>
      match allocList h1 xs with
      | (h2, gxs) => (h2, gv :: gxs)
end

/-- A new map object with the given entries: the heap after it and the
number of the object. -/
def allocMap (h : Heap) (es : ValueMap) : Heap × Nat :=
  ((allocEntries h es).1 ++ [(allocEntries h es).2], (allocEntries h es).1.length)

mutual
/-- How deep maps lie in maps in a value: the number of maps on the longest
way down from a map to a map it holds under a key. -/
def Value.mapDepth : Value → Nat
  | Value.map es => entriesDepth es + 1
  | _ => 0
/-- The greatest depth among the values of the entries. -/
def entriesDepth : List (String × Value) → Nat
  | [] => 0
  | (_, v) :: es => max v.mapDepth (entriesDepth es)
end

/-- Why the loop of `collectValues` stops early: with an error it returns,
or in a panic of `mergeValues`. -/
inductive ValuesError
  | message (e : String)
  | panic (p : Panic)
  deriving DecidableEq, Repr

/-- The loop of `collectValues` over the parameters, `base` being the map
merged so far, an object of the heap `h`. The map `pMap` of a parameter is
built of new objects; the recursion of `mergeValues` follows the nesting of
`pMap`, which bounds it. -/
def collectLoop (env : ValuesEnv) : List HelmChartParam → Heap → Nat → Except ValuesError Heap
  | [], h, _ => Except.ok h
  | p :: rest, h, base =>
    let kv := cleanup env p.Name p.Value
    if kv.1 = "" then collectLoop env rest h base
    else
      match overrideValue env kv.2 with
      | Except.error e => Except.error (ValuesError.message e)
      | Except.ok vu =>
        match mappifyValueOverride kv.1 vu with
        | (_, some e) => Except.error (ValuesError.message e)
        | (pMap, none) =>
          match mergeValues env.range (Value.mapDepth (Value.map pMap)) (allocMap h pMap).1
              (some base) (some (allocMap h pMap).2) with
          | Except.error e => Except.error (ValuesError.panic e)
          | Except.ok h1 => collectLoop env rest h1 base

/-- The function `collectValues(logger, params)` of utils.go, the log line
apart: `base` is a new, empty map, the object 0 of a heap that holds nothing
else. -/
def collectValues (env : ValuesEnv) (params : List HelmChartParam) :
    Except ValuesError (List Byte) :=
  if params.length = 0 then
    match env.yamlMarshal [[]] 0 with
    | Except.error e => Except.error (ValuesError.message e)
    | Except.ok out => Except.ok out
  else
    match collectLoop env params [[]] 0 with
    | Except.error e => Except.error e
    | Except.ok h =>
      match env.yamlMarshal h 0 with
      | Except.error e => Except.error (ValuesError.message e)
      | Except.ok out => Except.ok out

/-- The body of the loop of a merge of two trees for the entry `k, v` of
`src`, `merge` being the merge of two nested maps. -/
def mergeTreesAt (merge : ValueMap → ValueMap → Option ValueMap) (dest : ValueMap)
    (k : String) (v : Value) : Option ValueMap :=
  match dest.get k with
  | none => some (dest.set k v)
  | some dv =>
    match v with
    | Value.map nextMap =>
      match dv with
      | Value.map destMap =>
        match merge destMap nextMap with
        | none => none
        | some m => some (dest.set k (Value.map m))
      | _ => some (dest.set k v)
    | _ => some (dest.set k v)

/-- The loop of a merge of two trees over the keys still to come. -/
def mergeTreesLoop (merge : ValueMap → ValueMap → Option ValueMap) (src : ValueMap) :
    List String → ValueMap → Option ValueMap
  | [], dest => some dest
  | k :: ks, dest =>
    match src.get k with
    | none => mergeTreesLoop merge src ks dest
    | some v =>
      match mergeTreesAt merge dest k v with
      | none => none
      | some dest1 => mergeTreesLoop merge src ks dest1

/-- The merge of two maps taken as trees: what the steps of `mergeValues`
come to when every map is held once, so that no assignment is seen through
another value; `none` when the nesting of `src` is deeper than the bound. -/
def mergeTrees (range : List String → List String) : Nat → ValueMap → ValueMap → Option ValueMap
  | 0, _, _ => none
  | fuel + 1, dest, src => mergeTreesLoop (mergeTrees range fuel) src (range src.keys) dest

mutual
/-- Whether the Go value `gv`, read in the heap `h`, is the tree `t`: the
same strings and scalars, and under every map reference an object with the
same keys in the same order whose values are the values of the tree. The
nil map is an empty map, where `nilOk` lets it in. -/
def denotes (nilOk : Bool) (h : Heap) : Value → GoValue → Bool
  | Value.str s, GoValue.str s1 => decide (s = s1)
  | Value.scalar t, GoValue.scalar t1 => decide (t = t1)
  | Value.list xs, GoValue.list gxs => denotesList nilOk h xs gxs
  | Value.map es, GoValue.map (some r) =>
    match h[r]? with
    | none => false
    | some ges => denotesEntries nilOk h es ges
  | Value.map es, GoValue.map none => nilOk && es.isEmpty
  | _, _ => false
/-- Whether the entries of a map object are the entries of a tree. -/
def denotesEntries (nilOk : Bool) (h : Heap) : List (String × Value) → GoMap → Bool
  | [], [] => true
  | (k, v) :: es, (k1, gv) :: ges =>
    decide (k = k1) && denotes nilOk h v gv && denotesEntries nilOk h es ges
  | _, _ => false
/-- Whether the elements of a slice are the elements of a list of trees. -/
def denotesList (nilOk : Bool) (h : Heap) : List Value → List GoValue → Bool
  | [], [] => true
  | v :: xs, gv :: gxs => denotes nilOk h v gv && denotesList nilOk h xs gxs
  | _, _ => false
end

mutual
/-- The map objects gone through when the Go value `gv` is read as the tree
`t`, each as often as it is met. -/
def footprint (h : Heap) : Value → GoValue → List Nat
  | Value.list xs, GoValue.list gxs => footprintList h xs gxs
  | Value.map es, GoValue.map (some r) =>
    match h[r]? with
    | none => [r]
    | some ges => r :: footprintEntries h es ges
  | _, _ => []
/-- The map objects gone through in the entries of a map. -/
def footprintEntries (h : Heap) : List (String × Value) → GoMap → List Nat
  | (_, v) :: es, (_, gv) :: ges => footprint h v gv ++ footprintEntries h es ges
  | _, _ => []
/-- The map objects gone through in the elements of a slice. -/
def footprintList (h : Heap) : List Value → List GoValue → List Nat
  | v :: xs, gv :: gxs => footprint h v gv ++ footprintList h xs gxs
  | _, _ => []
end

mutual
/-- Whether the keys of every map that `mergeValues` may range over in a
value are distinct: those of the value, if it is a map, and of the maps it
holds under its keys, and so on. -/
def Value.keysDistinct : Value → Bool
  | Value.map es => decide (ValueMap.keys es).Nodup && entriesKeysDistinct es
  | _ => true
/-- The same for the values of the entries. -/
def entriesKeysDistinct : List (String × Value) → Bool
  | [] => true
  | (_, v) :: es => v.keysDistinct && entriesKeysDistinct es
end

/-- An environment for examples: nothing to trim, no value in brackets, keys
ranged over in the order of insertion. -/
def sampleValuesEnv : ValuesEnv :=
  { trimSpace := fun s => s
    trimNewlines := fun s => s
    bracketed := fun _ => false
    jsonUnmarshal := fun _ => Except.error "not a list"
    yamlMarshal := fun _ _ => Except.ok []
    range := fun ks => ks }

/-- The map objects gone through in the value that the entries hold under
the key `k`, the first entry with that key being meant. -/
def entryFootprint (h : Heap) : List (String × Value) → GoMap → String → List Nat
  | (k1, v) :: es, (_, gv) :: ges, k =>
    if k1 = k then footprint h v gv else entryFootprint h es ges k
  | _, _, _ => []

/-- The map objects gone through in the values that the entries hold under
the given keys, one key after the other. -/
def footprintOfKeys (h : Heap) (es : List (String × Value)) (ges : GoMap) : List String → List Nat
  | [] => []
  | k :: ks => entryFootprint h es ges k ++ footprintOfKeys h es ges ks

/-- What holds between two rounds of the loop of `mergeValues`, seen from
its start in the heap `h0`: `dest` is the object `d`, the round finds it
with the entries `gcur`, which read as the tree `tcur`; the run has written
only into the objects `owned`; no owned object is met twice in `dest`, also
counting what the entries of `src` still to come bring; and under the keys
still to come `dest` holds values without nil maps made of owned objects
only. -/
structure MergeInv (b : Bool) (h0 : Heap) (owned : List Nat) (ts : ValueMap) (gsrc : GoMap)
    (d : Nat) (ks : List String) (h : Heap) (tcur : ValueMap) (gcur : GoMap) : Prop where
  obj : h[d]? = some gcur
  reads : denotesEntries b h tcur gcur = true
  outside : ∀ r, r ∉ owned → h[r]? = h0[r]?
  budget : ∀ r, List.count r (d :: footprintEntries h tcur gcur) +
      List.count r (footprintOfKeys h0 ts gsrc ks) ≤
    List.count r owned + List.count r (footprintEntries h0 ts gsrc)
  untouched : ∀ k ∈ ks, ∀ v gv, ValueMap.get tcur k = some v → GoMap.get gcur k = some gv →
    denotes false h v gv = true ∧ ∀ r ∈ footprint h v gv, r ∈ owned

/-- What a merge on the heap has to do with a merge of trees: whenever
`dest` is a map object that reads as a tree without nil maps and holds no
map object twice, `src` reads as a tree whose maps have distinct keys, none
of the objects of `dest` is met in `src`, and the merge of the two trees
gives `tres`, the merge on the heap returns and leaves `dest` reading as
`tres`; it has written only into objects of `dest`, and `dest` is then made
of objects of the old `dest` and of `src`, none counted more often than
there. -/
def MergeRefines (b : Bool) (mergeH : Heap → Option Nat → Option Nat → Except Panic Heap)
    (mergeT : ValueMap → ValueMap → Option ValueMap) : Prop :=
  ∀ (h : Heap) (d : Nat) (src : Option Nat) (td ts tres : ValueMap),
    denotes false h (Value.map td) (GoValue.map (some d)) = true →
    (footprint h (Value.map td) (GoValue.map (some d))).Nodup →
    denotes b h (Value.map ts) (GoValue.map src) = true →
    (∀ r ∈ footprint h (Value.map td) (GoValue.map (some d)),
      r ∉ footprint h (Value.map ts) (GoValue.map src)) →
    (Value.map ts).keysDistinct = true →
    mergeT td ts = some tres →
    ∃ h2, mergeH h (some d) src = Except.ok h2 ∧
      denotes b h2 (Value.map tres) (GoValue.map (some d)) = true ∧
      (∀ r, r ∉ footprint h (Value.map td) (GoValue.map (some d)) → h2[r]? = h[r]?) ∧
      ∀ r, List.count r (footprint h2 (Value.map tres) (GoValue.map (some d))) ≤
        List.count r (footprint h (Value.map td) (GoValue.map (some d))) +
          List.count r (footprint h (Value.map ts) (GoValue.map src))

/-- The value a round of the merge of trees puts under the key `k` for the
entry `k, v` of `src`: `v`, unless `v` and the value of `dest` are both
maps, and then their merge. -/
def mergedTree (merge : ValueMap → ValueMap → Option ValueMap) (dest : ValueMap) (k : String)
    (v : Value) : Option Value :=
  match v, ValueMap.get dest k with
  | Value.map nextMap, some (Value.map destMap) =>
    match merge destMap nextMap with
    | none => none
    | some m => some (Value.map m)
  | _, _ => some v

/-- A heap for examples: the map object 0 holds one and the same map, the
object 1, under the keys "a" and "b"; the object 2 holds under "a" and "b"
two maps of their own, the objects 3 and 4. -/
def sharedHeap : Heap :=
  [[("a", GoValue.map (some 1)), ("b", GoValue.map (some 1))],
    [("p", GoValue.str "1")],
    [("a", GoValue.map (some 3)), ("b", GoValue.map (some 4))],
    [("y", GoValue.str "2")],
    [("q", GoValue.str "3")]]

/-- A heap for examples: the map object 0 holds under "a" a map, the object
1; the object 2 holds under "a" a map of its own, the object 3, and under
"b" the object 1 again. -/
def crossedHeap : Heap :=
  [[("a", GoValue.map (some 1))],
    [("p", GoValue.str "1")],
    [("a", GoValue.map (some 3)), ("b", GoValue.map (some 1))],
    [("y", GoValue.str "2")]]

/-- A heap for examples: the map object 0 holds the nil map under "a"; the
object 1 holds under "a" a map of its own, the object 2. -/
def nilHeap : Heap :=
  [[("a", GoValue.map none)], [("a", GoValue.map (some 2))], [("y", GoValue.str "2")]]

/-- A heap for examples: the map object 0 holds one and the same empty map,
the object 1, under the keys "a" and "c". -/
def sharedBase : Heap :=
  [[("a", GoValue.map (some 1)), ("c", GoValue.map (some 1))], []]

/-- A heap for examples: the map object 0 holds a string under "a" and under
"b" a map of its own, the object 1; the object 2 holds under "b" a map of
its own, the object 3. -/
def treeHeap : Heap :=
  [[("a", GoValue.str "1"), ("b", GoValue.map (some 1))],
    [("c", GoValue.str "2")],
    [("b", GoValue.map (some 3))],
    [("d", GoValue.str "3")]]

/-! ## Facts about the byte searches -/

theorem isPrefixOf_eq_true_iff (p l : List Byte) : p.isPrefixOf l = true ↔ p <+: l :=
  List.isPrefixOf_iff_prefix

/-- When `tail` starts with `sep` and no earlier position of `pre ++ tail`
does, `bytes.Index` finds `sep` at `pre.length`. -/
theorem bytesIndex_first (sep : List Byte) :
    ∀ (pre tail : List Byte), sep <+: tail →
      (∀ q, q < pre.length → ¬ sep <+: (pre ++ tail).drop q) →
      bytesIndex sep (pre ++ tail) = some pre.length
  | [], tail, htail, _ => by
    cases tail with
    | nil => simp [bytesIndex, isPrefixOf_eq_true_iff, htail]
    | cons b t => simp [bytesIndex, isPrefixOf_eq_true_iff, htail]
  | a :: pre, tail, htail, hfirst => by
    have h0 : ¬ sep <+: a :: (pre ++ tail) := by simpa using hfirst 0 (by simp)
    have ih := bytesIndex_first sep pre tail htail (fun q hq => by
      simpa using hfirst (q + 1) (by simpa using hq))
    simp [bytesIndex, isPrefixOf_eq_true_iff, h0, ih]

/-- What a successful `bytes.Index` says: `sep` starts at the position found
and at no earlier one. -/
theorem bytesIndex_some (sep : List Byte) :
    ∀ (data : List Byte) (p : Nat), bytesIndex sep data = some p →
      sep <+: data.drop p ∧ p + sep.length ≤ data.length ∧
        ∀ q, q < p → ¬ sep <+: data.drop q
  | [], p, h => by
    simp only [bytesIndex] at h
    split at h
    · rename_i hp
      have hp2 := (isPrefixOf_eq_true_iff _ _).1 hp
      have : sep = [] := List.prefix_nil.1 hp2
      subst this
      simp at h
      subst h
      simp
    · simp at h
  | b :: t, p, h => by
    simp only [bytesIndex] at h
    split at h
    · rename_i hp
      have hp2 := (isPrefixOf_eq_true_iff _ _).1 hp
      simp at h
      subst h
      refine ⟨by simpa using hp2, ?_, by simp⟩
      simpa using hp2.length_le
    · rename_i hp
      have hp2 : ¬ sep <+: b :: t := fun hh => hp ((isPrefixOf_eq_true_iff _ _).2 hh)
      cases hrec : bytesIndex sep t with
      | none => simp [hrec] at h
      | some p0 =>
        simp [hrec] at h
        subst h
        obtain ⟨h1, h2, h3⟩ := bytesIndex_some sep t p0 hrec
        refine ⟨by simpa using h1, by simp; omega, ?_⟩
        intro q hq
        cases q with
        | zero => simpa using hp2
        | succ q => simpa using h3 q (by omega)

/-- When `bytes.Index` fails, `sep` starts at no position of the data. -/
theorem bytesIndex_none (sep : List Byte) :
    ∀ (data : List Byte), bytesIndex sep data = none → ∀ q, ¬ sep <+: data.drop q
  | [], h, q => by
    simp only [bytesIndex] at h
    split at h
    · simp at h
    · rename_i hp
      simpa using fun hh => hp ((isPrefixOf_eq_true_iff _ _).2 hh)
  | b :: t, h, q => by
    simp only [bytesIndex] at h
    split at h
    · simp at h
    · rename_i hp
      cases q with
      | zero => simpa using fun hh => hp ((isPrefixOf_eq_true_iff _ _).2 hh)
      | succ q =>
        have hrec : bytesIndex sep t = none := by
          cases hr : bytesIndex sep t with
          | none => rfl
          | some x => simp [hr] at h
        simpa using bytesIndex_none sep t hrec q

/-- A list that nowhere contains `sep` makes `bytes.Index` fail. -/
theorem bytesIndex_eq_none_of_not_infix (sep data : List Byte) (h : ¬ sep <:+: data) :
    bytesIndex sep data = none := by
  cases hr : bytesIndex sep data with
  | none => rfl
  | some p =>
    exfalso
    obtain ⟨h1, _, _⟩ := bytesIndex_some sep data p hr
    exact h (h1.isInfix.trans (List.drop_suffix p data).isInfix)

/-- The first instance of `c` in `line ++ c :: rest`, when `line` has none. -/
theorem bytesIndexByte_first (c : Byte) :
    ∀ (line rest : List Byte), c ∉ line → bytesIndexByte (line ++ c :: rest) c = some line.length
  | [], rest, _ => by simp [bytesIndexByte]
  | a :: line, rest, h => by
    have ha : a ≠ c := fun e => h (by simp [e])
    have ih := bytesIndexByte_first c line rest (fun hm => h (by simp [hm]))
    simp [bytesIndexByte, ha, ih]

/-- What a successful `bytes.IndexByte` says. -/
theorem bytesIndexByte_some (c : Byte) :
    ∀ (data : List Byte) (j : Nat), bytesIndexByte data c = some j →
      j < data.length ∧ c ∉ data.take j ∧ data.drop j = c :: data.drop (j + 1)
  | [], j, h => by simp [bytesIndexByte] at h
  | b :: t, j, h => by
    simp only [bytesIndexByte] at h
    split at h
    · rename_i hb
      simp at h
      subst h
      simp [hb]
    · rename_i hb
      cases hrec : bytesIndexByte t c with
      | none => simp [hrec] at h
      | some j0 =>
        simp [hrec] at h
        subst h
        obtain ⟨h1, h2, h3⟩ := bytesIndexByte_some c t j0 hrec
        refine ⟨by simpa using h1, ?_, by simpa using h3⟩
        simp only [List.take_succ_cons, List.mem_cons, not_or]
        exact ⟨fun e => hb e.symm, h2⟩

/-- When `bytes.IndexByte` fails the byte does not occur. -/
theorem bytesIndexByte_none (c : Byte) :
    ∀ (data : List Byte), bytesIndexByte data c = none → c ∉ data
  | [], _ => by simp
  | b :: t, h => by
    simp only [bytesIndexByte] at h
    split at h
    · simp at h
    · rename_i hb
      have hrec : bytesIndexByte t c = none := by
        cases hr : bytesIndexByte t c with
        | none => rfl
        | some x => simp [hr] at h
      simp only [List.mem_cons, not_or]
      exact ⟨fun e => hb e.symm, bytesIndexByte_none c t hrec⟩

/-! ## Facts about the splitter -/

/-- The separator cannot begin inside a document that does not contain it,
even when the document is followed by a separator. -/
theorem separator_not_before (d x : List Byte) (hd : ¬ yamlSeparator <:+: d) (q : Nat)
    (hq : q < d.length) : ¬ yamlSeparator <+: (d ++ (yamlSeparator ++ x)).drop q := by
  have hsuf : d.drop q <:+ d := List.drop_suffix q d
  have hno : ¬ yamlSeparator <+: d.drop q := fun h => hd (h.isInfix.trans hsuf.isInfix)
  rw [List.drop_append_of_le_length (by omega)]
  have hne : d.drop q ≠ [] := by
    intro h
    have := congrArg List.length h
    simp at this
    omega
  revert hno hne
  generalize d.drop q = t
  intro hno hne
  match t, hno, hne with
  | [], _, hne => exact absurd rfl hne
  | [a], _, _ => simp [yamlSeparator, newline, dash]
  | [a, b], _, _ => simp [yamlSeparator, newline, dash]
  | [a, b, c], _, _ => simp [yamlSeparator, newline, dash]
  | a :: b :: c :: e :: t, hno, _ =>
    intro h
    apply hno
    simp only [yamlSeparator, List.cons_append, List.cons_prefix_cons] at h ⊢
    exact ⟨h.1, h.2.1, h.2.2.1, h.2.2.2.1, List.nil_prefix⟩

/-- The splitter on a buffer whose first separator is followed by a line
end: the token is what precedes the separator, the advance goes past the
line end. -/
theorem splitYAMLDocument_at_separator (pre line rest : List Byte) (atEOF : Bool)
    (hfirst : ∀ q, q < pre.length →
      ¬ yamlSeparator <+: (pre ++ (yamlSeparator ++ (line ++ newline :: rest))).drop q)
    (hline : newline ∉ line) :
    splitYAMLDocument (pre ++ (yamlSeparator ++ (line ++ newline :: rest))) atEOF
      = ⟨pre.length + yamlSeparator.length + line.length + 1, some pre, none⟩ := by
  have hidx := bytesIndex_first yamlSeparator pre (yamlSeparator ++ (line ++ newline :: rest))
    (List.prefix_append _ _) hfirst
  have hdrop : (pre ++ (yamlSeparator ++ (line ++ newline :: rest))).drop
      (pre.length + yamlSeparator.length) = line ++ newline :: rest := by
    rw [← List.append_assoc, ← List.length_append, List.drop_left]
  have hj := bytesIndexByte_first newline line rest hline
  unfold splitYAMLDocument
  have hlen : ¬ ((pre ++ (yamlSeparator ++ (line ++ newline :: rest))).length = 0) := by
    simp [yamlSeparator]
  simp only [hidx, hdrop, hj]
  simp [yamlSeparator]

/-! ## Facts about the scanner -/

/-- The read of `Scan` when the window leaves room in the buffer: it either
moves at least one byte from the reader into the window or records the end
of the input. -/
theorem Scanner.read_again (s : Scanner) (hwin : s.start + s.held.length < s.bufLen)
    (hcap : s.bufLen ≤ s.maxTokenSize) (hmax : s.maxTokenSize ≤ maxInt / 2)
    (herr : s.err = none) :
    ∃ s1, s.read = ScanStep.again s1 ∧ s1.WF ∧ s1.maxTokenSize = s.maxTokenSize ∧
      s1.held ++ s1.r = s.held ++ s.r ∧
      ((s.r ≠ [] ∧ s1.err = none ∧ s1.r.length < s.r.length) ∨
       (s.r = [] ∧ s1.err = some ScanError.eof ∧ s1.held = s.held ∧ s1.r = [])) := by
  unfold Scanner.read
  by_cases hr : s.r = []
  · refine ⟨s.setErr ScanError.eof, by simp [hr], ?_, ?_, ?_, ?_⟩
    · constructor <;> simp [Scanner.setErr, herr] <;> omega
    · simp [Scanner.setErr, herr]
    · simp [Scanner.setErr, herr]
    · right
      simp [Scanner.setErr, herr, hr]
  · have hrl : s.r.length ≠ 0 := by simpa using hr
    have hsp : s.bufLen - (s.start + s.held.length) ≠ 0 := by omega
    refine ⟨{ s with held := s.held ++ s.r.take (s.bufLen - (s.start + s.held.length)),
                     r := s.r.drop (s.bufLen - (s.start + s.held.length)), empties := 0 },
      by simp [hrl, hsp], ?_, rfl, ?_, ?_⟩
    · constructor
      · simp only [List.length_append, List.length_take]
        omega
      · exact hcap
      · exact hmax
    · simp
    · left
      refine ⟨hr, herr, ?_⟩
      simp only [List.length_drop]
      have : 0 < s.r.length := by omega
      omega

theorem Scanner.shift_fields (s : Scanner) :
    s.shift.r = s.r ∧ s.shift.held = s.held ∧ s.shift.err = s.err ∧
      s.shift.bufLen = s.bufLen ∧ s.shift.maxTokenSize = s.maxTokenSize ∧
      s.shift.start ≤ s.start ∧
      (s.shift.start + s.held.length = s.bufLen → s.shift.start = 0) := by
  unfold Scanner.shift
  split
  · simp
  · rename_i h
    simp only [gt_iff_lt, Bool.and_eq_true, decide_eq_true_eq, Bool.or_eq_true, beq_iff_eq,
      not_and, not_or] at h
    refine ⟨rfl, rfl, rfl, rfl, rfl, le_refl _, ?_⟩
    intro hfull
    by_contra hne
    exact (h (by omega)).1 hfull

theorem Scanner.grow_some (s s2 : Scanner) (h : s.grow = some s2) :
    s2.r = s.r ∧ s2.held = s.held ∧ s2.err = s.err ∧ s2.maxTokenSize = s.maxTokenSize ∧
      (s.start + s.held.length ≤ s.bufLen → s.bufLen ≤ s.maxTokenSize →
        s2.start + s2.held.length < s2.bufLen ∧ s2.bufLen ≤ s2.maxTokenSize) := by
  unfold Scanner.grow at h
  split at h
  · rename_i hfull
    have hfull2 : s.start + s.held.length = s.bufLen := by simpa using hfull
    split at h
    · simp at h
    · rename_i hgrow
      simp only [ge_iff_le, gt_iff_lt, Bool.or_eq_true, decide_eq_true_eq, not_or, not_le,
        not_lt] at hgrow
      simp only [Option.some.injEq] at h
      subst h
      refine ⟨rfl, rfl, rfl, rfl, ?_⟩
      intro _ _
      simp only [startBufSize]
      split <;> split <;> simp_all <;> omega
  · rename_i hfull
    have hfull2 : ¬ s.start + s.held.length = s.bufLen := by simpa using hfull
    simp only [Option.some.injEq] at h
    subst h
    refine ⟨rfl, rfl, rfl, rfl, ?_⟩
    intro h1 h2
    exact ⟨by omega, h2⟩

theorem Scanner.grow_none (s : Scanner) (h : s.grow = none) :
    s.start + s.held.length = s.bufLen ∧ (s.maxTokenSize ≤ s.bufLen ∨ maxInt / 2 < s.bufLen) := by
  unfold Scanner.grow at h
  split at h
  · rename_i hfull
    split at h
    · rename_i hgrow
      exact ⟨by simpa using hfull, by simpa using hgrow⟩
    · simp at h
  · simp at h

/-- The filling part of `Scan` before the end of the input, when the window
is shorter than `maxTokenSize`: it makes room and reads. -/
theorem Scanner.fill_again (s : Scanner) (hwf : s.WF) (herr : s.err = none)
    (hlt : s.held.length < s.maxTokenSize) :
    ∃ s1, s.fill = ScanStep.again s1 ∧ s1.WF ∧ s1.maxTokenSize = s.maxTokenSize ∧
      s1.held ++ s1.r = s.held ++ s.r ∧
      ((s.r ≠ [] ∧ s1.err = none ∧ s1.r.length < s.r.length) ∨
       (s.r = [] ∧ s1.err = some ScanError.eof ∧ s1.held = s.held ∧ s1.r = [])) := by
  obtain ⟨hwin, hcap, hmax⟩ := hwf
  obtain ⟨hr, hh, he, hb, hm, hst, hzero⟩ := Scanner.shift_fields s
  unfold Scanner.fill
  simp only [herr, Option.isSome_none, Bool.false_eq_true, if_false]
  cases hg : s.shift.grow with
  | none =>
    exfalso
    obtain ⟨h1, h2⟩ := Scanner.grow_none _ hg
    rw [hh, hb] at h1
    have := hzero h1
    rw [hb, hm] at h2
    omega
  | some s2 =>
    obtain ⟨gr, gh, ge, gm, gwin⟩ := Scanner.grow_some _ _ hg
    obtain ⟨gwin1, gwin2⟩ := gwin (by rw [hh, hb]; omega) (by rw [hb, hm]; exact hcap)
    have h := Scanner.read_again s2 gwin1 gwin2 (by rw [gm, hm]; exact hmax)
      (by rw [ge, he]; exact herr)
    simpa [gr, gh, gm, hr, hh, hm] using h

/-- A proper beginning of "document, separator line" that stops before the
line end makes the splitter ask for more data. -/
theorem splitYAMLDocument_prefix_more (h d x : List Byte) (hpre : h <+: d ++ (yamlSeparator ++ x))
    (hlen : h.length < d.length + 5) (hd : ¬ yamlSeparator <:+: d) :
    splitYAMLDocument h false = ⟨0, none, none⟩ := by
  unfold splitYAMLDocument
  simp only [Bool.false_and, Bool.false_eq_true, if_false]
  cases hidx : bytesIndex yamlSeparator h with
  | none => rfl
  | some i0 =>
    obtain ⟨h1, h2, _⟩ := bytesIndex_some yamlSeparator h i0 hidx
    obtain ⟨t, ht⟩ := hpre
    have hsl : yamlSeparator.length = 4 := rfl
    have h3 : yamlSeparator <+: (d ++ (yamlSeparator ++ x)).drop i0 := by
      rw [← ht, List.drop_append_of_le_length (by omega)]
      exact h1.trans (List.prefix_append _ _)
    have h4 : ¬ i0 < d.length := fun hlt => separator_not_before d x hd i0 hlt h3
    have h5 : (List.drop (i0 + yamlSeparator.length) h).length = 0 := by
      simp only [List.length_drop]
      omega
    simp [h5]

/-- A buffer without separator: the splitter asks for more data before the
end of the input, and returns the whole buffer at the end of the input. -/
theorem splitYAMLDocument_no_separator (h : List Byte) (hd : ¬ yamlSeparator <:+: h) :
    splitYAMLDocument h false = ⟨0, none, none⟩ ∧
      (h ≠ [] → splitYAMLDocument h true = ⟨h.length, some h, none⟩) := by
  have hidx := bytesIndex_eq_none_of_not_infix yamlSeparator h hd
  unfold splitYAMLDocument
  simp only [hidx]
  constructor
  · simp
  · intro hne
    have : ¬ h.length = 0 := by simpa using hne
    simp [this]

theorem Scanner.eta_advance_zero (s : Scanner) :
    ({ s with start := s.start + 0, held := s.held.drop 0 } : Scanner) = s := by
  cases s
  rfl

/-- A pass of `Scan` in which the split function asks for more data goes on
to fill the buffer. -/
theorem Scanner.step_more (split : List Byte → Bool → SplitResult) (s : Scanner)
    (h : split s.held s.err.isSome = ⟨0, none, none⟩) :
    Scanner.step split s = s.fill := by
  unfold Scanner.step
  split
  · simp only [h, Scanner.eta_advance_zero]
    simp
  · rfl

/-- A pass of `Scan` in which the split function returns a token with a
positive advance inside the window returns that token. -/
theorem Scanner.step_token (split : List Byte → Bool → SplitResult) (s : Scanner)
    (adv : Nat) (tok : List Byte)
    (h : split s.held s.err.isSome = ⟨adv, some tok, none⟩)
    (hadv : adv ≤ s.held.length) (hpos : 0 < adv) :
    Scanner.step split s =
      ScanStep.token tok { s with start := s.start + adv, held := s.held.drop adv, empties := 0 } := by
  unfold Scanner.step
  have hne : 0 < s.held.length := by omega
  have hnot : ¬ s.held.length < adv := by omega
  simp [h, hne, hnot, hpos]

/-- Scanning a window that begins a document followed by a separator line:
`Scan` returns the document and leaves what follows the separator line. -/
theorem Scanner.scanLoop_document (d rest : List Byte) (hd : ¬ yamlSeparator <:+: d) :
    ∀ (fuel : Nat) (s : Scanner), s.WF → s.err = none →
      s.held ++ s.r = d ++ (yamlSeparator ++ (newline :: rest)) →
      d.length + 5 ≤ s.maxTokenSize → s.r.length + 1 ≤ fuel →
      ∃ s1, Scanner.scanLoop splitYAMLDocument fuel s = (some d, s1) ∧ s1.WF ∧ s1.err = none ∧
        s1.held ++ s1.r = rest ∧ s1.maxTokenSize = s.maxTokenSize
  | 0, s, _, _, _, _, hfuel => by omega
  | fuel + 1, s, hwf, herr, hstream, hmax, hfuel => by
    have hsl : yamlSeparator.length = 4 := rfl
    by_cases hA : d.length + 5 ≤ s.held.length
    · -- the window holds the document and its separator line
      have hsplit : ∃ a, s.held = (d ++ (yamlSeparator ++ [newline])) ++ a ∧ rest = a ++ s.r := by
        have hstream2 : s.held ++ s.r = (d ++ (yamlSeparator ++ [newline])) ++ rest := by
          simpa using hstream
        rcases List.append_eq_append_iff.1 hstream2 with ⟨a, h1, h2⟩ | ⟨c, h1, h2⟩
        · have hl := congrArg List.length h1
          simp only [List.length_append, List.length_cons, List.length_nil, hsl] at hl
          have hc : a = [] := List.length_eq_zero.1 (by omega)
          subst hc
          exact ⟨[], by simpa using h1.symm, by simpa using h2.symm⟩
        · exact ⟨c, h1, h2⟩
      obtain ⟨a, hheld, hrest⟩ := hsplit
      have hheld2 : s.held = d ++ (yamlSeparator ++ ([] ++ newline :: a)) := by simpa using hheld
      have hres := splitYAMLDocument_at_separator d [] a false
        (fun q hq => by simpa using separator_not_before d (newline :: a) hd q hq) (by simp)
      rw [← hheld2] at hres
      have hstep := Scanner.step_token splitYAMLDocument s
        (d.length + yamlSeparator.length + 0 + 1) d
        (by simpa [herr] using hres) (by simp [hsl]; omega) (by omega)
      refine ⟨{ s with start := s.start + (d.length + yamlSeparator.length + 0 + 1),
                       held := s.held.drop (d.length + yamlSeparator.length + 0 + 1),
                       empties := 0 },
        by simp only [Scanner.scanLoop, hstep], ?_, herr, ?_, rfl⟩
      · obtain ⟨hwin, hcap, hmx⟩ := hwf
        constructor
        · simp only [List.length_drop]
          omega
        · exact hcap
        · exact hmx
      · have hl : d.length + yamlSeparator.length + 0 + 1
            = (d ++ (yamlSeparator ++ [newline])).length := by simp [hsl]
        simp only [hl, hheld, hrest, List.drop_left]
    · -- more data is needed
      have hpre : s.held <+: d ++ (yamlSeparator ++ (newline :: rest)) := ⟨s.r, hstream⟩
      have hmore := splitYAMLDocument_prefix_more s.held d (newline :: rest) hpre (by omega) hd
      have hstep := Scanner.step_more splitYAMLDocument s (by simpa [herr] using hmore)
      obtain ⟨s1, hfill, hwf1, hmax1, hstream1, hcase⟩ :=
        Scanner.fill_again s hwf herr (by omega)
      have htot := congrArg List.length hstream
      simp only [List.length_append, List.length_cons, hsl] at htot
      rcases hcase with ⟨_, herr1, hlt⟩ | ⟨hr, _, _, _⟩
      · obtain ⟨s2, h2, hwf2, herr2, hstream2, hmax2⟩ :=
          Scanner.scanLoop_document d rest hd fuel s1 hwf1 herr1 (hstream1.trans hstream)
            (by omega) (by omega)
        exact ⟨s2, by simp only [Scanner.scanLoop, hstep, hfill, h2], hwf2, herr2, hstream2,
          hmax2.trans hmax1⟩
      · exfalso
        simp only [hr, List.length_nil] at htot
        omega

/-- Scanning the last document of a stream: `Scan` reads to the end of the
input and returns the document. -/
theorem Scanner.scanLoop_last (d : List Byte) (hne : d ≠ []) (hd : ¬ yamlSeparator <:+: d) :
    ∀ (fuel : Nat) (s : Scanner), s.WF →
      (s.err = none ∨ (s.err = some ScanError.eof ∧ s.r = [])) →
      s.held ++ s.r = d → d.length < s.maxTokenSize →
      s.r.length + (if s.err = none then 1 else 0) + 1 ≤ fuel →
      ∃ s1, Scanner.scanLoop splitYAMLDocument fuel s = (some d, s1) ∧
        s1.held = [] ∧ s1.r = [] ∧ s1.err = some ScanError.eof
  | 0, s, _, _, _, _, hfuel => by omega
  | fuel + 1, s, hwf, herr, hstream, hmax, hfuel => by
    rcases herr with herr | ⟨herr, hr⟩
    · have hinf : ¬ yamlSeparator <:+: s.held := fun h =>
        hd (hstream ▸ h.trans (List.prefix_append s.held s.r).isInfix)
      have hmore := (splitYAMLDocument_no_separator s.held hinf).1
      have hstep := Scanner.step_more splitYAMLDocument s (by simpa [herr] using hmore)
      have hlen := congrArg List.length hstream
      simp only [List.length_append] at hlen
      obtain ⟨s1, hfill, hwf1, hmax1, hstream1, hcase⟩ :=
        Scanner.fill_again s hwf herr (by omega)
      simp only [herr, if_true] at hfuel
      rcases hcase with ⟨_, herr1, hlt⟩ | ⟨_, herr1, _, hr1⟩
      · obtain ⟨s2, h2, hrest⟩ :=
          Scanner.scanLoop_last d hne hd fuel s1 hwf1 (Or.inl herr1) (hstream1.trans hstream)
            (by omega) (by simp only [herr1, if_true]; omega)
        exact ⟨s2, by simp only [Scanner.scanLoop, hstep, hfill, h2], hrest⟩
      · obtain ⟨s2, h2, hrest⟩ :=
          Scanner.scanLoop_last d hne hd fuel s1 hwf1 (Or.inr ⟨herr1, hr1⟩)
            (hstream1.trans hstream) (by omega) (by simp [herr1, hr1]; omega)
        exact ⟨s2, by simp only [Scanner.scanLoop, hstep, hfill, h2], hrest⟩
    · have hheld : s.held = d := by simpa [hr] using hstream
      have htok := (splitYAMLDocument_no_separator d hd).2 hne
      have hpos : 0 < d.length := List.length_pos.2 hne
      have hstep := Scanner.step_token splitYAMLDocument s d.length d
        (by simpa [herr, hheld] using htok) (by simp [hheld]) hpos
      exact ⟨{ s with start := s.start + d.length, held := s.held.drop d.length, empties := 0 },
        by simp only [Scanner.scanLoop, hstep], by simp [hheld], hr, herr⟩

/-- At the end of the input with an empty window `Scan` returns false and
reports no error. -/
theorem Scanner.scanLoop_end (fuel : Nat) (s : Scanner) (hheld : s.held = []) (_hr : s.r = [])
    (herr : s.err = some ScanError.eof) :
    ∃ s1, Scanner.scanLoop splitYAMLDocument (fuel + 1) s = (none, s1) ∧ s1.Err = none := by
  have hstep : Scanner.step splitYAMLDocument s = ScanStep.halt { s with start := 0, held := [] } := by
    unfold Scanner.step
    simp [hheld, herr, splitYAMLDocument, Scanner.fill]
  exact ⟨{ s with start := 0, held := [] }, by simp only [Scanner.scanLoop, hstep],
    by simp [Scanner.Err, herr]⟩

/-- The tokens of a stream of documents that fit the scanner's buffer: the
documents themselves, in order, and no error. -/
theorem Scanner.tokens_joinDocs :
    ∀ (docs : List (List Byte)) (n : Nat) (s : Scanner), docs ≠ [] → s.WF → s.err = none →
      s.held ++ s.r = joinDocs docs →
      (∀ d ∈ docs, d ≠ [] ∧ ¬ yamlSeparator <:+: d) →
      (∀ d ∈ docs.dropLast, d.length + 5 ≤ s.maxTokenSize) →
      (∀ d ∈ docs.getLast?, d.length < s.maxTokenSize) →
      docs.length + 1 ≤ n →
      ∃ s1, Scanner.tokens splitYAMLDocument n s = (docs, s1) ∧ s1.Err = none
  | [], _, _, hne, _, _, _, _, _, _, _ => absurd rfl hne
  | _, 0, _, _, _, _, _, _, _, _, hn => by omega
  | [d], n + 1, s, _, hwf, herr, hstream, hdocs, _, hlast, hn => by
    obtain ⟨hne, hd⟩ := hdocs d (by simp)
    have hlt : d.length < s.maxTokenSize := hlast d (by simp)
    obtain ⟨s1, h1, hheld1, hr1, herr1⟩ :=
      Scanner.scanLoop_last d hne hd (s.r.length + 2) s hwf (Or.inl herr)
        (by simpa [joinDocs] using hstream) hlt (by simp [herr])
    cases n with
    | zero => simp at hn
    | succ n =>
      obtain ⟨s2, h2, herr2⟩ := Scanner.scanLoop_end (s1.r.length + 1) s1 hheld1 hr1 herr1
      refine ⟨s2, ?_, herr2⟩
      simp only [Scanner.tokens, Scanner.Scan, h1, h2]
  | d :: d2 :: ds, n + 1, s, _, hwf, herr, hstream, hdocs, hinit, hlast, hn => by
    obtain ⟨_, hd⟩ := hdocs d (by simp)
    have hfit : d.length + 5 ≤ s.maxTokenSize := hinit d (by simp [List.dropLast])
    obtain ⟨s1, h1, hwf1, herr1, hstream1, hmax1⟩ :=
      Scanner.scanLoop_document d (joinDocs (d2 :: ds)) hd (s.r.length + 2) s hwf herr
        (by simpa [joinDocs, separatorLine] using hstream) hfit (by omega)
    obtain ⟨s2, h2, herr2⟩ :=
      Scanner.tokens_joinDocs (d2 :: ds) n s1 (by simp) hwf1 herr1 hstream1
        (fun x hx => hdocs x (by simp [hx]))
        (fun x hx => hmax1 ▸ hinit x (by simp [List.dropLast, hx]))
        (fun x hx => hmax1 ▸ hlast x (by simpa using hx))
        (by simp at hn ⊢; omega)
    refine ⟨s2, ?_, herr2⟩
    simp only [Scanner.tokens, Scanner.Scan, h1, h2]

/-- The scanner of `ParseMultidoc` starts within its bounds. -/
theorem multidocScanner_WF (multidoc : List Byte) : (multidocScanner multidoc).WF := by
  constructor <;> simp [multidocScanner, NewScanner, Scanner.Buffer, maxInt]

theorem length_le_length_joinDocs :
    ∀ (docs : List (List Byte)), (∀ d ∈ docs, d ≠ []) → docs.length ≤ (joinDocs docs).length
  | [], _ => by simp
  | [d], h => by
    have := List.length_pos.2 (h d (by simp))
    simp [joinDocs]
    omega
  | d :: d2 :: ds, h => by
    have := length_le_length_joinDocs (d2 :: ds) (fun x hx => h x (by simp [hx]))
    have hpos := List.length_pos.2 (h d (by simp))
    simp only [List.length_cons, joinDocs, List.length_append] at this ⊢
    omega

/-- Scanning a stretch without separator that is at least `maxTokenSize`
long: the buffer fills up and `Scan` stops with `ErrTooLong`. -/
theorem Scanner.scanLoop_tooLong (d : List Byte) (hd : ¬ yamlSeparator <:+: d) :
    ∀ (fuel : Nat) (s : Scanner), s.WF → s.err = none → s.held ++ s.r = d →
      s.maxTokenSize ≤ d.length → s.r.length + 1 ≤ fuel →
      ∃ s1, Scanner.scanLoop splitYAMLDocument fuel s = (none, s1) ∧
        s1.err = some ScanError.tooLong
  | 0, s, _, _, _, _, hfuel => by omega
  | fuel + 1, s, hwf, herr, hstream, hmax, hfuel => by
    have hinf : ¬ yamlSeparator <:+: s.held := fun h =>
      hd (hstream ▸ h.trans (List.prefix_append s.held s.r).isInfix)
    have hmore := (splitYAMLDocument_no_separator s.held hinf).1
    have hstep := Scanner.step_more splitYAMLDocument s (by simpa [herr] using hmore)
    have hlen := congrArg List.length hstream
    simp only [List.length_append] at hlen
    by_cases hlt : s.held.length < s.maxTokenSize
    · obtain ⟨s1, hfill, hwf1, hmax1, hstream1, hcase⟩ := Scanner.fill_again s hwf herr hlt
      rcases hcase with ⟨_, herr1, hlt1⟩ | ⟨hr, _, _, _⟩
      · obtain ⟨s2, h2, herr2⟩ :=
          Scanner.scanLoop_tooLong d hd fuel s1 hwf1 herr1 (hstream1.trans hstream)
            (by omega) (by omega)
        exact ⟨s2, by simp only [Scanner.scanLoop, hstep, hfill, h2], herr2⟩
      · exfalso
        simp only [hr, List.length_nil] at hlen
        omega
    · obtain ⟨hwin, hcap, _⟩ := hwf
      have hstart : s.start = 0 := by omega
      have hfull : s.held.length = s.bufLen := by omega
      have hge : s.maxTokenSize ≤ s.bufLen := by omega
      have hshift : s.shift = s := by
        unfold Scanner.shift
        simp [hstart]
      have hgrow : s.grow = none := by
        unfold Scanner.grow
        simp [hstart, hfull, hge]
      have hfill : s.fill = ScanStep.halt (s.setErr ScanError.tooLong) := by
        unfold Scanner.fill
        simp [herr, hshift, hgrow]
      exact ⟨s.setErr ScanError.tooLong, by simp only [Scanner.scanLoop, hstep, hfill],
        by simp [Scanner.setErr, herr]⟩

/-- A file without separator of 1MB or more has no chunk: the scanner of
`ParseMultidoc` stops with `ErrTooLong`. -/
theorem chunksOf_tooLong (d : List Byte) (hd : ¬ yamlSeparator <:+: d)
    (hlen : 1024 * 1024 ≤ d.length) : chunksOf d = ([], some ScanError.tooLong) := by
  obtain ⟨s1, h1, herr1⟩ :=
    Scanner.scanLoop_tooLong d hd ((multidocScanner d).r.length + 2) (multidocScanner d)
      (multidocScanner_WF d) rfl (by simp [multidocScanner, NewScanner, Scanner.Buffer])
      (by simpa [multidocScanner, NewScanner, Scanner.Buffer] using hlen) (by omega)
  simp only [chunksOf, Scanner.tokens, Scanner.Scan, h1]
  simp [Scanner.Err, herr1]

/-- A run of one repeated byte other than the newline contains no separator. -/
theorem not_separator_infix_replicate (n : Nat) (b : Byte) (hb : b ≠ newline) :
    ¬ yamlSeparator <:+: List.replicate n b := by
  intro h
  have hmem : newline ∈ List.replicate n b := h.subset (by simp [yamlSeparator])
  exact hb (List.eq_of_mem_replicate hmem).symm

/-! ## The passes given to the scanner are enough -/

theorem Scanner.setErr_err_ne_outOfFuel (s : Scanner) (e : ScanError)
    (he : e ≠ ScanError.outOfFuel) (hs : s.err ≠ some ScanError.outOfFuel) :
    (s.setErr e).err ≠ some ScanError.outOfFuel := by
  unfold Scanner.setErr
  split
  · simpa using he
  · exact hs

/-- The read of `Scan` always asks for another pass, with fewer passes
left, and consumes nothing. -/
theorem Scanner.read_passes (s : Scanner) (herr : s.err = none) :
    ∃ s1, s.read = ScanStep.again s1 ∧ s1.passes < s.passes ∧ s1.pending = s.pending ∧
      s1.err ≠ some ScanError.outOfFuel := by
  unfold Scanner.read
  by_cases hr : s.r.length = 0
  · exact ⟨s.setErr ScanError.eof, by simp [hr],
      by simp [Scanner.setErr, herr, Scanner.passes],
      by simp [Scanner.setErr, herr, Scanner.pending],
      by simp [Scanner.setErr, herr]⟩
  · by_cases hsp : s.bufLen - (s.start + s.held.length) = 0
    · exact ⟨s.setErr ScanError.noProgress, by simp [hr, hsp],
        by simp [Scanner.setErr, herr, Scanner.passes],
        by simp [Scanner.setErr, herr, Scanner.pending],
        by simp [Scanner.setErr, herr]⟩
    · refine ⟨{ s with held := s.held ++ s.r.take (s.bufLen - (s.start + s.held.length)),
                       r := s.r.drop (s.bufLen - (s.start + s.held.length)), empties := 0 },
        by simp [hr, hsp], ?_, ?_, by simp [herr]⟩
      · simp only [Scanner.passes, herr, List.length_drop]
        omega
      · simp only [Scanner.pending, List.length_append, List.length_take, List.length_drop]
        omega

/-- The filling part of `Scan` either ends the call or asks for another
pass with fewer passes left; it consumes nothing. -/
theorem Scanner.fill_passes (s : Scanner) (hs : s.err ≠ some ScanError.outOfFuel) :
    (∃ s1, s.fill = ScanStep.halt s1 ∧ s1.err ≠ some ScanError.outOfFuel) ∨
    (∃ s1, s.fill = ScanStep.again s1 ∧ s1.passes < s.passes ∧ s1.pending = s.pending ∧
      s1.err ≠ some ScanError.outOfFuel) := by
  obtain ⟨hr, hh, he, _, _, _, _⟩ := Scanner.shift_fields s
  unfold Scanner.fill
  split
  · exact Or.inl ⟨_, rfl, hs⟩
  · rename_i herr0
    have herr : s.err = none := by simpa using herr0
    cases hg : s.shift.grow with
    | none =>
      exact Or.inl ⟨_, rfl, Scanner.setErr_err_ne_outOfFuel _ _ (by simp) (by rw [he]; exact hs)⟩
    | some s2 =>
      obtain ⟨gr, gh, ge, _, _⟩ := Scanner.grow_some _ _ hg
      obtain ⟨s1, h1, h2, h3, h4⟩ := Scanner.read_passes s2 (by rw [ge, he]; exact herr)
      refine Or.inr ⟨s1, h1, ?_, ?_, h4⟩
      · simpa [Scanner.passes, gr, ge, hr, he] using h2
      · simpa [Scanner.pending, gr, gh, hr, hh] using h3

/-- The splitter reports no error. -/
theorem splitYAMLDocument_err (data : List Byte) (atEOF : Bool) :
    (splitYAMLDocument data atEOF).err = none := by
  unfold splitYAMLDocument
  by_cases h0 : (atEOF && data.length == 0) = true
  · simp only [h0, if_true]
  · simp only [h0, Bool.false_eq_true, if_false]
    cases hidx : bytesIndex yamlSeparator data with
    | none => cases atEOF <;> simp
    | some i0 =>
      by_cases hafter : ((data.drop (i0 + yamlSeparator.length)).length == 0) = true
      · simp only [hafter, if_true]
        cases atEOF <;> simp
      · simp only [hafter, Bool.false_eq_true, if_false]
        cases hj : bytesIndexByte (data.drop (i0 + yamlSeparator.length)) newline <;> simp

/-- A token of the splitter comes with a positive advance. -/
theorem splitYAMLDocument_advance_pos (data : List Byte) (atEOF : Bool) (tok : List Byte)
    (h : (splitYAMLDocument data atEOF).token = some tok) :
    0 < (splitYAMLDocument data atEOF).advance := by
  unfold splitYAMLDocument at h ⊢
  by_cases h0 : (atEOF && data.length == 0) = true
  · simp [h0] at h
  · simp only [h0, Bool.false_eq_true, if_false] at h ⊢
    cases hidx : bytesIndex yamlSeparator data with
    | none =>
      simp only [hidx] at h ⊢
      cases atEOF with
      | false => simp at h
      | true =>
        simp only [Bool.true_and, beq_iff_eq] at h0
        simpa using Nat.pos_of_ne_zero h0
    | some i0 =>
      simp only [hidx] at h ⊢
      have hle := (bytesIndex_some _ _ _ hidx).2.1
      simp only [yamlSeparator, List.length_cons, List.length_nil] at hle
      by_cases hafter : ((data.drop (i0 + yamlSeparator.length)).length == 0) = true
      · simp only [hafter, if_true] at h ⊢
        cases atEOF with
        | false => simp at h
        | true =>
          simp only [if_true]
          omega
      · simp only [hafter, Bool.false_eq_true, if_false] at h ⊢
        cases hj : bytesIndexByte (data.drop (i0 + yamlSeparator.length)) newline with
        | none => simp [hj] at h
        | some j => simp

/-- One pass of the loop of `Scan` with the splitter: a token consumes at
least one byte, and a pass that asks for another one leaves fewer passes. -/
theorem Scanner.step_progress (s : Scanner) (hs : s.err ≠ some ScanError.outOfFuel) :
    (∃ tok s1, Scanner.step splitYAMLDocument s = ScanStep.token tok s1 ∧
      s1.pending < s.pending ∧ s1.err ≠ some ScanError.outOfFuel) ∨
    (∃ s1, Scanner.step splitYAMLDocument s = ScanStep.halt s1 ∧
      s1.err ≠ some ScanError.outOfFuel) ∨
    (∃ s1, Scanner.step splitYAMLDocument s = ScanStep.again s1 ∧ s1.passes < s.passes ∧
      s1.pending ≤ s.pending ∧ s1.err ≠ some ScanError.outOfFuel) := by
  have hfill : ∀ s0 : Scanner, s0.err = s.err → s0.r = s.r → s0.pending ≤ s.pending →
      (∃ s1, s0.fill = ScanStep.halt s1 ∧ s1.err ≠ some ScanError.outOfFuel) ∨
      (∃ s1, s0.fill = ScanStep.again s1 ∧ s1.passes < s.passes ∧
        s1.pending ≤ s.pending ∧ s1.err ≠ some ScanError.outOfFuel) := by
    intro s0 h1 h2 h3
    rcases Scanner.fill_passes s0 (h1 ▸ hs) with h | ⟨s1, h4, h5, h6, h7⟩
    · exact Or.inl h
    · exact Or.inr ⟨s1, h4, by simpa [Scanner.passes, h1, h2] using h5, h6 ▸ h3, h7⟩
  unfold Scanner.step
  split
  · have herr := splitYAMLDocument_err s.held s.err.isSome
    simp only [herr]
    split
    · exact Or.inr (Or.inl ⟨_, rfl, Scanner.setErr_err_ne_outOfFuel _ _ (by simp) hs⟩)
    · rename_i hadv
      have hadv2 : (splitYAMLDocument s.held s.err.isSome).advance ≤ s.held.length := by omega
      cases htok : (splitYAMLDocument s.held s.err.isSome).token with
      | none =>
        simp only []
        exact Or.inr (hfill _ rfl rfl (by
          simp only [Scanner.pending, List.length_drop]
          omega))
      | some tok =>
        have hpos := splitYAMLDocument_advance_pos _ _ _ htok
        simp only [hpos, decide_True, Bool.or_true, if_true]
        refine Or.inl ⟨_, _, rfl, ?_, hs⟩
        simp only [Scanner.pending, List.length_drop]
        omega
  · exact Or.inr (hfill s rfl rfl (le_refl _))

/-- With more passes than `passes` counts, `Scan` does not run out of them;
a token consumes at least one byte. -/
theorem Scanner.scanLoop_progress :
    ∀ (fuel : Nat) (s : Scanner), s.passes < fuel → s.err ≠ some ScanError.outOfFuel →
      (Scanner.scanLoop splitYAMLDocument fuel s).2.err ≠ some ScanError.outOfFuel ∧
      ((Scanner.scanLoop splitYAMLDocument fuel s).1 ≠ none →
        (Scanner.scanLoop splitYAMLDocument fuel s).2.pending < s.pending)
  | 0, s, hfuel, _ => by omega
  | fuel + 1, s, hfuel, hs => by
    rcases Scanner.step_progress s hs with ⟨tok, s1, h1, h2, h3⟩ | ⟨s1, h1, h3⟩ | ⟨s1, h1, h2, h3, h4⟩
    · simp only [Scanner.scanLoop, h1]
      exact ⟨h3, fun _ => h2⟩
    · simp only [Scanner.scanLoop, h1]
      exact ⟨h3, fun h => absurd rfl h⟩
    · obtain ⟨ih1, ih2⟩ := Scanner.scanLoop_progress fuel s1 (by omega) h4
      simp only [Scanner.scanLoop, h1]
      exact ⟨ih1, fun h => lt_of_lt_of_le (ih2 h) h3⟩

/-- The passes `Scan` allows itself are enough, and each of its tokens
consumes at least one byte. -/
theorem Scanner.Scan_progress (s : Scanner) (hs : s.err ≠ some ScanError.outOfFuel) :
    (Scanner.Scan splitYAMLDocument s).2.err ≠ some ScanError.outOfFuel ∧
      ((Scanner.Scan splitYAMLDocument s).1 ≠ none →
        (Scanner.Scan splitYAMLDocument s).2.pending < s.pending) :=
  Scanner.scanLoop_progress (s.r.length + 2) s
    (by unfold Scanner.passes; split <;> omega) hs

/-- With more calls of `Scan` than there are bytes pending, the calls are
not used up before `Scan` returns false. -/
theorem Scanner.tokens_progress :
    ∀ (n : Nat) (s : Scanner), s.pending < n → s.err ≠ some ScanError.outOfFuel →
      (Scanner.tokens splitYAMLDocument n s).2.err ≠ some ScanError.outOfFuel
  | 0, s, hn, _ => by omega
  | n + 1, s, hn, hs => by
    obtain ⟨h1, h2⟩ := Scanner.Scan_progress s hs
    simp only [Scanner.tokens]
    cases hscan : Scanner.Scan splitYAMLDocument s with
    | mk tok s1 =>
      rw [hscan] at h1 h2
      cases tok with
      | none => exact h1
      | some t =>
        have hlt : s1.pending < s.pending := h2 (by simp)
        exact Scanner.tokens_progress n s1 (by omega) h1

/-- The calls of `Scan` that `ParseMultidoc` is given are enough for every
file: the scan of a file never ends for lack of them. -/
theorem chunksOf_ne_outOfFuel (multidoc : List Byte) :
    (chunksOf multidoc).2 ≠ some ScanError.outOfFuel := by
  have h := Scanner.tokens_progress (multidoc.length + 2) (multidocScanner multidoc)
    (by simp [Scanner.pending, multidocScanner, NewScanner, Scanner.Buffer])
    (by simp [multidocScanner, NewScanner, Scanner.Buffer])
  simp only [chunksOf, Scanner.Err]
  split
  · simp
  · exact h

/-! ## Facts about resource maps -/

theorem ResourceMap.get_set (k : String) (v : Resource) (k1 : String) :
    ∀ (m : ResourceMap), (m.set k v).get k1 = if k = k1 then some v else m.get k1
  | [] => by simp [ResourceMap.set, ResourceMap.get]
  | (k0, v0) :: t => by
    have ih := ResourceMap.get_set k v k1 t
    by_cases h0 : k0 = k
    · by_cases h1 : k = k1
      · simp [ResourceMap.set, ResourceMap.get, h0, h1]
      · simp [ResourceMap.set, ResourceMap.get, h0, h1]
    · by_cases h1 : k = k1
      · have h2 : ¬ k0 = k1 := fun e => h0 (e.trans h1.symm)
        subst h1
        simpa [ResourceMap.set, ResourceMap.get, h0] using ih
      · simp [ResourceMap.set, ResourceMap.get, h0, h1, ih]

theorem ResourceMap.mem_keys_iff (k : String) :
    ∀ (m : ResourceMap), k ∈ m.keys ↔ ∃ v, m.get k = some v
  | [] => by simp [ResourceMap.keys, ResourceMap.get]
  | (k0, v0) :: t => by
    have ih := ResourceMap.mem_keys_iff k t
    simp only [ResourceMap.keys] at ih
    by_cases h0 : k0 = k
    · simp [ResourceMap.keys, ResourceMap.get, h0]
    · have h1 : ¬ k = k0 := fun e => h0 e.symm
      simp [ResourceMap.keys, ResourceMap.get, h0, h1, ih]

theorem ResourceMap.keys_set (k : String) (v : Resource) :
    ∀ (m : ResourceMap), (m.set k v).keys = if k ∈ m.keys then m.keys else m.keys ++ [k]
  | [] => by simp [ResourceMap.set, ResourceMap.keys]
  | (k0, v0) :: t => by
    have ih := ResourceMap.keys_set k v t
    simp only [ResourceMap.keys] at ih
    by_cases h0 : k0 = k
    · simp [ResourceMap.set, ResourceMap.keys, h0]
    · have h1 : ¬ k = k0 := fun e => h0 e.symm
      simp only [ResourceMap.set, ResourceMap.keys, h0, if_false, List.map_cons, ih,
        List.mem_cons, h1, false_or]
      split <;> simp

theorem ResourceMap.nodup_keys_set (k : String) (v : Resource) (m : ResourceMap)
    (h : m.keys.Nodup) : (m.set k v).keys.Nodup := by
  rw [ResourceMap.keys_set]
  split
  · exact h
  · rename_i hk
    exact List.nodup_append.2 ⟨h, by simp, by simpa using hk⟩

theorem ResourceMap.nodup_keys_setAll :
    ∀ (rs : List Resource) (m : ResourceMap), m.keys.Nodup → (m.setAll rs).keys.Nodup
  | [], _, h => h
  | r :: rs, m, h =>
    ResourceMap.nodup_keys_setAll rs (m.set r.id r) (ResourceMap.nodup_keys_set r.id r m h)

/-- After a series of assignments a key holds the last resource assigned to
it, or what it held before when none was. -/
theorem ResourceMap.get_setAll_of_not_mem (k : String) :
    ∀ (rs : List Resource) (m : ResourceMap), (∀ r ∈ rs, r.id ≠ k) →
      (m.setAll rs).get k = m.get k
  | [], _, _ => rfl
  | r :: rs, m, h => by
    have ih := ResourceMap.get_setAll_of_not_mem k rs (m.set r.id r)
      (fun x hx => h x (by simp [hx]))
    have hr : ¬ r.id = k := h r (by simp)
    simp only [ResourceMap.setAll, List.foldl_cons] at ih ⊢
    rw [ih, ResourceMap.get_set]
    simp [hr]

theorem ResourceMap.setAll_append (m : ResourceMap) (rs1 rs2 : List Resource) :
    m.setAll (rs1 ++ rs2) = (m.setAll rs1).setAll rs2 := by
  simp [ResourceMap.setAll, List.foldl_append]

theorem ResourceMap.get_setAll_last (m : ResourceMap) (pre post : List Resource) (r : Resource)
    (hpost : ∀ x ∈ post, x.id ≠ r.id) :
    (m.setAll (pre ++ r :: post)).get r.id = some r := by
  rw [ResourceMap.setAll_append]
  have : (m.setAll pre).setAll (r :: post) = ((m.setAll pre).set r.id r).setAll post := rfl
  rw [this, ResourceMap.get_setAll_of_not_mem r.id post _ hpost, ResourceMap.get_set]
  simp

theorem ResourceMap.mem_keys_setAll (k : String) :
    ∀ (rs : List Resource) (m : ResourceMap),
      k ∈ (m.setAll rs).keys ↔ k ∈ m.keys ∨ ∃ r ∈ rs, r.id = k
  | [], m => by simp [ResourceMap.setAll]
  | r :: rs, m => by
    have ih := ResourceMap.mem_keys_setAll k rs (m.set r.id r)
    have hstep : (m.setAll (r :: rs)) = (m.set r.id r).setAll rs := rfl
    rw [hstep, ih, ResourceMap.keys_set]
    by_cases hk : r.id ∈ m.keys
    · simp only [hk, if_true, List.mem_cons, exists_eq_or_imp]
      constructor
      · rintro (h | h)
        · exact Or.inl h
        · exact Or.inr (Or.inr h)
      · rintro (h | h | h)
        · exact Or.inl h
        · exact Or.inl (h ▸ hk)
        · exact Or.inr h
    · simp only [hk, if_false, List.mem_append, List.mem_singleton, List.mem_cons,
        exists_eq_or_imp, List.not_mem_nil, or_false]
      constructor
      · rintro ((h | h) | h)
        · exact Or.inl h
        · exact Or.inr (Or.inl h.symm)
        · exact Or.inr (Or.inr h)
      · rintro (h | h | h)
        · exact Or.inl (Or.inl h)
        · exact Or.inl (Or.inr h.symm)
        · exact Or.inr h

/-! ## Facts about the multi-document parser -/

/-- The loop of `ParseMultidoc` decodes the tokens of its scanner one after
the other. -/
theorem parseLoop_eq_decodeChunks (unmarshalObject : Decoder) (source : String) :
    ∀ (n : Nat) (s : Scanner) (objs : ResourceMap) (decoded : List (List Byte)),
      parseLoop unmarshalObject source n s objs decoded =
        decodeChunks unmarshalObject source (Scanner.tokens splitYAMLDocument n s).1
          (Scanner.tokens splitYAMLDocument n s).2.Err objs decoded
  | 0, s, objs, decoded => by
    simp [parseLoop, Scanner.tokens, decodeChunks, Scanner.Err]
  | n + 1, s, objs, decoded => by
    simp only [parseLoop, Scanner.tokens]
    cases hscan : Scanner.Scan splitYAMLDocument s with
    | mk tok s1 =>
      cases tok with
      | none =>
        simp only [decodeChunks]
        cases s1.Err <;> rfl
      | some bytes2 =>
        simp only [decodeChunks]
        cases hdec : unmarshalObject source bytes2 with
        | error e => rfl
        | ok o =>
          cases o with
          | none => exact parseLoop_eq_decodeChunks unmarshalObject source n s1 _ _
          | some obj => exact parseLoop_eq_decodeChunks unmarshalObject source n s1 _ _

/-- A run of `ParseMultidoc` decodes the chunks of the file one after the
other. -/
theorem ParseMultidocRun_eq (unmarshalObject : Decoder) (multidoc : List Byte) (source : String) :
    ParseMultidocRun unmarshalObject multidoc source =
      decodeChunks unmarshalObject source (chunksOf multidoc).1 (chunksOf multidoc).2 [] [] :=
  parseLoop_eq_decodeChunks unmarshalObject source _ _ _ _

/-- Decoding stops at the first chunk the decoder rejects. -/
theorem decodeChunks_first_error (unmarshalObject : Decoder) (source : String)
    (c : List Byte) (post : List (List Byte)) (e : String) (serr : Option ScanError)
    (hc : unmarshalObject source c = Except.error e) :
    ∀ (pre : List (List Byte)) (objs : ResourceMap) (decoded : List (List Byte)),
      (∀ x ∈ pre, ∀ e1, unmarshalObject source x ≠ Except.error e1) →
      decodeChunks unmarshalObject source (pre ++ c :: post) serr objs decoded =
        ⟨none, some (ParseError.decode source e), decoded ++ (pre ++ [c])⟩
  | [], objs, decoded, _ => by simp [decodeChunks, hc]
  | x :: pre, objs, decoded, hpre => by
    have hx := hpre x (by simp)
    have ih := fun o d => decodeChunks_first_error unmarshalObject source c post e serr hc pre o d
      (fun y hy => hpre y (by simp [hy]))
    simp only [List.cons_append, decodeChunks]
    cases hdec : unmarshalObject source x with
    | error e1 => exact absurd hdec (hx e1)
    | ok o =>
      cases o with
      | none => simp [ih]
      | some obj => simp [ih]

/-- When the decoder rejects no chunk, every chunk is decoded and the
resources are assigned in stream order. -/
theorem decodeChunks_all_ok (unmarshalObject : Decoder) (source : String)
    (serr : Option ScanError) :
    ∀ (cs : List (List Byte)) (objs : ResourceMap) (decoded : List (List Byte)),
      (∀ x ∈ cs, ∀ e1, unmarshalObject source x ≠ Except.error e1) →
      decodeChunks unmarshalObject source cs serr objs decoded =
        ⟨some (objs.setAll (resourcesOf unmarshalObject source cs)),
          serr.map (ParseError.scan source), decoded ++ cs⟩
  | [], objs, decoded, _ => by simp [decodeChunks, resourcesOf, ResourceMap.setAll]
  | x :: cs, objs, decoded, hcs => by
    have hx := hcs x (by simp)
    have ih := fun o d => decodeChunks_all_ok unmarshalObject source serr cs o d
      (fun y hy => hcs y (by simp [hy]))
    simp only [decodeChunks]
    cases hdec : unmarshalObject source x with
    | error e1 => exact absurd hdec (hx e1)
    | ok o =>
      cases o with
      | none => simp [ih, resourcesOf, hdec]
      | some obj => simp [ih, resourcesOf, hdec, ResourceMap.setAll]

/-- The first element of a list with a property splits the list. -/
theorem exists_first_split {α : Type} (P : α → Prop) :
    ∀ (l : List α), (∃ x ∈ l, P x) →
      ∃ pre c post, l = pre ++ c :: post ∧ (∀ x ∈ pre, ¬ P x) ∧ P c
  | [], h => by simp at h
  | a :: l, h => by
    by_cases ha : P a
    · exact ⟨[], a, l, rfl, by simp, ha⟩
    · have hl : ∃ x ∈ l, P x := by
        obtain ⟨x, hx, hp⟩ := h
        rcases List.mem_cons.1 hx with rfl | hx
        · exact absurd hp ha
        · exact ⟨x, hx, hp⟩
      obtain ⟨pre, c, post, h1, h2, h3⟩ := exists_first_split P l hl
      refine ⟨a :: pre, c, post, by simp [h1], ?_, h3⟩
      intro x hx
      rcases List.mem_cons.1 hx with rfl | hx
      · exact ha
      · exact h2 x hx

theorem resourcesOf_append (unmarshalObject : Decoder) (source : String)
    (l1 l2 : List (List Byte)) :
    resourcesOf unmarshalObject source (l1 ++ l2) =
      resourcesOf unmarshalObject source l1 ++ resourcesOf unmarshalObject source l2 := by
  simp [resourcesOf, List.filterMap_append]

theorem mem_resourcesOf (unmarshalObject : Decoder) (source : String) (cs : List (List Byte))
    (r : Resource) :
    r ∈ resourcesOf unmarshalObject source cs ↔
      ∃ c ∈ cs, unmarshalObject source c = Except.ok (some r) := by
  simp only [resourcesOf, List.mem_filterMap]
  constructor
  · rintro ⟨c, hc, h⟩
    refine ⟨c, hc, ?_⟩
    cases hd : unmarshalObject source c with
    | error e => simp [hd] at h
    | ok o =>
      cases o with
      | none => simp [hd] at h
      | some obj =>
        simp [hd] at h
        rw [h]
  · rintro ⟨c, hc, h⟩
    exact ⟨c, hc, by simp [h]⟩

/-- When no chunk is rejected, `ParseMultidoc` returns the map of the
resources decoded, and the scanner's error if there is one. -/
theorem ParseMultidoc_all_ok (unmarshalObject : Decoder) (multidoc : List Byte) (source : String)
    (hok : ∀ x ∈ (chunksOf multidoc).1, ∀ e, unmarshalObject source x ≠ Except.error e) :
    ParseMultidoc unmarshalObject multidoc source =
      (some (ResourceMap.setAll [] (resourcesOf unmarshalObject source (chunksOf multidoc).1)),
        (chunksOf multidoc).2.map (ParseError.scan source)) := by
  simp only [ParseMultidoc, ParseMultidocRun_eq,
    decodeChunks_all_ok unmarshalObject source _ _ [] [] hok]

/-! ## Facts about the tree loader -/

/-- The walk function of `Load` is the classification of the entry followed
by the merge loop. -/
theorem visit_eq_classify (env : Env) (base path : String) (info : Node) (objs : ResourceMap) :
    visit env base path info objs =
      match classify env base path info with
      | Visit.fails e => (objs, some (WalkError.failed e))
      | Visit.skips => (objs, some WalkError.skipDir)
      | Visit.passes => (objs, none)
      | Visit.parsed source docs => mergeDocs source (env.range docs) objs := by
  cases info with
  | bad cause => simp [visit, classify]
  | file content =>
    simp only [visit, classify]
    split
    · rfl
    · split
      · cases Node.ReadFile (Node.file content) with
        | none => rfl
        | some bytes =>
          simp only []
          cases env.rel base path with
          | none => rfl
          | some source =>
            simp only []
            cases hp : ParseMultidoc env.unmarshalObject bytes source with
            | mk d e => cases e <;> rfl
      · rfl
  | dir es =>
    simp only [visit, classify]
    split
    · rfl
    · split
      · cases Node.ReadFile (Node.dir es) with
        | none => rfl
        | some bytes =>
          simp only []
          cases env.rel base path with
          | none => rfl
          | some source =>
            simp only []
            cases hp : ParseMultidoc env.unmarshalObject bytes source with
            | mk d e => cases e <;> rfl
      · rfl

/-- The merge loop never asks to skip a directory. -/
theorem mergeDocs_ne_skipDir (source : String) :
    ∀ (l objs : ResourceMap), (mergeDocs source l objs).2 ≠ some WalkError.skipDir
  | [], objs => by simp [mergeDocs]
  | (id, obj) :: rest, objs => by
    simp only [mergeDocs]
    cases objs.get id with
    | some a => simp
    | none => exact mergeDocs_ne_skipDir source rest _

/-- The walk function of `Load` asks to skip exactly the directories that
look like charts. -/
theorem visit_skipDir_iff (env : Env) (base path : String) (info : Node) (objs : ResourceMap) :
    (visit env base path info objs).2 = some WalkError.skipDir ↔
      (info.IsDir && looksLikeChart info) = true := by
  cases info with
  | bad cause => simp [visit, Node.IsDir]
  | file content =>
    simp only [visit, Node.IsDir, Bool.false_and, Bool.false_eq_true, if_false, iff_false]
    split
    · split
      · simp
      · split
        · simp
        · split
          · simp
          · exact mergeDocs_ne_skipDir _ _ _
    · simp
  | dir es =>
    simp only [visit]
    split
    · rename_i h
      simp [h]
    · rename_i h
      simp only [h, iff_false]
      split
      · simp [Node.ReadFile]
      · simp

theorem runVisits_append (env : Env) (base : String) :
    ∀ (l1 l2 : List (String × Node)) (objs : ResourceMap),
      runVisits env base (l1 ++ l2) objs =
        match runVisits env base l1 objs with
        | (objs1, some e) => (objs1, some e)
        | (objs1, none) => runVisits env base l2 objs1
  | [], l2, objs => by simp [runVisits]
  | (p, n) :: l1, l2, objs => by
    simp only [List.cons_append, runVisits]
    cases hv : visit env base p n objs with
    | mk o r =>
      cases r with
      | none => exact runVisits_append env base l1 l2 o
      | some e =>
        cases e with
        | skipDir => exact runVisits_append env base l1 l2 o
        | failed e => rfl

/-- Visiting a single entry. -/
theorem runVisits_single (env : Env) (base path : String) (info : Node) (objs : ResourceMap)
    (hskip : (visit env base path info objs).2 ≠ some WalkError.skipDir) :
    ((runVisits env base [(path, info)] objs).1,
      (runVisits env base [(path, info)] objs).2.map WalkError.failed) =
      visit env base path info objs := by
  simp only [runVisits]
  cases hv : visit env base path info objs with
  | mk o r =>
    cases r with
    | none => rfl
    | some e =>
      cases e with
      | skipDir => simp [hv] at hskip
      | failed e => rfl

mutual
/-- The walk of a node visits the entries `visits` lists, in order, up to
the first error; a chart directory makes it return `SkipDir`. -/
theorem walk_eq_runVisits (env : Env) (base : String) :
    ∀ (info : Node) (path : String) (objs : ResourceMap),
      walk env.join (visit env base) path info objs =
        if (info.IsDir && looksLikeChart info) = true then (objs, some WalkError.skipDir)
        else ((runVisits env base (visits env.join path info) objs).1,
          (runVisits env base (visits env.join path info) objs).2.map WalkError.failed)
  | Node.file content, path, objs => by
    have hskip : (visit env base path (Node.file content) objs).2 ≠ some WalkError.skipDir :=
      fun h => by simpa [Node.IsDir] using (visit_skipDir_iff env base path _ objs).1 h
    simp only [walk, visits, Node.IsDir, Bool.false_and, Bool.false_eq_true, if_false]
    exact (runVisits_single env base path _ objs hskip).symm
  | Node.bad cause, path, objs => by
    have hskip : (visit env base path (Node.bad cause) objs).2 ≠ some WalkError.skipDir :=
      fun h => by simpa [Node.IsDir] using (visit_skipDir_iff env base path _ objs).1 h
    simp only [walk, visits, Node.IsDir, Bool.false_and, Bool.false_eq_true, if_false]
    exact (runVisits_single env base path _ objs hskip).symm
  | Node.dir es, path, objs => by
    by_cases hchart : (Node.IsDir (Node.dir es) && looksLikeChart (Node.dir es)) = true
    · have hv : visit env base path (Node.dir es) objs = (objs, some WalkError.skipDir) := by
        simp [visit, hchart]
      simp only [walk, hv, hchart, if_true]
    · have hskip : (visit env base path (Node.dir es) objs).2 ≠ some WalkError.skipDir :=
        fun h => hchart ((visit_skipDir_iff env base path _ objs).1 h)
      have hchart2 : looksLikeChart (Node.dir es) = false := by
        simpa [Node.IsDir] using hchart
      have ih := walkNames_eq_runVisits env base es path
      simp only [walk, visits, hchart, hchart2, Bool.false_eq_true, if_false, runVisits]
      cases hv : visit env base path (Node.dir es) objs with
      | mk o r =>
        cases r with
        | none => simp [ih]
        | some e =>
          cases e with
          | skipDir => simp [hv] at hskip
          | failed e => simp
/-- The loop of the walk over the names of a directory visits the entries
`visitsNames` lists, in order, up to the first error. -/
theorem walkNames_eq_runVisits (env : Env) (base : String) :
    ∀ (es : List (String × Node)) (path : String) (objs : ResourceMap),
      walkNames env.join (visit env base) path es objs =
        ((runVisits env base (visitsNames env.join path es) objs).1,
          (runVisits env base (visitsNames env.join path es) objs).2.map WalkError.failed)
  | [], path, objs => by simp [walkNames, visitsNames, runVisits]
  | (name, Node.bad cause) :: rest, path, objs => by
    have ih := walkNames_eq_runVisits env base rest path
    have hv : visit env base (env.join path name) (Node.bad cause) objs =
        (objs, some (WalkError.failed (LoadError.walking (env.join path name) cause))) := by
      simp [visit]
    simp [walkNames, visitsNames, visits, runVisits, hv]
  | (name, Node.file content) :: rest, path, objs => by
    have ih := walkNames_eq_runVisits env base rest path
    have hw := walk_eq_runVisits env base (Node.file content) (env.join path name) objs
    simp only [Node.IsDir, Bool.false_and, Bool.false_eq_true, if_false] at hw
    simp only [walkNames, visitsNames, runVisits_append, hw]
    cases hr : runVisits env base (visits env.join (env.join path name) (Node.file content)) objs with
    | mk o r =>
      cases r with
      | none => simp [ih]
      | some e => simp
  | (name, Node.dir es) :: rest, path, objs => by
    have ih := walkNames_eq_runVisits env base rest path
    have hw := walk_eq_runVisits env base (Node.dir es) (env.join path name) objs
    by_cases hchart : (Node.IsDir (Node.dir es) && looksLikeChart (Node.dir es)) = true
    · have hchart2 : looksLikeChart (Node.dir es) = true := by simpa [Node.IsDir] using hchart
      have hv : visit env base (env.join path name) (Node.dir es) objs
          = (objs, some WalkError.skipDir) := by
        simp [visit, hchart]
      simp only [hchart, if_true] at hw
      simp only [walkNames, hw, visitsNames, visits, hchart2, if_true, List.cons_append,
        List.nil_append, runVisits, hv, ih, ne_eq, not_true_eq_false, if_false]
      rfl
    · simp only [hchart, Bool.false_eq_true, if_false] at hw
      simp only [walkNames, visitsNames, runVisits_append, hw]
      cases hr : runVisits env base (visits env.join (env.join path name) (Node.dir es)) objs with
      | mk o r =>
        cases r with
        | none => simp [ih]
        | some e => simp
end

/-- `filepath.Walk` with the walk function of `Load` visits the entries
`visits` lists, in order, up to the first error. -/
theorem Walk_eq_runVisits (env : Env) (base root : String) (info : Node) (objs : ResourceMap) :
    Walk env.join (visit env base) root info objs =
      runVisits env base (visits env.join root info) objs := by
  simp only [Walk, walk_eq_runVisits]
  by_cases hchart : (info.IsDir && looksLikeChart info) = true
  · simp only [hchart, if_true]
    cases info with
    | file c => simp [Node.IsDir] at hchart
    | bad c => simp [Node.IsDir] at hchart
    | dir es =>
      have hchart2 : looksLikeChart (Node.dir es) = true := by simpa [Node.IsDir] using hchart
      have hv : visit env base root (Node.dir es) objs = (objs, some WalkError.skipDir) := by
        simp [visit, hchart]
      simp [visits, hchart2, runVisits, hv]
  · simp only [hchart, Bool.false_eq_true, if_false]
    cases hr : runVisits env base (visits env.join root info) objs with
    | mk o r => cases r <;> rfl

/-- The loop of `Load` over its roots visits the entries `allVisits` lists,
in order, up to the first error. -/
theorem loadRoots_eq_runVisits (env : Env) (base : String) :
    ∀ (roots : List String) (objs : ResourceMap),
      loadRoots env base roots objs = runVisits env base (allVisits env roots) objs
  | [], objs => by simp [loadRoots, allVisits, runVisits]
  | root :: rest, objs => by
    simp only [loadRoots, allVisits, runVisits_append, Walk_eq_runVisits]
    cases hr : runVisits env base (visits env.join root (env.lstat root)) objs with
    | mk o r =>
      cases r with
      | none => exact loadRoots_eq_runVisits env base rest o
      | some e => rfl

/-- The walk of a directory that looks like a chart: nothing is loaded from
it or from below it, and the walk goes on after it. -/
theorem Walk_chart_directory (env : Env) (base root : String) (es : List (String × Node))
    (objs : ResourceMap) (hchart : looksLikeChart (Node.dir es) = true) :
    Walk env.join (visit env base) root (Node.dir es) objs = (objs, none) ∧
      visits env.join root (Node.dir es) = [(root, Node.dir es)] := by
  have hv : visit env base root (Node.dir es) objs = (objs, some WalkError.skipDir) := by
    simp [visit, Node.IsDir, hchart]
  rw [Walk_eq_runVisits]
  simp [visits, hchart, runVisits, hv]

/-- The walk of a directory that does not look like a chart and whose name
does not end in ".yml": the walk goes through its entries. -/
theorem walk_plain_directory (env : Env) (base path : String) (es : List (String × Node))
    (objs : ResourceMap) (hchart : looksLikeChart (Node.dir es) = false)
    (hext : Ext path ≠ ".yml") :
    walk env.join (visit env base) path (Node.dir es) objs =
      walkNames env.join (visit env base) path es objs := by
  have hv : visit env base path (Node.dir es) objs = (objs, none) := by
    simp [visit, Node.IsDir, hchart, selected, hext]
  simp only [walk, hv]

/-! ## Facts about the merge of the per-file maps -/

theorem ResourceMap.get_eq_some_iff_mem (k : String) (v : Resource) :
    ∀ (m : ResourceMap), m.keys.Nodup → (m.get k = some v ↔ (k, v) ∈ m)
  | [], _ => by simp [ResourceMap.get]
  | (k0, v0) :: t, hnd => by
    have hnd2 : k0 ∉ ResourceMap.keys t ∧ (ResourceMap.keys t).Nodup := by
      simpa [ResourceMap.keys] using hnd
    have ih := ResourceMap.get_eq_some_iff_mem k v t hnd2.2
    by_cases h0 : k0 = k
    · subst h0
      have hnot : (k0, v) ∉ t := fun hm => hnd2.1 (by
        simp only [ResourceMap.keys, List.mem_map]
        exact ⟨(k0, v), hm, rfl⟩)
      simp only [ResourceMap.get, if_true, Option.some.injEq, List.mem_cons, Prod.mk.injEq,
        true_and, hnot, or_false]
      exact eq_comm
    · have h1 : ¬ k = k0 := fun e => h0 e.symm
      simp [ResourceMap.get, h0, h1, ih]

/-- Ranging over a map in another order finds the same value under every
key. -/
theorem ResourceMap.get_perm (m1 m2 : ResourceMap) (hp : m1.Perm m2) (hnd : m2.keys.Nodup)
    (k : String) : m1.get k = m2.get k := by
  have hnd1 : m1.keys.Nodup := (hp.map Prod.fst).nodup_iff.2 hnd
  apply Option.ext
  intro v
  simp only [Option.mem_def]
  rw [ResourceMap.get_eq_some_iff_mem k v m1 hnd1, ResourceMap.get_eq_some_iff_mem k v m2 hnd]
  exact hp.mem_iff

theorem ResourceMap.get_eq_none_iff (k : String) (m : ResourceMap) :
    m.get k = none ↔ k ∉ m.keys := by
  rw [ResourceMap.mem_keys_iff]
  cases m.get k <;> simp

/-- The merge loop over entries with distinct keys none of which is defined
yet: no error, and the map is extended by the entries. -/
theorem mergeDocs_fresh (source : String) :
    ∀ (l objs : ResourceMap), l.keys.Nodup → (∀ k ∈ l.keys, objs.get k = none) →
      ∃ o, mergeDocs source l objs = (o, none) ∧
        ∀ k, o.get k = if k ∈ l.keys then l.get k else objs.get k
  | [], objs, _, _ => ⟨objs, rfl, by simp [ResourceMap.keys]⟩
  | (id, obj) :: rest, objs, hnd, hfresh => by
    have hnd2 : id ∉ ResourceMap.keys rest ∧ (ResourceMap.keys rest).Nodup := by
      simpa [ResourceMap.keys] using hnd
    have hid : objs.get id = none := hfresh id (by simp [ResourceMap.keys])
    obtain ⟨o, ho, hget⟩ := mergeDocs_fresh source rest (objs.set id obj) hnd2.2 (by
      intro k hk
      have hne : ¬ id = k := fun e => hnd2.1 (e ▸ hk)
      rw [ResourceMap.get_set]
      simp only [hne, if_false]
      exact hfresh k (by
        simp only [ResourceMap.keys, List.map_cons, List.mem_cons]
        exact Or.inr hk))
    refine ⟨o, by simp only [mergeDocs, hid, ho], ?_⟩
    intro k
    rw [hget k, ResourceMap.get_set]
    by_cases hk : k ∈ ResourceMap.keys rest
    · have hne : ¬ id = k := fun e => hnd2.1 (e ▸ hk)
      have hmem : k ∈ ResourceMap.keys ((id, obj) :: rest) := by
        simp only [ResourceMap.keys, List.map_cons, List.mem_cons]
        exact Or.inr hk
      simp [hk, hmem, ResourceMap.get, hne]
    · by_cases hne : id = k
      · subst hne
        have hmem : id ∈ ResourceMap.keys ((id, obj) :: rest) := by
          simp [ResourceMap.keys]
        rw [if_neg hk, if_pos hmem]
        simp [ResourceMap.get]
      · have hne2 : ¬ k = id := fun e => hne e.symm
        have hmem : k ∉ ResourceMap.keys ((id, obj) :: rest) := by
          simp only [ResourceMap.keys, List.map_cons, List.mem_cons, not_or]
          exact ⟨hne2, hk⟩
        simp [hk, hmem, hne]

/-- The merge loop over entries with distinct keys one of which is defined
already: it stops with a duplicate error that names such a key, the source
of the resource defined under it, and the source being merged. -/
theorem mergeDocs_duplicate (source : String) :
    ∀ (l objs : ResourceMap), l.keys.Nodup → (∃ k ∈ l.keys, objs.get k ≠ none) →
      ∃ o k r0, mergeDocs source l objs =
          (o, some (WalkError.failed (LoadError.duplicate k r0.source source))) ∧
        k ∈ l.keys ∧ objs.get k = some r0
  | [], objs, _, h => by simp [ResourceMap.keys] at h
  | (id, obj) :: rest, objs, hnd, h => by
    have hnd2 : id ∉ ResourceMap.keys rest ∧ (ResourceMap.keys rest).Nodup := by
      simpa [ResourceMap.keys] using hnd
    cases hid : objs.get id with
    | some a =>
      exact ⟨objs, id, a, by simp only [mergeDocs, hid], by simp [ResourceMap.keys], hid⟩
    | none =>
      obtain ⟨k, hk, hdef⟩ := h
      have hk2 : k ∈ ResourceMap.keys rest := by
        simp only [ResourceMap.keys, List.map_cons, List.mem_cons] at hk
        rcases hk with rfl | hk
        · exact absurd hid hdef
        · exact hk
      have hne : ¬ id = k := fun e => hnd2.1 (e ▸ hk2)
      obtain ⟨o, k1, r0, ho, hk1, hget⟩ := mergeDocs_duplicate source rest (objs.set id obj)
        hnd2.2 ⟨k, hk2, by rw [ResourceMap.get_set]; simpa [hne] using hdef⟩
      have hne1 : ¬ id = k1 := fun e => hnd2.1 (e ▸ hk1)
      rw [ResourceMap.get_set] at hget
      simp only [hne1, if_false] at hget
      refine ⟨o, k1, r0, by simp only [mergeDocs, hid, ho], ?_, hget⟩
      simp only [ResourceMap.keys, List.map_cons, List.mem_cons]
      exact Or.inr hk1

/-- What the merge of a sequence of per-file maps into `objs` comes to:
either no error, and then the maps share no identifier with each other or
with `objs`, and the result holds exactly their entries and those of
`objs`; or a duplicate error at the first file that has an identifier
defined already, naming such an identifier, the source of the resource
defined under it and the source label of that file. -/
theorem mergeFiles_spec (range : ResourceMap → ResourceMap)
    (hrange : ∀ m : ResourceMap, m.keys.Nodup → (range m).Perm m) :
    ∀ (files : List (String × ResourceMap)) (objs : ResourceMap),
      (∀ f ∈ files, f.2.keys.Nodup) →
      (∃ o, mergeFiles range files objs = (o, none) ∧
        (∀ k r, o.get k = some r ↔ (objs.get k = some r ∨ ∃ f ∈ files, f.2.get k = some r)) ∧
        files.Pairwise DisjointFiles ∧
        (∀ f ∈ files, ∀ k ∈ f.2.keys, objs.get k = none)) ∨
      (∃ o pre f post k r0,
        mergeFiles range files objs = (o, some (LoadError.duplicate k r0.source f.1)) ∧
        files = pre ++ f :: post ∧ k ∈ f.2.keys ∧
        (objs.get k = some r0 ∨ ∃ g ∈ pre, g.2.get k = some r0))
  | [], objs, _ => Or.inl ⟨objs, rfl, by simp, List.Pairwise.nil, by simp⟩
  | (source, docs) :: rest, objs, hnd => by
    have hdocs : docs.keys.Nodup := hnd (source, docs) (by simp)
    have hperm := hrange docs hdocs
    have hkeys : ∀ k, k ∈ (range docs).keys ↔ k ∈ docs.keys := fun k =>
      (hperm.map Prod.fst).mem_iff
    have hrnd : (range docs).keys.Nodup := (hperm.map Prod.fst).nodup_iff.2 hdocs
    have hget : ∀ k, (range docs).get k = docs.get k := ResourceMap.get_perm _ _ hperm hdocs
    by_cases hfresh : ∀ k ∈ (range docs).keys, objs.get k = none
    · obtain ⟨o1, ho1, hget1⟩ := mergeDocs_fresh source (range docs) objs hrnd hfresh
      have hget2 : ∀ k, o1.get k = if k ∈ docs.keys then docs.get k else objs.get k := by
        intro k
        rw [hget1 k, hget k]
        by_cases hk : k ∈ docs.keys
        · rw [if_pos hk, if_pos ((hkeys k).2 hk)]
        · rw [if_neg hk, if_neg (fun h => hk ((hkeys k).1 h))]
      rcases mergeFiles_spec range hrange rest o1 (fun f hf => hnd f (by simp [hf])) with
        ⟨o, ho, hchar, hpair, hdisj⟩ | ⟨o, pre, f, post, k, r0, ho, hsplit, hk, hwhere⟩
      · left
        have hdisj2 : ∀ f ∈ rest, ∀ k ∈ f.2.keys, k ∉ docs.keys := by
          intro f hf k hk hkd
          have h1 := hdisj f hf k hk
          rw [hget2 k, if_pos hkd] at h1
          obtain ⟨v, hv⟩ := (ResourceMap.mem_keys_iff k docs).1 hkd
          rw [hv] at h1
          exact absurd h1 (by simp)
        refine ⟨o, by simp only [mergeFiles, ho1, ho], ?_, ?_, ?_⟩
        · intro k r
          rw [hchar k r, hget2 k]
          by_cases hkd : k ∈ docs.keys
          · have hobjs : objs.get k = none := hfresh k ((hkeys k).2 hkd)
            simp only [hkd, if_true, hobjs, List.mem_cons, exists_eq_or_imp]
            constructor
            · rintro (h | h)
              · exact Or.inr (Or.inl h)
              · exact Or.inr (Or.inr h)
            · rintro (h | h | h)
              · exact absurd h (by simp)
              · exact Or.inl h
              · exact Or.inr h
          · have hnone : docs.get k = none := (ResourceMap.get_eq_none_iff k docs).2 hkd
            simp only [hkd, if_false, List.mem_cons, exists_eq_or_imp, hnone]
            constructor
            · rintro (h | h)
              · exact Or.inl h
              · exact Or.inr (Or.inr h)
            · rintro (h | h | h)
              · exact Or.inl h
              · exact absurd h (by simp)
              · exact Or.inr h
        · refine List.Pairwise.cons ?_ hpair
          intro g hg k hk hkg
          exact hdisj2 g hg k hkg hk
        · intro f hf k hk
          rcases List.mem_cons.1 hf with rfl | hf
          · exact hfresh k ((hkeys k).2 hk)
          · have h1 := hdisj f hf k hk
            rw [hget2 k, if_neg (hdisj2 f hf k hk)] at h1
            exact h1
      · right
        refine ⟨o, (source, docs) :: pre, f, post, k, r0, by simp only [mergeFiles, ho1, ho],
          by simp [hsplit], hk, ?_⟩
        rcases hwhere with h | ⟨g, hg, h⟩
        · rw [hget2 k] at h
          by_cases hkd : k ∈ docs.keys
          · rw [if_pos hkd] at h
            exact Or.inr ⟨(source, docs), by simp, h⟩
          · rw [if_neg hkd] at h
            exact Or.inl h
        · exact Or.inr ⟨g, by simp [hg], h⟩
    · right
      have hex : ∃ k ∈ (range docs).keys, objs.get k ≠ none := by
        by_contra hno
        exact hfresh (fun k hk => by
          by_contra hne
          exact hno ⟨k, hk, hne⟩)
      obtain ⟨o, k, r0, ho, hk, hdef⟩ := mergeDocs_duplicate source (range docs) objs hrnd hex
      exact ⟨o, [], (source, docs), rest, k, r0, by simp only [mergeFiles, ho], rfl,
        (hkeys k).1 hk, Or.inl hdef⟩

/-! ## From the walk to the sequence of files -/

/-- When `ParseMultidoc` returns no error, the decoder has accepted every
chunk. -/
theorem ParseMultidoc_accepts_of_no_error (unmarshalObject : Decoder) (multidoc : List Byte)
    (source : String) (h : (ParseMultidoc unmarshalObject multidoc source).2 = none) :
    ∀ x ∈ (chunksOf multidoc).1, ∀ e, unmarshalObject source x ≠ Except.error e := by
  by_contra hno
  have hex : ∃ x ∈ (chunksOf multidoc).1, ∃ e, unmarshalObject source x = Except.error e := by
    by_contra hne
    exact hno (fun x hx e he => hne ⟨x, hx, e, he⟩)
  obtain ⟨pre, c, post, hsplit, hpre, e, hc⟩ :=
    exists_first_split (fun c => ∃ e, unmarshalObject source c = Except.error e) _ hex
  have hrun := decodeChunks_first_error unmarshalObject source c post e (chunksOf multidoc).2 hc
    pre [] [] (fun x hx e1 he => hpre x hx ⟨e1, he⟩)
  simp [ParseMultidoc, ParseMultidocRun_eq, hsplit, hrun] at h

theorem ResourceMap.get_setAll_some (k : String) (r : Resource) :
    ∀ (rs : List Resource) (m : ResourceMap), (m.setAll rs).get k = some r →
      m.get k = some r ∨ (r ∈ rs ∧ r.id = k)
  | [], _, h => Or.inl h
  | x :: rs, m, h => by
    have hstep : m.setAll (x :: rs) = (m.set x.id x).setAll rs := rfl
    rw [hstep] at h
    rcases ResourceMap.get_setAll_some k r rs (m.set x.id x) h with h1 | ⟨h1, h2⟩
    · rw [ResourceMap.get_set] at h1
      by_cases hx : x.id = k
      · simp only [hx, if_true, Option.some.injEq] at h1
        subst h1
        exact Or.inr ⟨by simp, hx⟩
      · simp only [hx, if_false] at h1
        exact Or.inl h1
    · exact Or.inr ⟨by simp [h1], h2⟩

/-- The map of a file that is read and parsed without error: its keys are
distinct, and each of its resources is what the decoder made of a chunk,
under the file's source label, and is held under its own identifier. -/
theorem entryDocs_spec (env : Env) (base : String) (e : String × Node) (source : String)
    (docs : ResourceMap) (h : entryDocs env base e = some (source, docs)) :
    docs.keys.Nodup ∧
      ∀ k r, docs.get k = some r →
        r.id = k ∧ ∃ c, env.unmarshalObject source c = Except.ok (some r) := by
  have hparse : ∃ bytes, ∃ dm, ParseMultidoc env.unmarshalObject bytes source = (dm, none) ∧
      docs = dm.getD [] := by
    unfold entryDocs classify at h
    split at h
    · rename_i src d hcl
      simp only [Option.some.injEq, Prod.mk.injEq] at h
      obtain ⟨h1, h2⟩ := h
      subst h1 h2
      split at hcl
      · simp at hcl
      · split at hcl
        · simp at hcl
        · split at hcl
          · split at hcl
            · simp at hcl
            · rename_i bytes _
              split at hcl
              · simp at hcl
              · rename_i src2 _
                split at hcl
                · simp at hcl
                · rename_i dm hp
                  simp only [Visit.parsed.injEq] at hcl
                  obtain ⟨h3, h4⟩ := hcl
                  subst h3
                  exact ⟨bytes, dm, hp, h4.symm⟩
          · simp at hcl
    · simp at h
  obtain ⟨bytes, dm, hp, hdocs⟩ := hparse
  have hok := ParseMultidoc_accepts_of_no_error env.unmarshalObject bytes source (by rw [hp])
  rw [ParseMultidoc_all_ok env.unmarshalObject bytes source hok] at hp
  have hdm : dm = some (ResourceMap.setAll []
      (resourcesOf env.unmarshalObject source (chunksOf bytes).1)) := (congrArg Prod.fst hp).symm
  subst hdm
  simp only [Option.getD_some] at hdocs
  subst hdocs
  refine ⟨ResourceMap.nodup_keys_setAll _ [] (by simp [ResourceMap.keys]), ?_⟩
  intro k r hget
  rcases ResourceMap.get_setAll_some k r _ [] hget with h1 | ⟨h1, h2⟩
  · simp [ResourceMap.get] at h1
  · obtain ⟨c, _, hc⟩ := (mem_resourcesOf env.unmarshalObject source _ r).1 h1
    exact ⟨h2, c, hc⟩

/-- Visiting entries none of which meets a walk, read, path or parse error
is merging, in order, the maps of the files among them. -/
theorem runVisits_eq_mergeFiles (env : Env) (base : String) :
    ∀ (l : List (String × Node)) (objs : ResourceMap),
      (∀ e ∈ l, entryOk env base e = true) →
      runVisits env base l objs =
        mergeFiles env.range (l.filterMap (entryDocs env base)) objs
  | [], objs, _ => rfl
  | (path, info) :: rest, objs, hok => by
    have h0 := hok (path, info) (by simp)
    have ih := fun o => runVisits_eq_mergeFiles env base rest o
      (fun e he => hok e (by simp [he]))
    simp only [runVisits, visit_eq_classify, List.filterMap_cons, entryDocs]
    simp only [entryOk] at h0
    cases hcl : classify env base path info with
    | fails e => simp [hcl] at h0
    | skips => simp only [ih]
    | passes => simp only [ih]
    | parsed source docs =>
      simp only [mergeFiles]
      cases hm : mergeDocs source (env.range docs) objs with
      | mk o r =>
        cases r with
        | none => simp only [ih]
        | some e =>
          cases e with
          | skipDir => simp only [ih]
          | failed e => rfl

/-- A run of visits that ends without error has met no walk, read, path or
parse error. -/
theorem entryOk_of_runVisits_none (env : Env) (base : String) :
    ∀ (l : List (String × Node)) (objs : ResourceMap),
      (runVisits env base l objs).2 = none → ∀ e ∈ l, entryOk env base e = true
  | [], _, _ => by simp
  | (path, info) :: rest, objs, h => by
    simp only [runVisits, visit_eq_classify] at h
    intro e he
    cases hcl : classify env base path info with
    | fails e1 => simp [hcl] at h
    | skips =>
      simp only [hcl] at h
      rcases List.mem_cons.1 he with rfl | he
      · simp [entryOk, hcl]
      · exact entryOk_of_runVisits_none env base rest objs h e he
    | passes =>
      simp only [hcl] at h
      rcases List.mem_cons.1 he with rfl | he
      · simp [entryOk, hcl]
      · exact entryOk_of_runVisits_none env base rest objs h e he
    | parsed source docs =>
      simp only [hcl] at h
      rcases List.mem_cons.1 he with rfl | he
      · simp [entryOk, hcl]
      · cases hm : mergeDocs source (env.range docs) objs with
        | mk o r =>
          rw [hm] at h
          cases r with
          | none => exact entryOk_of_runVisits_none env base rest o h e he
          | some e1 =>
            cases e1 with
            | skipDir => exact entryOk_of_runVisits_none env base rest o h e he
            | failed e1 => simp at h

/-- `Load` over roots whose entries meet no walk, read, path or parse error
merges, in order, the maps of the files it processes. -/
theorem Load_eq_mergeFiles (env : Env) (base root : String) (more : List String)
    (hok : ∀ e ∈ allVisits env (root :: more), entryOk env base e = true) :
    Load env base root more =
      mergeFiles env.range (processedFiles env base (root :: more)) [] := by
  rw [Load, loadRoots_eq_runVisits, runVisits_eq_mergeFiles env base _ _ hok]
  rfl

theorem processedFiles_nodup (env : Env) (base : String) (roots : List String) :
    ∀ f ∈ processedFiles env base roots, f.2.keys.Nodup := by
  intro f hf
  obtain ⟨e, _, he⟩ := List.mem_filterMap.1 hf
  exact (entryDocs_spec env base e f.1 f.2 he).1

/-! ## The claims -/

/-- Claim C1, as amended: for every non-empty sequence of non-empty documents
none of which contains the separator, every document but the last at most
1048571 bytes long and the last at most 1048575 bytes long, the scanner of
`ParseMultidoc` run over the documents joined by the separator line yields
exactly those documents, in order, and reports no error. -/
theorem splitter_round_trip (docs : List (List Byte)) (hne : docs ≠ [])
    (hdocs : ∀ d ∈ docs, d ≠ [] ∧ ¬ yamlSeparator <:+: d)
    (hinit : ∀ d ∈ docs.dropLast, d.length + 5 ≤ 1024 * 1024)
    (hlast : ∀ d ∈ docs.getLast?, d.length < 1024 * 1024) :
    chunksOf (joinDocs docs) = (docs, none) := by
  have hlen := length_le_length_joinDocs docs (fun d hd => (hdocs d hd).1)
  obtain ⟨s1, h1, herr1⟩ :=
    Scanner.tokens_joinDocs docs ((joinDocs docs).length + 2) (multidocScanner (joinDocs docs))
      hne (multidocScanner_WF _) rfl (by simp [multidocScanner, NewScanner, Scanner.Buffer])
      hdocs hinit hlast (by omega)
  simp only [chunksOf, h1, herr1]

/-- Witness for claim C1, as amended: two one-byte documents. -/
theorem splitter_round_trip_witness :
    chunksOf (joinDocs [[97], [98]]) = ([[97], [98]], none) :=
  splitter_round_trip [[97], [98]] (by decide) (by decide) (by decide) (by decide)

/-- Claim C1 as stated fails: a single document of 1048576 bytes, none of
them a line end, is non-empty and contains no separator, yet the scanner of
`ParseMultidoc` yields no chunk for it and stops with `ErrTooLong`. -/
theorem splitter_round_trip_counterexample :
    ([List.replicate 1048576 (97 : Byte)] ≠ []) ∧
    (∀ d ∈ [List.replicate 1048576 (97 : Byte)], d ≠ [] ∧ ¬ yamlSeparator <:+: d) ∧
    chunksOf (joinDocs [List.replicate 1048576 (97 : Byte)]) = ([], some ScanError.tooLong) ∧
    chunksOf (joinDocs [List.replicate 1048576 (97 : Byte)]) ≠
      ([List.replicate 1048576 (97 : Byte)], none) := by
  have hsep := not_separator_infix_replicate 1048576 97 (by decide)
  have hres : chunksOf (joinDocs [List.replicate 1048576 (97 : Byte)])
      = ([], some ScanError.tooLong) :=
    chunksOf_tooLong (List.replicate 1048576 97) hsep (by rw [List.length_replicate])
  refine ⟨List.cons_ne_nil _ _, ?_, hres, ?_⟩
  · intro d hd
    rw [List.mem_singleton] at hd
    subst hd
    refine ⟨fun h => ?_, hsep⟩
    have := congrArg List.length h
    rw [List.length_replicate] at this
    exact absurd this (by decide)
  · rw [hres]
    intro h
    exact absurd (congrArg Prod.snd h) (by decide)

/-- Claim C2: when the first occurrence of the separator in the buffer is
at `p` and the first line end after it is at offset `j` from `i = p + 4`,
the position directly after the separator, `splitYAMLDocument` returns the
advance `i + j + 1` and the token `data[0:p]`, whatever `atEOF` is. -/
theorem splitYAMLDocument_separator_found (data : List Byte) (p j : Nat) (atEOF : Bool)
    (hocc : yamlSeparator <+: data.drop p)
    (hfirst : ∀ q, q < p → ¬ yamlSeparator <+: data.drop q)
    (hj : (data.drop (p + 4))[j]? = some newline)
    (hjfirst : newline ∉ (data.drop (p + 4)).take j) :
    splitYAMLDocument data atEOF = ⟨(p + 4) + j + 1, some (data.take p), none⟩ := by
  have hsl : yamlSeparator.length = 4 := rfl
  have hle : p + 4 ≤ data.length := by
    have := hocc.length_le
    simp only [hsl, List.length_drop] at this
    omega
  have hjlt : j < (data.drop (p + 4)).length := by
    rcases List.getElem?_eq_some.1 hj with ⟨h, _⟩
    exact h
  have hafter : data.drop (p + 4) =
      (data.drop (p + 4)).take j ++ newline :: (data.drop (p + 4)).drop (j + 1) := by
    conv_lhs => rw [← List.take_append_drop j (data.drop (p + 4))]
    congr 1
    rw [List.drop_eq_getElem_cons hjlt]
    congr 1
    rcases List.getElem?_eq_some.1 hj with ⟨_, h⟩
    exact h
  have hdrop : data.drop p = yamlSeparator ++ data.drop (p + 4) := by
    have := List.prefix_iff_eq_append.1 hocc
    rw [hsl, List.drop_drop] at this
    rw [← this, Nat.add_comm]
  have hdata : data = data.take p ++ (yamlSeparator ++
      ((data.drop (p + 4)).take j ++ newline :: (data.drop (p + 4)).drop (j + 1))) := by
    rw [← hafter, ← hdrop, List.take_append_drop]
  have hpl : (data.take p).length = p := by
    rw [List.length_take]
    omega
  have h := splitYAMLDocument_at_separator (data.take p) ((data.drop (p + 4)).take j)
    ((data.drop (p + 4)).drop (j + 1)) atEOF
    (by
      intro q hq
      rw [← hdata]
      exact hfirst q (by omega))
    hjfirst
  rw [← hdata] at h
  rw [h, hpl, hsl, List.length_take]
  have : min j (data.drop (p + 4)).length = j := by omega
  rw [this]

/-- Witness for claim C2: the buffer "a\n---x\nb", not final. -/
theorem splitYAMLDocument_separator_found_witness :
    splitYAMLDocument [97, 10, 45, 45, 45, 120, 10, 98] false = ⟨(1 + 4) + 1 + 1, some [97], none⟩ :=
  splitYAMLDocument_separator_found [97, 10, 45, 45, 45, 120, 10, 98] 1 1 false
    (by decide) (by decide) (by decide) (by decide)

/-- Claim C7: when the scan of a file reports no error, `ParseMultidoc`
fails if and only if the decoder rejects some chunk; and whatever the scan
does later, at the first chunk the decoder rejects the run ends: the chunks
up to that one and no later chunk have been decoded, no map is returned,
and the error wraps the decoder's error with the source label. -/
theorem ParseMultidoc_decode_error (unmarshalObject : Decoder) (multidoc : List Byte)
    (source : String) :
    ((chunksOf multidoc).2 = none →
      ((ParseMultidoc unmarshalObject multidoc source).2 ≠ none ↔
        ∃ c ∈ (chunksOf multidoc).1, ∃ e, unmarshalObject source c = Except.error e)) ∧
    (∀ pre c post e, (chunksOf multidoc).1 = pre ++ c :: post →
      (∀ x ∈ pre, ∀ e1, unmarshalObject source x ≠ Except.error e1) →
      unmarshalObject source c = Except.error e →
      ParseMultidocRun unmarshalObject multidoc source =
          ⟨none, some (ParseError.decode source e), pre ++ [c]⟩ ∧
        ParseMultidoc unmarshalObject multidoc source =
          (none, some (ParseError.decode source e))) := by
  have hfirst : ∀ pre c post e, (chunksOf multidoc).1 = pre ++ c :: post →
      (∀ x ∈ pre, ∀ e1, unmarshalObject source x ≠ Except.error e1) →
      unmarshalObject source c = Except.error e →
      ParseMultidocRun unmarshalObject multidoc source =
          ⟨none, some (ParseError.decode source e), pre ++ [c]⟩ := by
    intro pre c post e hsplit hpre hc
    rw [ParseMultidocRun_eq, hsplit,
      decodeChunks_first_error unmarshalObject source c post e _ hc pre [] [] hpre]
    simp
  refine ⟨fun hscan => ⟨fun hfail => ?_, fun hex => ?_⟩, fun pre c post e h1 h2 h3 => ?_⟩
  · by_contra hno
    have hok : ∀ x ∈ (chunksOf multidoc).1, ∀ e, unmarshalObject source x ≠ Except.error e :=
      fun x hx e he => hno ⟨x, hx, e, he⟩
    rw [ParseMultidoc_all_ok unmarshalObject multidoc source hok, hscan] at hfail
    exact hfail rfl
  · obtain ⟨pre, c, post, hsplit, hpre, e, hc⟩ :=
      exists_first_split (fun c => ∃ e, unmarshalObject source c = Except.error e) _ hex
    have h := hfirst pre c post e hsplit (fun x hx e1 he => hpre x hx ⟨e1, he⟩) hc
    simp [ParseMultidoc, h]
  · have h := hfirst pre c post e h1 h2 h3
    exact ⟨h, by simp [ParseMultidoc, h]⟩

/-- Witness for claim C7: the file "a\n---\n!b\n---\nc" with the sample
decoder, which rejects the second of its three chunks. -/
theorem ParseMultidoc_decode_error_witness :
    (chunksOf [97, 10, 45, 45, 45, 10, 33, 98, 10, 45, 45, 45, 10, 99]).2 = none ∧
    (chunksOf [97, 10, 45, 45, 45, 10, 33, 98, 10, 45, 45, 45, 10, 99]).1
      = [97] :: [33, 98] :: [[99]] ∧
    ParseMultidocRun sampleUnmarshal [97, 10, 45, 45, 45, 10, 33, 98, 10, 45, 45, 45, 10, 99] "f"
      = ⟨none, some (ParseError.decode "f" "invalid document"), [[97], [33, 98]]⟩ :=
  ⟨by decide, by decide,
    ((ParseMultidoc_decode_error sampleUnmarshal
      [97, 10, 45, 45, 45, 10, 33, 98, 10, 45, 45, 45, 10, 99] "f").2
      [[97]] [33, 98] [[99]] "invalid document" (by decide)
      (by simp [sampleUnmarshal]) (by decide)).1⟩

/-- Claim C8: when the scan of a file reports no error and the decoder
rejects no chunk, `ParseMultidoc` succeeds, and under the identifier of a
chunk's resource the returned map holds the resource of the last chunk with
that identifier, however many earlier chunks decode to the same
identifier. -/
theorem ParseMultidoc_last_wins (unmarshalObject : Decoder) (multidoc : List Byte)
    (source : String) (pre post : List (List Byte)) (c : List Byte) (r : Resource)
    (hscan : chunksOf multidoc = (pre ++ c :: post, none))
    (hok : ∀ x ∈ pre ++ c :: post, ∀ e, unmarshalObject source x ≠ Except.error e)
    (hc : unmarshalObject source c = Except.ok (some r))
    (hlast : ∀ x ∈ post, ∀ r1, unmarshalObject source x = Except.ok (some r1) → r1.id ≠ r.id) :
    ∃ m, ParseMultidoc unmarshalObject multidoc source = (some m, none) ∧
      m.get r.id = some r := by
  have hok2 : ∀ x ∈ (chunksOf multidoc).1, ∀ e, unmarshalObject source x ≠ Except.error e := by
    rw [hscan]
    exact hok
  refine ⟨_, by rw [ParseMultidoc_all_ok unmarshalObject multidoc source hok2, hscan]; rfl, ?_⟩
  have hres : resourcesOf unmarshalObject source (pre ++ c :: post) =
      resourcesOf unmarshalObject source pre ++ r :: resourcesOf unmarshalObject source post := by
    rw [resourcesOf_append]
    congr 1
    simp [resourcesOf, hc]
  simp only [hscan, hres]
  apply ResourceMap.get_setAll_last
  intro x hx
  obtain ⟨c1, hc1, hd⟩ := (mem_resourcesOf unmarshalObject source post x).1 hx
  exact hlast c1 hc1 x hd

/-- Witness for claim C8: the file "a\nx\n---\na\ny", whose two chunks
both decode to the identifier "a". -/
theorem ParseMultidoc_last_wins_witness :
    ∃ m, ParseMultidoc sampleUnmarshal [97, 10, 120, 10, 45, 45, 45, 10, 97, 10, 121] "f"
        = (some m, none) ∧
      m.get (Resource.mk "a" "f" [97, 10, 121]).id = some (Resource.mk "a" "f" [97, 10, 121]) :=
  ParseMultidoc_last_wins sampleUnmarshal [97, 10, 120, 10, 45, 45, 45, 10, 97, 10, 121] "f"
    [[97, 10, 120]] [] [97, 10, 121] (Resource.mk "a" "f" [97, 10, 121])
    (by decide) (by simp [sampleUnmarshal]) (by decide) (by simp)

/-- Claim C9 as stated fails: the file "a\nx\n---\na\ny" has two chunks
that the sample decoder decodes to resources with the same identifier "a",
and `ParseMultidoc` returns a map and no error. -/
theorem ParseMultidoc_duplicate_counterexample :
    (chunksOf [97, 10, 120, 10, 45, 45, 45, 10, 97, 10, 121]).1 = [[97, 10, 120], [97, 10, 121]] ∧
    sampleUnmarshal "f" [97, 10, 120] = Except.ok (some (Resource.mk "a" "f" [97, 10, 120])) ∧
    sampleUnmarshal "f" [97, 10, 121] = Except.ok (some (Resource.mk "a" "f" [97, 10, 121])) ∧
    ParseMultidoc sampleUnmarshal [97, 10, 120, 10, 45, 45, 45, 10, 97, 10, 121] "f"
      = (some [("a", Resource.mk "a" "f" [97, 10, 121])], none) := by
  decide

/-- Claim C9, as amended: identifiers that appear twice within one file do
not make `ParseMultidoc` fail. For every file whose scan reports no error
and whose chunks the decoder all accepts, `ParseMultidoc` returns a map and
no error, also when two chunks decode to resources with the same
identifier. -/
theorem ParseMultidoc_duplicate_no_error (unmarshalObject : Decoder) (multidoc : List Byte)
    (source : String) (pre mid post : List (List Byte)) (c1 c2 : List Byte) (r1 r2 : Resource)
    (hscan : chunksOf multidoc = (pre ++ c1 :: (mid ++ c2 :: post), none))
    (hok : ∀ x ∈ pre ++ c1 :: (mid ++ c2 :: post), ∀ e, unmarshalObject source x ≠ Except.error e)
    (_h1 : unmarshalObject source c1 = Except.ok (some r1))
    (_h2 : unmarshalObject source c2 = Except.ok (some r2))
    (_hid : r1.id = r2.id) :
    (ParseMultidoc unmarshalObject multidoc source).2 = none ∧
      ∃ m, (ParseMultidoc unmarshalObject multidoc source).1 = some m := by
  have hok2 : ∀ x ∈ (chunksOf multidoc).1, ∀ e, unmarshalObject source x ≠ Except.error e := by
    rw [hscan]
    exact hok
  rw [ParseMultidoc_all_ok unmarshalObject multidoc source hok2, hscan]
  exact ⟨rfl, _, rfl⟩

/-- Witness for claim C9, as amended: the file "a\nx\n---\na\ny". -/
theorem ParseMultidoc_duplicate_no_error_witness :
    (ParseMultidoc sampleUnmarshal [97, 10, 120, 10, 45, 45, 45, 10, 97, 10, 121] "f").2 = none ∧
      ∃ m, (ParseMultidoc sampleUnmarshal
        [97, 10, 120, 10, 45, 45, 45, 10, 97, 10, 121] "f").1 = some m :=
  ParseMultidoc_duplicate_no_error sampleUnmarshal
    [97, 10, 120, 10, 45, 45, 45, 10, 97, 10, 121] "f" [] [] [] [97, 10, 120] [97, 10, 121]
    (Resource.mk "a" "f" [97, 10, 120]) (Resource.mk "a" "f" [97, 10, 121])
    (by decide) (by simp [sampleUnmarshal]) (by decide) (by decide) (by decide)

/-- Claim C10: for every file whose chunks the decoder all accepts,
`ParseMultidoc` returns a map and no error but the scanner's, if there is
one; the keys of the map are exactly the identifiers of the chunks that
decode to a resource, each once, so that the map has as many entries as
there are distinct identifiers among those chunks; a chunk for which the
decoder returns nothing adds no entry. -/
theorem ParseMultidoc_keys (unmarshalObject : Decoder) (multidoc : List Byte) (source : String)
    (hok : ∀ x ∈ (chunksOf multidoc).1, ∀ e, unmarshalObject source x ≠ Except.error e) :
    ∃ m, ParseMultidoc unmarshalObject multidoc source =
        (some m, (chunksOf multidoc).2.map (ParseError.scan source)) ∧
      (∀ k, k ∈ m.keys ↔
        ∃ c ∈ (chunksOf multidoc).1, ∃ r, unmarshalObject source c = Except.ok (some r) ∧
          r.id = k) ∧
      m.keys.Nodup ∧
      m.length = ((resourcesOf unmarshalObject source (chunksOf multidoc).1).map
        Resource.id).dedup.length := by
  have hmem : ∀ k, k ∈ (ResourceMap.setAll []
        (resourcesOf unmarshalObject source (chunksOf multidoc).1)).keys ↔
      k ∈ (resourcesOf unmarshalObject source (chunksOf multidoc).1).map Resource.id := by
    intro k
    rw [ResourceMap.mem_keys_setAll]
    simp [ResourceMap.keys]
  have hnodup := ResourceMap.nodup_keys_setAll
    (resourcesOf unmarshalObject source (chunksOf multidoc).1) [] (by simp [ResourceMap.keys])
  refine ⟨_, ParseMultidoc_all_ok unmarshalObject multidoc source hok, ?_, hnodup, ?_⟩
  · intro k
    rw [hmem, List.mem_map]
    constructor
    · rintro ⟨r, hr, hk⟩
      obtain ⟨c, hc, hd⟩ := (mem_resourcesOf unmarshalObject source _ r).1 hr
      exact ⟨c, hc, r, hd, hk⟩
    · rintro ⟨c, hc, r, hd, hk⟩
      exact ⟨r, (mem_resourcesOf unmarshalObject source _ r).2 ⟨c, hc, hd⟩, hk⟩
  · have hperm : (ResourceMap.setAll []
          (resourcesOf unmarshalObject source (chunksOf multidoc).1)).keys.Perm
        ((resourcesOf unmarshalObject source (chunksOf multidoc).1).map Resource.id).dedup :=
      (List.perm_ext_iff_of_nodup hnodup (List.nodup_dedup _)).2
        (fun k => by rw [hmem, List.mem_dedup])
    have := hperm.length_eq
    simpa [ResourceMap.keys] using this

/-- Witness for claim C10: the file "  \n---\na", an empty chunk and a
document, yields one resource; the file "a\n---\nb", two documents with
distinct identifiers, yields two. -/
theorem ParseMultidoc_keys_witness :
    (∃ m, ParseMultidoc sampleUnmarshal [32, 32, 10, 45, 45, 45, 10, 97] "f" = (some m, none) ∧
      m.length = 1) ∧
    (∃ m, ParseMultidoc sampleUnmarshal [97, 10, 45, 45, 45, 10, 98] "f" = (some m, none) ∧
      m.length = 2) :=
  ⟨(ParseMultidoc_keys sampleUnmarshal [32, 32, 10, 45, 45, 45, 10, 97] "f"
      (by simp [show (chunksOf [32, 32, 10, 45, 45, 45, 10, 97]).1 = [[32, 32], [97]] by decide,
        sampleUnmarshal])).imp
      (fun _ hm => ⟨hm.1.trans (by
          rw [show (chunksOf [32, 32, 10, 45, 45, 45, 10, 97]).2 = none by decide]; rfl),
        hm.2.2.2.trans (by decide)⟩),
    (ParseMultidoc_keys sampleUnmarshal [97, 10, 45, 45, 45, 10, 98] "f"
      (by simp [show (chunksOf [97, 10, 45, 45, 45, 10, 98]).1 = [[97], [98]] by decide,
        sampleUnmarshal])).imp
      (fun _ hm => ⟨hm.1.trans (by
          rw [show (chunksOf [97, 10, 45, 45, 45, 10, 98]).2 = none by decide]; rfl),
        hm.2.2.2.trans (by decide)⟩)⟩

/-- The sample decoder labels a resource with the source it is given. -/
theorem sampleUnmarshal_source (source : String) (c : List Byte) (r : Resource)
    (h : sampleUnmarshal source c = Except.ok (some r)) : r.source = source := by
  unfold sampleUnmarshal at h
  split at h
  · simp at h
  · split at h
    · simp at h
    · simp only [Except.ok.injEq, Option.some.injEq] at h
      rw [← h]

/-- Claim C3: for every load whose entries meet no walk, read, path or parse
error, with a decoder that labels each resource with the source it is
given, and whatever the order in which `range` goes through a map, `Load`
fails if and only if some identifier of a processed file is
also an identifier of a file processed before it; and every error it
returns is a duplicate error that names such an identifier, the source
label of the earlier file and the source label of the later file. -/
theorem Load_duplicate (env : Env) (base root : String) (more : List String)
    (hrange : ∀ m : ResourceMap, m.keys.Nodup → (env.range m).Perm m)
    (hsource : ∀ source c r, env.unmarshalObject source c = Except.ok (some r) →
      r.source = source)
    (hok : ∀ e ∈ allVisits env (root :: more), entryOk env base e = true) :
    ((Load env base root more).2 ≠ none ↔
      ∃ pre g mid f post k, processedFiles env base (root :: more) = pre ++ g :: (mid ++ f :: post) ∧
        k ∈ g.2.keys ∧ k ∈ f.2.keys) ∧
    (∀ e, (Load env base root more).2 = some e →
      ∃ pre g mid f post k, processedFiles env base (root :: more) = pre ++ g :: (mid ++ f :: post) ∧
        k ∈ g.2.keys ∧ k ∈ f.2.keys ∧ e = LoadError.duplicate k g.1 f.1) := by
  have hload := Load_eq_mergeFiles env base root more hok
  have hnd := processedFiles_nodup env base (root :: more)
  have hlabel : ∀ f ∈ processedFiles env base (root :: more), ∀ k r,
      f.2.get k = some r → r.source = f.1 := by
    intro f hf k r hget
    obtain ⟨e, _, he⟩ := List.mem_filterMap.1 hf
    obtain ⟨c, hc⟩ := ((entryDocs_spec env base e f.1 f.2 he).2 k r hget).2
    exact hsource f.1 c r hc
  have herr : ∀ e, (Load env base root more).2 = some e →
      ∃ pre g mid f post k,
        processedFiles env base (root :: more) = pre ++ g :: (mid ++ f :: post) ∧
        k ∈ g.2.keys ∧ k ∈ f.2.keys ∧ e = LoadError.duplicate k g.1 f.1 := by
    intro e he
    rcases mergeFiles_spec env.range hrange (processedFiles env base (root :: more)) [] hnd with
      ⟨o, ho, _⟩ | ⟨o, pre1, f, post, k, r0, ho, hsplit, hk, hwhere⟩
    · rw [hload, ho] at he
      simp at he
    · rw [hload, ho] at he
      simp only [Option.some.injEq] at he
      rcases hwhere with h | ⟨g, hg, hget⟩
      · simp [ResourceMap.get] at h
      · obtain ⟨pre, mid, hpre⟩ := List.append_of_mem hg
        have hgmem : g ∈ processedFiles env base (root :: more) := by
          rw [hsplit, hpre]
          simp
        refine ⟨pre, g, mid, f, post, k, ?_, ?_, hk, ?_⟩
        · rw [hsplit, hpre]
          simp
        · exact (ResourceMap.mem_keys_iff k g.2).2 ⟨r0, hget⟩
        · rw [← he, hlabel g hgmem k r0 hget]
  refine ⟨⟨fun hfail => ?_, fun hex => ?_⟩, herr⟩
  · cases hres : (Load env base root more).2 with
    | none => exact absurd hres hfail
    | some e =>
      obtain ⟨pre, g, mid, f, post, k, h1, h2, h3, _⟩ := herr e hres
      exact ⟨pre, g, mid, f, post, k, h1, h2, h3⟩
  · obtain ⟨pre, g, mid, f, post, k, hsplit, hkg, hkf⟩ := hex
    rcases mergeFiles_spec env.range hrange (processedFiles env base (root :: more)) [] hnd with
      ⟨o, ho, _, hpair, _⟩ | ⟨o, pre1, f1, post1, k1, r0, ho, _⟩
    · exfalso
      rw [hsplit] at hpair
      have h1 := (List.pairwise_append.1 hpair).2.1
      have h2 := (List.pairwise_cons.1 h1).1 f (by simp)
      exact h2 k hkg hkf
    · rw [hload, ho]
      simp

/-- Witness for claim C3: loading the files "a.yaml" and "b.yaml", which
both define "foo", fails with an error naming "foo" and the two files. -/
theorem Load_duplicate_witness :
    ∃ pre g mid f post k,
      processedFiles (sampleEnv sampleFS) "" ["a.yaml", "b.yaml"] = pre ++ g :: (mid ++ f :: post) ∧
      k ∈ g.2.keys ∧ k ∈ f.2.keys ∧
      LoadError.duplicate "foo" "a.yaml" "b.yaml" = LoadError.duplicate k g.1 f.1 :=
  (Load_duplicate (sampleEnv sampleFS) "" "a.yaml" ["b.yaml"]
    (fun _ _ => List.Perm.refl _) sampleUnmarshal_source (by decide)).2
    (LoadError.duplicate "foo" "a.yaml" "b.yaml") (by decide)

/-- Claim C4: when `Load` succeeds, whatever the order in which `range` goes
through a map, the map it returns holds exactly the entries of the maps
`ParseMultidoc` returned for the files processed, and no two of these files
share an identifier. -/
theorem Load_success (env : Env) (base root : String) (more : List String)
    (hrange : ∀ m : ResourceMap, m.keys.Nodup → (env.range m).Perm m)
    (objs : ResourceMap) (hload : Load env base root more = (objs, none)) :
    (∀ k r, objs.get k = some r ↔
      ∃ f ∈ processedFiles env base (root :: more), f.2.get k = some r) ∧
    (processedFiles env base (root :: more)).Pairwise DisjointFiles := by
  have hok : ∀ e ∈ allVisits env (root :: more), entryOk env base e = true := by
    apply entryOk_of_runVisits_none env base _ []
    have h := congrArg Prod.snd hload
    rw [Load, loadRoots_eq_runVisits] at h
    exact h
  have hmerge := Load_eq_mergeFiles env base root more hok
  have hnd := processedFiles_nodup env base (root :: more)
  rcases mergeFiles_spec env.range hrange (processedFiles env base (root :: more)) [] hnd with
    ⟨o, ho, hchar, hpair, _⟩ | ⟨o, pre1, f1, post1, k1, r0, ho, _⟩
  · rw [hmerge, ho] at hload
    have ho2 : o = objs := congrArg Prod.fst hload
    subst ho2
    refine ⟨fun k r => ?_, hpair⟩
    rw [hchar k r]
    simp [ResourceMap.get]
  · rw [hmerge, ho] at hload
    simp at hload

/-- Witness for claim C4: loading the files "a.yaml" and "c.yaml". -/
theorem Load_success_witness :
    (∀ k r, ResourceMap.get [("foo", Resource.mk "foo" "a.yaml" [102, 111, 111]),
        ("bar", Resource.mk "bar" "c.yaml" [98, 97, 114]),
        ("baz", Resource.mk "baz" "c.yaml" [98, 97, 122])] k = some r ↔
      ∃ f ∈ processedFiles (sampleEnv sampleFS) "" ["a.yaml", "c.yaml"], f.2.get k = some r) ∧
    (processedFiles (sampleEnv sampleFS) "" ["a.yaml", "c.yaml"]).Pairwise DisjointFiles :=
  Load_success (sampleEnv sampleFS) "" "a.yaml" ["c.yaml"] (fun _ _ => List.Perm.refl _)
    [("foo", Resource.mk "foo" "a.yaml" [102, 111, 111]),
     ("bar", Resource.mk "bar" "c.yaml" [98, 97, 114]),
     ("baz", Resource.mk "baz" "c.yaml" [98, 97, 122])] (by decide)

/-- Claim C5, where the code departs from it: the directory "r/sub.yml"
holds neither "Chart.yaml" nor "values.yaml", so it does not look like a
chart, yet `Load` does not descend into it: it tries to read the directory
as a file and fails, and the manifest below it is not loaded. The same tree
with the directory named "sub" is descended into. -/
theorem Load_yml_directory_not_descended :
    looksLikeChart (Node.dir [("a.yaml", Node.file (some [102, 111, 111]))]) = false ∧
    Load (sampleEnv sampleFS) "" "r" [] = ([], some (LoadError.reading "r/sub.yml")) ∧
    Load (sampleEnv sampleFS) "" "s" [] =
      ([("foo", Resource.mk "foo" "s/sub/a.yaml" [102, 111, 111])], none) := by
  decide

/-- Claim C6, where the code departs from it: the test that selects what is
read holds for a directory whose name ends in ".yml", though not for one
whose name ends in ".yaml"; `Load` of the empty directory "conf.yml" tries
to read it as a file and fails. -/
theorem selected_yml_directory :
    selected (Node.dir []) "conf.yml" = true ∧
    selected (Node.dir []) "conf.yaml" = false ∧
    Load (sampleEnv sampleFS) "" "conf.yml" [] = ([], some (LoadError.reading "conf.yml")) := by
  decide

/-- The splitter on a buffer that ends with its first separator: it asks
for more data before the end of the input, and at the end of the input it
returns what precedes the separator and consumes the buffer. -/
theorem splitYAMLDocument_at_end (pre : List Byte)
    (hfirst : ∀ q, q < pre.length → ¬ yamlSeparator <+: (pre ++ yamlSeparator).drop q) :
    splitYAMLDocument (pre ++ yamlSeparator) false = ⟨0, none, none⟩ ∧
      splitYAMLDocument (pre ++ yamlSeparator) true =
        ⟨(pre ++ yamlSeparator).length, some pre, none⟩ := by
  have hidx := bytesIndex_first yamlSeparator pre yamlSeparator (List.prefix_refl _) hfirst
  have hsl : yamlSeparator.length = 4 := rfl
  have hdrop : ((pre ++ yamlSeparator).drop (pre.length + yamlSeparator.length)).length = 0 := by
    simp
  unfold splitYAMLDocument
  simp only [hidx, hdrop]
  constructor
  · simp
  · simp [hsl]

/-- Claim C11, as amended: for every non-empty byte stream of fewer than
1048576 bytes that contains no separator, the scanner of `ParseMultidoc`
yields exactly one chunk, the whole input, and reports no error. -/
theorem chunksOf_no_separator (d : List Byte) (hne : d ≠ [])
    (hd : ¬ yamlSeparator <:+: d) (hlen : d.length < 1024 * 1024) :
    chunksOf d = ([d], none) := by
  have hpos := List.length_pos.2 hne
  obtain ⟨s1, h1, herr1⟩ :=
    Scanner.tokens_joinDocs [d] (d.length + 2) (multidocScanner d)
      (by simp) (multidocScanner_WF _) rfl
      (by simp [multidocScanner, NewScanner, Scanner.Buffer, joinDocs])
      (by simpa using ⟨hne, hd⟩) (by simp)
      (by simpa [multidocScanner, NewScanner, Scanner.Buffer] using hlen)
      (by simp)
  simp only [chunksOf, h1, herr1]

/-- Witness for claim C11, as amended: the stream "ab". -/
theorem chunksOf_no_separator_witness : chunksOf [97, 98] = ([[97, 98]], none) :=
  chunksOf_no_separator [97, 98] (by decide) (by decide) (by decide)

/-- Claim C11 as stated fails: the empty stream contains no separator and
the scanner of `ParseMultidoc` yields no chunk for it, not one; and a
stream of 1048576 bytes without separator yields no chunk either, the scan
stopping with `ErrTooLong`. -/
theorem chunksOf_no_separator_counterexample :
    (¬ yamlSeparator <:+: ([] : List Byte)) ∧
    chunksOf [] = ([], none) ∧ chunksOf [] ≠ ([[]], none) ∧
    (¬ yamlSeparator <:+: List.replicate 1048576 (97 : Byte)) ∧
    chunksOf (List.replicate 1048576 (97 : Byte)) = ([], some ScanError.tooLong) :=
  ⟨by decide, by decide, by decide, not_separator_infix_replicate 1048576 97 (by decide),
    chunksOf_tooLong (List.replicate 1048576 97)
      (not_separator_infix_replicate 1048576 97 (by decide)) (by rw [List.length_replicate])⟩

/-- Claim C12: for every buffer whose first occurrence of the separator, at
`p`, is its last four bytes, `splitYAMLDocument` asks for more data when
the buffer is not final; when it is final it returns as token what
precedes the separator and consumes the whole buffer, so that a scanner at
the end of its input that holds this buffer returns this token and then no
other. -/
theorem splitYAMLDocument_separator_at_end (data : List Byte) (p : Nat)
    (hocc : data.drop p = yamlSeparator)
    (hfirst : ∀ q, q < p → ¬ yamlSeparator <+: data.drop q) :
    splitYAMLDocument data false = ⟨0, none, none⟩ ∧
    splitYAMLDocument data true = ⟨data.length, some (data.take p), none⟩ ∧
    (∀ s : Scanner, s.held = data → s.r = [] → s.err = some ScanError.eof →
      ∃ s1 s2, Scanner.Scan splitYAMLDocument s = (some (data.take p), s1) ∧
        Scanner.Scan splitYAMLDocument s1 = (none, s2) ∧ s2.Err = none) := by
  have hsl : yamlSeparator.length = 4 := rfl
  have hlen : p + 4 = data.length := by
    have := congrArg List.length hocc
    simp only [List.length_drop, hsl] at this
    omega
  have hdata : data = data.take p ++ yamlSeparator := by
    rw [← hocc, List.take_append_drop]
  have hpl : (data.take p).length = p := by
    rw [List.length_take]
    omega
  obtain ⟨h1, h2⟩ := splitYAMLDocument_at_end (data.take p) (by
    intro q hq
    rw [← hdata]
    exact hfirst q (by omega))
  rw [← hdata] at h1 h2
  refine ⟨h1, h2, ?_⟩
  intro s hheld hr herr
  have hstep := Scanner.step_token splitYAMLDocument s data.length (data.take p)
    (by simpa [hheld, herr] using h2) (by simp [hheld]) (by omega)
  have hscan : Scanner.Scan splitYAMLDocument s = (some (data.take p),
      { s with start := s.start + data.length, held := s.held.drop data.length, empties := 0 }) := by
    simp only [Scanner.Scan, Scanner.scanLoop, hstep]
  obtain ⟨s2, hs2, herr2⟩ := Scanner.scanLoop_end 1
    { s with start := s.start + data.length, held := s.held.drop data.length, empties := 0 }
    (by simp [hheld]) hr herr
  refine ⟨_, s2, hscan, ?_, herr2⟩
  simpa [Scanner.Scan, hr] using hs2

/-- Witness for claim C12: the buffer "a\n---". -/
theorem splitYAMLDocument_separator_at_end_witness :
    splitYAMLDocument [97, 10, 45, 45, 45] false = ⟨0, none, none⟩ ∧
    splitYAMLDocument [97, 10, 45, 45, 45] true = ⟨5, some [97], none⟩ :=
  ⟨(splitYAMLDocument_separator_at_end [97, 10, 45, 45, 45] 1 (by decide) (by decide)).1,
   (splitYAMLDocument_separator_at_end [97, 10, 45, 45, 45] 1 (by decide) (by decide)).2.1⟩

/-- Claim C17, where the code departs from it: the non-empty buffer
"a\n---b", marked final, makes `splitYAMLDocument` ask for more data
(advance 0, no token), where the buffers "a\n---" and "ab" marked final
yield a token; the scanner of `ParseMultidoc` run over the file
"a\n---b" therefore yields no chunk and reports no error. -/
theorem splitYAMLDocument_final_requests_more :
    splitYAMLDocument [97, 10, 45, 45, 45, 98] true = ⟨0, none, none⟩ ∧
    splitYAMLDocument [97, 10, 45, 45, 45] true = ⟨5, some [97], none⟩ ∧
    splitYAMLDocument [97, 98] true = ⟨2, some [97, 98], none⟩ ∧
    chunksOf [97, 10, 45, 45, 45, 98] = ([], none) := by
  decide

/-- What a token returned before the end of the input says about the
buffer: a first separator, and a line end after it. -/
theorem splitYAMLDocument_token_false (d : List Byte) (adv : Nat) (tok : List Byte)
    (h : splitYAMLDocument d false = ⟨adv, some tok, none⟩) :
    ∃ pre line rest, d = pre ++ (yamlSeparator ++ (line ++ newline :: rest)) ∧
      (∀ q, q < pre.length → ¬ yamlSeparator <+: d.drop q) ∧ newline ∉ line := by
  unfold splitYAMLDocument at h
  simp only [Bool.false_and, Bool.false_eq_true, if_false] at h
  cases hidx : bytesIndex yamlSeparator d with
  | none => simp [hidx] at h
  | some i0 =>
    simp only [hidx] at h
    obtain ⟨hocc, hle, hfirst⟩ := bytesIndex_some yamlSeparator d i0 hidx
    by_cases hafter : ((d.drop (i0 + yamlSeparator.length)).length == 0) = true
    · simp only [hafter, if_true] at h
      simp at h
    · simp only [hafter, Bool.false_eq_true, if_false] at h
      cases hj : bytesIndexByte (d.drop (i0 + yamlSeparator.length)) newline with
      | none => simp [hj] at h
      | some j =>
        obtain ⟨hjlt, hjfirst, hjdrop⟩ := bytesIndexByte_some newline _ j hj
        refine ⟨d.take i0, (d.drop (i0 + yamlSeparator.length)).take j,
          (d.drop (i0 + yamlSeparator.length)).drop (j + 1), ?_, ?_, hjfirst⟩
        · have h1 : d.drop i0 = yamlSeparator ++ d.drop (i0 + yamlSeparator.length) := by
            have := List.prefix_iff_eq_append.1 hocc
            rw [List.drop_drop] at this
            rw [← this, Nat.add_comm]
          have h2 : d.drop (i0 + yamlSeparator.length) =
              (d.drop (i0 + yamlSeparator.length)).take j ++
                newline :: (d.drop (i0 + yamlSeparator.length)).drop (j + 1) := by
            conv_lhs => rw [← List.take_append_drop j (d.drop (i0 + yamlSeparator.length))]
            rw [hjdrop, List.drop_drop]
          rw [← h2, ← h1, List.take_append_drop]
        · intro q hq
          have : (d.take i0).length = i0 := by
            rw [List.length_take]
            omega
          exact hfirst q (by omega)

/-- A position before the first separator of a buffer does not start a
separator in an extension of the buffer either. -/
theorem separator_not_before_append (pre tail more : List Byte)
    (hfirst : ∀ q, q < pre.length → ¬ yamlSeparator <+: (pre ++ (yamlSeparator ++ tail)).drop q) :
    ∀ q, q < pre.length →
      ¬ yamlSeparator <+: (pre ++ (yamlSeparator ++ (tail ++ more))).drop q := by
  intro q hq hpre
  apply hfirst q hq
  have hsl : yamlSeparator.length = 4 := rfl
  rw [List.drop_append_of_le_length (by omega)] at hpre ⊢
  -- the separator read at `q` ends inside `pre ++ yamlSeparator`
  have h1 : yamlSeparator <+: (pre.drop q ++ yamlSeparator) ++ (tail ++ more) := by
    simpa using hpre
  have h2 : yamlSeparator.length ≤ (pre.drop q ++ yamlSeparator).length := by
    simp
  have h3 : yamlSeparator <+: pre.drop q ++ yamlSeparator :=
    List.prefix_of_prefix_length_le h1 (List.prefix_append _ _) h2
  exact h3.trans (by simp)

/-- A token returned for a buffer not marked final is returned, with the
same advance, for every extension of the buffer. -/
theorem splitYAMLDocument_append (d more : List Byte) (flag : Bool) (adv : Nat)
    (tok : List Byte) (h : splitYAMLDocument d false = ⟨adv, some tok, none⟩) :
    splitYAMLDocument (d ++ more) flag = ⟨adv, some tok, none⟩ := by
  obtain ⟨pre, line, rest, hd, hfirst, hline⟩ := splitYAMLDocument_token_false d adv tok h
  have h1 := splitYAMLDocument_at_separator pre line rest false (by rw [← hd]; exact hfirst) hline
  rw [← hd, h] at h1
  have hfirst2 := separator_not_before_append pre (line ++ newline :: rest) more
    (by rw [← hd]; exact hfirst)
  have h2 := splitYAMLDocument_at_separator pre line (rest ++ more) flag
    (by simpa using hfirst2) hline
  have hdm : d ++ more = pre ++ (yamlSeparator ++ (line ++ newline :: (rest ++ more))) := by
    rw [hd]
    simp
  rw [hdm, h2, h1]

/-- Claim C18: if `splitYAMLDocument` returns a token for the buffer `d`
not marked final, then for every extension `d ++ more`, marked final or
not, it returns the same advance and the same token: the same result. -/
theorem splitYAMLDocument_extension (d more : List Byte) (flag : Bool)
    (h : (splitYAMLDocument d false).token ≠ none) :
    splitYAMLDocument (d ++ more) flag = splitYAMLDocument d false := by
  cases hres : splitYAMLDocument d false with
  | mk adv token err =>
    have herr := splitYAMLDocument_err d false
    rw [hres] at h herr
    cases token with
    | none => exact absurd rfl h
    | some tok =>
      simp only at herr
      subst herr
      exact splitYAMLDocument_append d more flag adv tok hres

/-- Witness for claim C18: the buffer "a\n---\n" extended by "b". -/
theorem splitYAMLDocument_extension_witness :
    splitYAMLDocument ([97, 10, 45, 45, 45, 10] ++ [98]) true =
      splitYAMLDocument [97, 10, 45, 45, 45, 10] false :=
  splitYAMLDocument_extension [97, 10, 45, 45, 45, 10] [98] true (by decide)

/-- The four results `splitYAMLDocument` can return. -/
theorem splitYAMLDocument_cases (data : List Byte) (atEOF : Bool) :
    splitYAMLDocument data atEOF = ⟨0, none, none⟩ ∨
    (0 < data.length ∧ splitYAMLDocument data atEOF = ⟨data.length, some data, none⟩) ∨
    (0 < data.length ∧ yamlSeparator.length ≤ data.length ∧
      splitYAMLDocument data atEOF =
        ⟨data.length, some (data.take (data.length - yamlSeparator.length)), none⟩) ∨
    (∃ i0 j, i0 + yamlSeparator.length + j < data.length ∧
      splitYAMLDocument data atEOF =
        ⟨i0 + yamlSeparator.length + j + 1, some (data.take i0), none⟩) := by
  unfold splitYAMLDocument
  by_cases h0 : (atEOF && data.length == 0) = true
  · left
    simp only [h0, if_true]
  · simp only [h0, Bool.false_eq_true, if_false]
    have hpos : atEOF = true → 0 < data.length := by
      intro ht
      simp only [ht, Bool.true_and, beq_iff_eq] at h0
      exact Nat.pos_of_ne_zero h0
    cases hidx : bytesIndex yamlSeparator data with
    | none =>
      cases atEOF with
      | false => left; simp
      | true => right; left; exact ⟨hpos rfl, by simp⟩
    | some i0 =>
      have hle := (bytesIndex_some _ _ _ hidx).2.1
      by_cases hafter : ((data.drop (i0 + yamlSeparator.length)).length == 0) = true
      · simp only [hafter, if_true]
        cases atEOF with
        | false => left; simp
        | true => right; right; left; exact ⟨hpos rfl, by omega, by simp⟩
      · simp only [hafter, Bool.false_eq_true, if_false]
        cases hj : bytesIndexByte (data.drop (i0 + yamlSeparator.length)) newline with
        | none => left; rfl
        | some j =>
          right; right; right
          have hjlt := (bytesIndexByte_some newline _ j hj).1
          simp only [List.length_drop] at hjlt
          exact ⟨i0, j, by omega, by simp⟩

/-- The scanner's error that the decoding of the chunks reports is the one
it was given. -/
theorem decodeChunks_scan_error (unmarshalObject : Decoder) (source : String)
    (serr : Option ScanError) (e : ScanError) :
    ∀ (cs : List (List Byte)) (objs : ResourceMap) (decoded : List (List Byte)),
      (decodeChunks unmarshalObject source cs serr objs decoded).err =
        some (ParseError.scan source e) → serr = some e
  | [], objs, decoded, h => by
    cases serr with
    | none => simp [decodeChunks] at h
    | some e1 =>
      simp [decodeChunks] at h
      rw [h]
  | c :: cs, objs, decoded, h => by
    simp only [decodeChunks] at h
    cases hd : unmarshalObject source c with
    | error e1 => simp [hd] at h
    | ok o =>
      rw [hd] at h
      cases o with
      | none => exact decodeChunks_scan_error unmarshalObject source serr e cs _ _ h
      | some obj => exact decodeChunks_scan_error unmarshalObject source serr e cs _ _ h

/-- Claim C20: for every buffer and either value of `atEOF`,
`splitYAMLDocument` returns no error, an advance of at most the buffer
length, a token that is a prefix of the buffer when it returns one, and an
advance that is positive exactly when it returns a token; the position
after the separator it finds is within the buffer, so that its slices are
in bounds; a token `Scan` returns with it leaves fewer bytes pending, and
the loop of `ParseMultidoc` ends within the calls of `Scan` it is given,
for every file and decoder. -/
theorem splitYAMLDocument_well_formed (data : List Byte) (atEOF : Bool) :
    (splitYAMLDocument data atEOF).err = none ∧
    (splitYAMLDocument data atEOF).advance ≤ data.length ∧
    (∀ tok, (splitYAMLDocument data atEOF).token = some tok → tok <+: data) ∧
    (0 < (splitYAMLDocument data atEOF).advance ↔ (splitYAMLDocument data atEOF).token ≠ none) ∧
    (∀ i0, bytesIndex yamlSeparator data = some i0 → i0 + yamlSeparator.length ≤ data.length) ∧
    (∀ s : Scanner, s.err ≠ some ScanError.outOfFuel →
      (Scanner.Scan splitYAMLDocument s).2.err ≠ some ScanError.outOfFuel ∧
      ((Scanner.Scan splitYAMLDocument s).1 ≠ none →
        (Scanner.Scan splitYAMLDocument s).2.pending < s.pending)) ∧
    (∀ (unmarshalObject : Decoder) (multidoc : List Byte) (source : String),
      (ParseMultidoc unmarshalObject multidoc source).2 ≠
        some (ParseError.scan source ScanError.outOfFuel)) := by
  refine ⟨splitYAMLDocument_err data atEOF, ?_, ?_, ?_,
    fun i0 h => (bytesIndex_some _ _ _ h).2.1, Scanner.Scan_progress, ?_⟩
  · rcases splitYAMLDocument_cases data atEOF with h | ⟨_, h⟩ | ⟨_, _, h⟩ | ⟨i0, j, hlt, h⟩ <;>
      rw [h] <;> simp only [] <;> omega
  · intro tok htok
    rcases splitYAMLDocument_cases data atEOF with h | ⟨_, h⟩ | ⟨_, _, h⟩ | ⟨i0, j, hlt, h⟩ <;>
      rw [h] at htok <;> simp only [Option.some.injEq] at htok
    · simp at htok
    · rw [← htok]
    · rw [← htok]
      exact List.take_prefix _ _
    · rw [← htok]
      exact List.take_prefix _ _
  · rcases splitYAMLDocument_cases data atEOF with h | ⟨hp, h⟩ | ⟨hp, _, h⟩ | ⟨i0, j, hlt, h⟩ <;>
      rw [h] <;> simp
    · exact hp
    · exact hp
  · intro unmarshalObject multidoc source h
    have h1 : (ParseMultidocRun unmarshalObject multidoc source).err =
        some (ParseError.scan source ScanError.outOfFuel) := h
    rw [ParseMultidocRun_eq] at h1
    exact chunksOf_ne_outOfFuel multidoc
      (decodeChunks_scan_error unmarshalObject source _ _ _ _ _ h1)

/-- Witness for claim C20: the buffer "a\n---\n", not final. -/
theorem splitYAMLDocument_well_formed_witness :
    (splitYAMLDocument [97, 10, 45, 45, 45, 10] false).advance ≤
        ([97, 10, 45, 45, 45, 10] : List Byte).length ∧
      [97] <+: ([97, 10, 45, 45, 45, 10] : List Byte) :=
  ⟨(splitYAMLDocument_well_formed [97, 10, 45, 45, 45, 10] false).2.1,
    (splitYAMLDocument_well_formed [97, 10, 45, 45, 45, 10] false).2.2.1 [97] (by decide)⟩

/-- The classification of an entry depends on the environment only through
the decoder and `filepath.Rel`. -/
theorem classify_congr (env1 env2 : Env) (hdec : env1.unmarshalObject = env2.unmarshalObject)
    (hrel : env1.rel = env2.rel) (base path : String) (info : Node) :
    classify env1 base path info = classify env2 base path info := by
  unfold classify
  rw [hdec, hrel]

/-- The classification of an entry never fails with a duplicate error. -/
theorem classify_ne_duplicate (env : Env) (base path : String) (info : Node)
    (k a b : String) : classify env base path info ≠ Visit.fails (LoadError.duplicate k a b) := by
  unfold classify
  split
  · simp
  · split
    · simp
    · split
      · split
        · simp
        · split
          · simp
          · split <;> simp
      · simp

/-- Two per-file maps share no identifier whichever is taken first. -/
theorem DisjointFiles.symm {f g : String × ResourceMap} (h : DisjointFiles f g) :
    DisjointFiles g f :=
  fun k hk hf => h k hf hk

/-- When a run of visits ends with an error, the error arises at one entry,
after a run without error over the entries before it; that entry either
fails by itself or has been read and parsed. -/
theorem runVisits_error_split (env : Env) (base : String) (err : LoadError) :
    ∀ (l : List (String × Node)) (objs : ResourceMap),
      (runVisits env base l objs).2 = some err →
      ∃ pre e post, l = pre ++ e :: post ∧ (runVisits env base pre objs).2 = none ∧
        runVisits env base (pre ++ [e]) objs = runVisits env base l objs ∧
        (classify env base e.1 e.2 = Visit.fails err ∨
          ∃ source docs, classify env base e.1 e.2 = Visit.parsed source docs)
  | [], objs, h => by simp [runVisits] at h
  | (path, info) :: rest, objs, h => by
    have hcl := visit_eq_classify env base path info objs
    cases hv : visit env base path info objs with
    | mk o r =>
      have hrec : (runVisits env base rest o).2 = some err →
          runVisits env base ((path, info) :: rest) objs = runVisits env base rest o →
          (∀ l2, runVisits env base ((path, info) :: l2) objs = runVisits env base l2 o) →
          ∃ pre e post, (path, info) :: rest = pre ++ e :: post ∧
            (runVisits env base pre objs).2 = none ∧
            runVisits env base (pre ++ [e]) objs =
              runVisits env base ((path, info) :: rest) objs ∧
            (classify env base e.1 e.2 = Visit.fails err ∨
              ∃ source docs, classify env base e.1 e.2 = Visit.parsed source docs) := by
        intro h1 h2 h3
        obtain ⟨pre, e, post, hsplit, hpre, hrun, hclass⟩ :=
          runVisits_error_split env base err rest o h1
        refine ⟨(path, info) :: pre, e, post, by simp [hsplit], ?_, ?_, hclass⟩
        · rw [h3 pre]
          exact hpre
        · rw [List.cons_append, h3 (pre ++ [e]), hrun, h2]
      cases r with
      | none =>
        have h3 : ∀ l2, runVisits env base ((path, info) :: l2) objs = runVisits env base l2 o :=
          fun l2 => by simp only [runVisits, hv]
        exact hrec (by rw [← h3 rest]; exact h) (h3 rest) h3
      | some e =>
        cases e with
        | skipDir =>
          have h3 : ∀ l2, runVisits env base ((path, info) :: l2) objs =
              runVisits env base l2 o := fun l2 => by simp only [runVisits, hv]
          exact hrec (by rw [← h3 rest]; exact h) (h3 rest) h3
        | failed e1 =>
          have hrun : runVisits env base ((path, info) :: rest) objs = (o, some e1) := by
            simp only [runVisits, hv]
          have he : e1 = err := by
            rw [hrun] at h
            simpa using h
          subst he
          refine ⟨[], (path, info), rest, rfl, rfl, ?_, ?_⟩
          · simp only [List.nil_append, runVisits, hv]
          · rw [hv] at hcl
            cases hc : classify env base path info with
            | fails e2 =>
              rw [hc] at hcl
              simp only [Prod.mk.injEq, Option.some.injEq, WalkError.failed.injEq] at hcl
              exact Or.inl (by rw [hcl.2])
            | skips =>
              rw [hc] at hcl
              simp at hcl
            | passes =>
              rw [hc] at hcl
              simp at hcl
            | parsed source docs => exact Or.inr ⟨source, docs, rfl⟩

/-- A duplicate error of `Load` names an identifier shared by two files
of the sequence it processes, the label of the earlier one and the label
of the later one. -/
theorem Load_duplicate_split (env : Env) (base root : String) (more : List String)
    (hrange : ∀ m : ResourceMap, m.keys.Nodup → (env.range m).Perm m)
    (hsource : ∀ source c r, env.unmarshalObject source c = Except.ok (some r) →
      r.source = source)
    (k a b : String) (h : (Load env base root more).2 = some (LoadError.duplicate k a b)) :
    ∃ pre g mid f post,
      processedFiles env base (root :: more) = pre ++ g :: (mid ++ f :: post) ∧
      k ∈ g.2.keys ∧ k ∈ f.2.keys ∧ a = g.1 ∧ b = f.1 := by
  rw [Load, loadRoots_eq_runVisits] at h
  obtain ⟨vpre, e, vpost, hsplit, hpre, hrun, hclass⟩ :=
    runVisits_error_split env base _ _ _ h
  have hok : ∀ x ∈ vpre ++ [e], entryOk env base x = true := by
    intro x hx
    rcases List.mem_append.1 hx with hx | hx
    · exact entryOk_of_runVisits_none env base vpre [] hpre x hx
    · rw [List.mem_singleton] at hx
      subst hx
      rcases hclass with hc | ⟨source, docs, hc⟩
      · exact absurd hc (classify_ne_duplicate env base _ _ k a b)
      · simp [entryOk, hc]
  have hmerge := runVisits_eq_mergeFiles env base (vpre ++ [e]) [] hok
  have hnd : ∀ f ∈ (vpre ++ [e]).filterMap (entryDocs env base), f.2.keys.Nodup := by
    intro f hf
    obtain ⟨x, _, hx⟩ := List.mem_filterMap.1 hf
    exact (entryDocs_spec env base x f.1 f.2 hx).1
  have hlabel : ∀ f ∈ (vpre ++ [e]).filterMap (entryDocs env base), ∀ k r,
      f.2.get k = some r → r.source = f.1 := by
    intro f hf k r hget
    obtain ⟨x, _, hx⟩ := List.mem_filterMap.1 hf
    obtain ⟨c, hc⟩ := ((entryDocs_spec env base x f.1 f.2 hx).2 k r hget).2
    exact hsource f.1 c r hc
  have hfiles : processedFiles env base (root :: more) =
      (vpre ++ [e]).filterMap (entryDocs env base) ++ vpost.filterMap (entryDocs env base) := by
    rw [processedFiles, hsplit, ← List.filterMap_append]
    simp
  rw [← hrun, hmerge] at h
  rcases mergeFiles_spec env.range hrange _ [] hnd with
    ⟨o, ho, _⟩ | ⟨o, pre1, f, post, k1, r0, ho, hsplit1, hk, hwhere⟩
  · rw [ho] at h
    simp at h
  · rw [ho] at h
    simp only [Option.some.injEq, LoadError.duplicate.injEq] at h
    obtain ⟨hk1, ha, hb⟩ := h
    subst hk1
    rcases hwhere with hw | ⟨g, hg, hget⟩
    · simp [ResourceMap.get] at hw
    · obtain ⟨pre, mid, hpre1⟩ := List.append_of_mem hg
      have hgmem : g ∈ (vpre ++ [e]).filterMap (entryDocs env base) := by
        rw [hsplit1, hpre1]
        simp
      refine ⟨pre, g, mid, f, post ++ vpost.filterMap (entryDocs env base), ?_,
        (ResourceMap.mem_keys_iff k1 g.2).2 ⟨r0, hget⟩, hk, ?_, hb.symm⟩
      · rw [hfiles, hsplit1, hpre1]
        simp
      · rw [← ha, hlabel g hgmem k1 r0 hget]

/-- `Load` succeeds exactly when no entry it visits meets a walk, read, path
or parse error and no two of the files it processes share an identifier. -/
theorem Load_succeeds_iff (env : Env) (base root : String) (more : List String)
    (hrange : ∀ m : ResourceMap, m.keys.Nodup → (env.range m).Perm m) :
    (Load env base root more).2 = none ↔
      (∀ e ∈ allVisits env (root :: more), entryOk env base e = true) ∧
        (processedFiles env base (root :: more)).Pairwise DisjointFiles := by
  have hnd := processedFiles_nodup env base (root :: more)
  constructor
  · intro h
    have hok : ∀ e ∈ allVisits env (root :: more), entryOk env base e = true := by
      apply entryOk_of_runVisits_none env base _ []
      rw [Load, loadRoots_eq_runVisits] at h
      exact h
    refine ⟨hok, ?_⟩
    rw [Load_eq_mergeFiles env base root more hok] at h
    rcases mergeFiles_spec env.range hrange _ [] hnd with
      ⟨o, _, _, hpair, _⟩ | ⟨o, pre1, f, post, k1, r0, ho, _⟩
    · exact hpair
    · rw [ho] at h
      simp at h
  · rintro ⟨hok, hpair⟩
    rw [Load_eq_mergeFiles env base root more hok]
    rcases mergeFiles_spec env.range hrange _ [] hnd with
      ⟨o, ho, _⟩ | ⟨o, pre1, f, post, k1, r0, _, hsplit, hk, hwhere⟩
    · rw [ho]
    · exfalso
      rcases hwhere with hw | ⟨g, hg, hget⟩
      · simp [ResourceMap.get] at hw
      · rw [hsplit] at hpair
        have h1 := (List.pairwise_append.1 hpair).2.2 g hg f (by simp)
        exact h1 k1 ((ResourceMap.mem_keys_iff k1 g.2).2 ⟨r0, hget⟩) hk

/-- What the map of a successful `Load` holds under each identifier. -/
theorem Load_get_of_success (env : Env) (base root : String) (more : List String)
    (hrange : ∀ m : ResourceMap, m.keys.Nodup → (env.range m).Perm m)
    (h : (Load env base root more).2 = none) (k : String) (r : Resource) :
    (Load env base root more).1.get k = some r ↔
      ∃ f ∈ processedFiles env base (root :: more), f.2.get k = some r := by
  have hok := ((Load_succeeds_iff env base root more hrange).1 h).1
  have hnd := processedFiles_nodup env base (root :: more)
  rw [Load_eq_mergeFiles env base root more hok] at h ⊢
  rcases mergeFiles_spec env.range hrange _ [] hnd with
    ⟨o, ho, hchar, _⟩ | ⟨o, pre1, f, post, k1, r0, ho, _⟩
  · rw [ho, hchar k r]
    simp [ResourceMap.get]
  · rw [ho] at h
    simp at h

/-- Claim C13: take two loads, each with its own file system, roots, order
of listing its directories and order of ranging over its maps, that read and
parse the same files (the same source labels with the same documents) in
two orders, and of which one meets an entry it cannot walk, read or parse
exactly when the other does. Then one succeeds exactly when the other does,
and when they succeed their maps hold the same resource under every
identifier. -/
theorem Load_order_independent (env1 env2 : Env) (base1 base2 : String) (root1 root2 : String)
    (more1 more2 : List String)
    (hrange1 : ∀ m : ResourceMap, m.keys.Nodup → (env1.range m).Perm m)
    (hrange2 : ∀ m : ResourceMap, m.keys.Nodup → (env2.range m).Perm m)
    (hfail : (∀ e ∈ allVisits env1 (root1 :: more1), entryOk env1 base1 e = true) ↔
      (∀ e ∈ allVisits env2 (root2 :: more2), entryOk env2 base2 e = true))
    (hperm : (processedFiles env1 base1 (root1 :: more1)).Perm
      (processedFiles env2 base2 (root2 :: more2))) :
    ((Load env1 base1 root1 more1).2 = none ↔ (Load env2 base2 root2 more2).2 = none) ∧
    ((Load env1 base1 root1 more1).2 = none →
      ∀ k, (Load env1 base1 root1 more1).1.get k = (Load env2 base2 root2 more2).1.get k) := by
  have hiff : (Load env1 base1 root1 more1).2 = none ↔
      (Load env2 base2 root2 more2).2 = none := by
    rw [Load_succeeds_iff env1 base1 root1 more1 hrange1,
      Load_succeeds_iff env2 base2 root2 more2 hrange2]
    constructor
    · rintro ⟨h1, h2⟩
      exact ⟨hfail.1 h1, (hperm.pairwise_iff (fun {_ _} h => DisjointFiles.symm h)).1 h2⟩
    · rintro ⟨h1, h2⟩
      exact ⟨hfail.2 h1, (hperm.pairwise_iff (fun {_ _} h => DisjointFiles.symm h)).2 h2⟩
  refine ⟨hiff, fun h1 k => ?_⟩
  have h2 := hiff.1 h1
  apply Option.ext
  intro r
  simp only [Option.mem_def]
  rw [Load_get_of_success env1 base1 root1 more1 hrange1 h1,
    Load_get_of_success env2 base2 root2 more2 hrange2 h2]
  constructor
  · rintro ⟨f, hf, hget⟩
    exact ⟨f, hperm.mem_iff.1 hf, hget⟩
  · rintro ⟨f, hf, hget⟩
    exact ⟨f, hperm.mem_iff.2 hf, hget⟩

/-- Witness for claim C13: the directory "d" holding the files "a.yaml" and
"c.yaml", listed in one order by one file system and in the other order by
the other. -/
theorem Load_order_independent_witness :
    ((Load (sampleEnv (sampleListing [("a.yaml", Node.file (some [102, 111, 111])),
        ("c.yaml", Node.file (some [98, 97, 114]))])) "" "d" []).2 = none ↔
      (Load (sampleEnv (sampleListing [("c.yaml", Node.file (some [98, 97, 114])),
        ("a.yaml", Node.file (some [102, 111, 111]))])) "" "d" []).2 = none) ∧
    ((Load (sampleEnv (sampleListing [("a.yaml", Node.file (some [102, 111, 111])),
        ("c.yaml", Node.file (some [98, 97, 114]))])) "" "d" []).2 = none →
      ∀ k, (Load (sampleEnv (sampleListing [("a.yaml", Node.file (some [102, 111, 111])),
          ("c.yaml", Node.file (some [98, 97, 114]))])) "" "d" []).1.get k =
        (Load (sampleEnv (sampleListing [("c.yaml", Node.file (some [98, 97, 114])),
          ("a.yaml", Node.file (some [102, 111, 111]))])) "" "d" []).1.get k) :=
  Load_order_independent
    (sampleEnv (sampleListing [("a.yaml", Node.file (some [102, 111, 111])),
      ("c.yaml", Node.file (some [98, 97, 114]))]))
    (sampleEnv (sampleListing [("c.yaml", Node.file (some [98, 97, 114])),
      ("a.yaml", Node.file (some [102, 111, 111]))]))
    "" "" "d" "d" [] [] (fun _ _ => List.Perm.refl _) (fun _ _ => List.Perm.refl _)
    (by decide) (by decide)

/-- Claim C19 as stated fails: `Load` of the roots "a.yaml" and "a.yaml", the
same file twice, fails with a duplicate error whose two source labels are
both the label of that one file. -/
theorem Load_same_root_twice :
    Load (sampleEnv sampleFS) "" "a.yaml" ["a.yaml"] =
      ([("foo", Resource.mk "foo" "a.yaml" [102, 111, 111])],
        some (LoadError.duplicate "foo" "a.yaml" "a.yaml")) := by
  decide

/-- Claim C19, as amended: with a decoder that labels each resource with
the source it is given, whenever `Load` fails with a duplicate error, the
two source labels named are the labels of two files of the sequence it
processes, an earlier and a later one, that share the identifier named;
the labels differ whenever no two files of that sequence have the same
label, that is, when no file is reached twice. -/
theorem Load_duplicate_labels (env : Env) (base root : String) (more : List String)
    (hrange : ∀ m : ResourceMap, m.keys.Nodup → (env.range m).Perm m)
    (hsource : ∀ source c r, env.unmarshalObject source c = Except.ok (some r) →
      r.source = source)
    (k a b : String) (h : (Load env base root more).2 = some (LoadError.duplicate k a b)) :
    (∃ pre g mid f post,
      processedFiles env base (root :: more) = pre ++ g :: (mid ++ f :: post) ∧
      k ∈ g.2.keys ∧ k ∈ f.2.keys ∧ a = g.1 ∧ b = f.1) ∧
    (((processedFiles env base (root :: more)).map Prod.fst).Nodup → a ≠ b) := by
  have hsplit := Load_duplicate_split env base root more hrange hsource k a b h
  refine ⟨hsplit, ?_⟩
  obtain ⟨pre, g, mid, f, post, hfiles, _, _, ha, hb⟩ := hsplit
  intro hnd hab
  rw [hfiles] at hnd
  simp only [List.map_append, List.map_cons] at hnd
  have h1 := (List.nodup_append.1 hnd).2.1
  have h2 := (List.nodup_cons.1 h1).1
  apply h2
  rw [← ha, hab, hb]
  simp

/-- Witness for claim C19, as amended: the files "a.yaml" and "b.yaml", which
both define "foo". -/
theorem Load_duplicate_labels_witness :
    (∃ pre g mid f post,
      processedFiles (sampleEnv sampleFS) "" ["a.yaml", "b.yaml"] = pre ++ g :: (mid ++ f :: post) ∧
      "foo" ∈ g.2.keys ∧ "foo" ∈ f.2.keys ∧ "a.yaml" = g.1 ∧ "b.yaml" = f.1) ∧
    (((processedFiles (sampleEnv sampleFS) "" ["a.yaml", "b.yaml"]).map Prod.fst).Nodup →
      "a.yaml" ≠ "b.yaml") :=
  Load_duplicate_labels (sampleEnv sampleFS) "" "a.yaml" ["b.yaml"]
    (fun _ _ => List.Perm.refl _) sampleUnmarshal_source "foo" "a.yaml" "b.yaml" (by decide)

/-! ## Facts about the value overrides -/

theorem ValueMap.lookup_set (k : String) (v : Value) (k1 : String) :
    ∀ (m : ValueMap), (m.set k v).get k1 = if k = k1 then some v else m.get k1
  | [] => by simp [ValueMap.set, ValueMap.get]
  | (k0, v0) :: t => by
    have ih := ValueMap.lookup_set k v k1 t
    by_cases h0 : k0 = k
    · by_cases h1 : k = k1
      · simp [ValueMap.set, ValueMap.get, h0, h1]
      · simp [ValueMap.set, ValueMap.get, h0, h1]
    · by_cases h1 : k = k1
      · have h2 : ¬ k0 = k1 := fun e => h0 (e.trans h1.symm)
        subst h1
        simpa [ValueMap.set, ValueMap.get, h0] using ih
      · simp [ValueMap.set, ValueMap.get, h0, h1, ih]

theorem ValueMap.mem_keys_iff_lookup (k : String) :
    ∀ (m : ValueMap), k ∈ m.keys ↔ ∃ v, m.get k = some v
  | [] => by simp [ValueMap.keys, ValueMap.get]
  | (k0, v0) :: t => by
    have ih := ValueMap.mem_keys_iff_lookup k t
    simp only [ValueMap.keys] at ih
    by_cases h0 : k0 = k
    · simp [ValueMap.keys, ValueMap.get, h0]
    · have h1 : ¬ k = k0 := fun e => h0 e.symm
      simp [ValueMap.keys, ValueMap.get, h0, h1, ih]

theorem ValueMap.lookup_eq_none_iff (k : String) (m : ValueMap) :
    m.get k = none ↔ k ∉ m.keys := by
  rw [ValueMap.mem_keys_iff_lookup]
  cases m.get k <;> simp

/-- The loop of `reverse` turns the stretch between `i` and `j` around. -/
theorem reverseLoop_spec :
    ∀ (n : Nat) (pre mid post : List String), mid.length ≤ 2 * n →
      reverseLoop n pre.length (pre.length + mid.length - 1) (pre ++ (mid ++ post)) =
        pre ++ (mid.reverse ++ post)
  | 0, pre, mid, post, h => by
    have : mid = [] := List.length_eq_zero.1 (by omega)
    subst this
    simp [reverseLoop]
  | n + 1, pre, [], post, _ => by
    simp [reverseLoop]
  | n + 1, pre, [x], post, _ => by
    simp [reverseLoop]
  | n + 1, pre, x :: x2 :: tail, post, h => by
    rcases List.eq_nil_or_concat (x2 :: tail) with hnil | ⟨m, y, hm⟩
    · simp at hnil
    · have hm2 : x2 :: tail = m ++ [y] := by rw [hm, List.concat_eq_append]
      rw [hm2]
      have hlen : (x2 :: tail).length = m.length + 1 := by rw [hm2]; simp
      have hlt : pre.length < pre.length + (x :: (m ++ [y])).length - 1 := by
        simp
      have hj : pre.length + (x :: (m ++ [y])).length - 1 = pre.length + (m.length + 1) := by
        simp
      have hgetj : (pre ++ (x :: (m ++ [y]) ++ post)).getD (pre.length + (m.length + 1)) "" = y := by
        rw [List.getD_eq_getElem?_getD, List.getElem?_append_right (by omega)]
        have h1 : pre.length + (m.length + 1) - pre.length = m.length + 1 := by omega
        rw [h1]
        simp only [List.cons_append, List.getElem?_cons_succ, List.append_assoc]
        rw [List.getElem?_append_right (by omega)]
        simp
      have hgeti : (pre ++ (x :: (m ++ [y]) ++ post)).getD pre.length "" = x := by
        rw [List.getD_eq_getElem?_getD, List.getElem?_append_right (by omega)]
        simp
      have hset : ((pre ++ (x :: (m ++ [y]) ++ post)).set pre.length y).set
          (pre.length + (m.length + 1)) x = (pre ++ [y]) ++ (m ++ ([x] ++ post)) := by
        rw [List.set_append_right _ _ (by omega)]
        simp only [Nat.sub_self, List.cons_append, List.set_cons_zero]
        rw [List.set_append_right _ _ (by omega)]
        have : pre.length + (m.length + 1) - pre.length = m.length + 1 := by omega
        rw [this]
        simp only [List.set_cons_succ, List.append_assoc]
        rw [List.set_append_right _ _ (by omega)]
        simp
      have ih := reverseLoop_spec n (pre ++ [y]) m ([x] ++ post) (by
        simp only [List.length_cons] at h hlen
        omega)
      have hidx : (pre ++ [y]).length + m.length - 1 = pre.length + (m.length + 1) - 1 := by
        simp only [List.length_append, List.length_cons, List.length_nil]
        omega
      rw [reverseLoop, if_pos hlt, hj, hgetj, hgeti, hset]
      rw [← hidx]
      have hpl : pre.length + 1 = (pre ++ [y]).length := by simp
      rw [hpl, ih]
      simp

/-- The function `reverse` of utils.go reverses its argument. -/
theorem reverse_eq (s : List String) : reverse s = s.reverse := by
  have h := reverseLoop_spec s.length [] s [] (by omega)
  simpa [reverse] using h

theorem splitDots_ne_nil : ∀ (cs : List Char), splitDots cs ≠ []
  | [] => by simp [splitDots]
  | c :: cs => by
    simp only [splitDots]
    split
    · simp
    · split <;> simp

/-- No segment of `strings.Split(s, ".")` contains a dot. -/
theorem splitDots_no_dot : ∀ (cs : List Char), ∀ seg ∈ splitDots cs, '.' ∉ seg
  | [], seg, h => by
    simp only [splitDots, List.mem_singleton] at h
    subst h
    simp
  | c :: cs, seg, h => by
    have ih := splitDots_no_dot cs
    simp only [splitDots] at h
    split at h
    · rcases List.mem_cons.1 h with rfl | h
      · simp
      · exact ih seg h
    · rename_i hc
      cases hs : splitDots cs with
      | nil => exact absurd hs (splitDots_ne_nil cs)
      | cons s0 ss =>
        rw [hs] at h ih
        rcases List.mem_cons.1 h with rfl | h
        · intro hmem
          rcases List.mem_cons.1 hmem with e | e
          · exact hc e.symm
          · exact ih s0 (by simp) e
        · exact ih seg (by simp [h])

/-- The characters of a list of segments joined by dots. -/
theorem joinDots_splitDots : ∀ (cs : List Char),
    List.intercalate ['.'] (splitDots cs) = cs
  | [] => by simp [splitDots, List.intercalate]
  | c :: cs => by
    have ih := joinDots_splitDots cs
    simp only [splitDots]
    split
    · rename_i hc
      subst hc
      cases hs : splitDots cs with
      | nil => exact absurd hs (splitDots_ne_nil cs)
      | cons s0 ss =>
        rw [hs] at ih
        simp only [List.intercalate, List.intersperse, List.flatten_cons, List.nil_append] at ih ⊢
        rw [← ih]
        rfl
    · cases hs : splitDots cs with
      | nil => exact absurd hs (splitDots_ne_nil cs)
      | cons s0 ss =>
        rw [hs] at ih
        simp only []
        cases ss with
        | nil =>
          simp only [List.intercalate, List.intersperse, List.flatten_cons, List.flatten_nil,
            List.append_nil] at ih ⊢
          rw [ih]
        | cons s1 ss1 =>
          simp only [List.intercalate, List.intersperse, List.flatten_cons, List.cons_append] at ih ⊢
          rw [ih]

/-- Splitting a segment without dot followed by a dot and more. -/
theorem splitDots_append (rest : List Char) :
    ∀ (seg : List Char), '.' ∉ seg → splitDots (seg ++ '.' :: rest) = seg :: splitDots rest
  | [], _ => by simp [splitDots]
  | c :: seg, h => by
    have hc : ¬ c = '.' := fun e => h (by simp [e])
    have ih := splitDots_append rest seg (fun hm => h (by simp [hm]))
    simp [splitDots, hc, ih]

/-- Splitting a segment without dot. -/
theorem splitDots_segment : ∀ (seg : List Char), '.' ∉ seg → splitDots seg = [seg]
  | [], _ => by simp [splitDots]
  | c :: seg, h => by
    have hc : ¬ c = '.' := fun e => h (by simp [e])
    have ih := splitDots_segment seg (fun hm => h (by simp [hm]))
    simp [splitDots, hc, ih]

theorem dotted_data : ∀ (segs : List String),
    (dotted segs).data = List.intercalate ['.'] (segs.map String.data)
  | [] => by simp [dotted, List.intercalate]
  | [s] => by simp [dotted, List.intercalate]
  | s :: s2 :: rest => by
    have ih := dotted_data (s2 :: rest)
    simp only [dotted, String.data_append, ih]
    simp [List.intercalate, List.intersperse]

/-- Splitting a dotted name gives back its segments. -/
theorem stringsSplit_dotted : ∀ (segs : List String), segs ≠ [] →
    (∀ s ∈ segs, '.' ∉ s.data) → stringsSplit (dotted segs) = segs
  | [], h, _ => absurd rfl h
  | [s], _, hdot => by
    simp [stringsSplit, dotted, splitDots_segment s.data (hdot s (by simp))]
  | s :: s2 :: rest, _, hdot => by
    have ih := stringsSplit_dotted (s2 :: rest) (by simp) (fun x hx => hdot x (by simp [hx]))
    simp only [stringsSplit] at ih ⊢
    have hd : (dotted (s :: s2 :: rest)).data = s.data ++ '.' :: (dotted (s2 :: rest)).data := by
      simp only [dotted, String.data_append]
      simp
    rw [hd, splitDots_append _ s.data (hdot s (by simp)), List.map_cons, ih]

/-- A name is its segments joined by dots. -/
theorem dotted_stringsSplit (k : String) : dotted (stringsSplit k) = k := by
  apply String.ext
  rw [dotted_data, stringsSplit, List.map_map]
  have : (String.data ∘ String.mk) = id := by
    funext l
    rfl
  rw [this, List.map_id, joinDots_splitDots]

/-- The rounds of the loop of `mappifyValueOverride` after the first wrap
the map built so far in one map for each name. -/
theorem mappifyLoop_wrap (v : Value) :
    ∀ (nests : List String) (i : Nat) (tail : List String), tail ≠ [] → 0 < i →
      mappifyLoop v nests i (nestedMap v tail) = nestedMap v (nests.reverse ++ tail)
  | [], _, _, _, _ => by simp [mappifyLoop]
  | n :: rest, i, tail, htail, hi => by
    have hi0 : ¬ i = 0 := by omega
    have hwrap : [(n, Value.map (nestedMap v tail))] = nestedMap v (n :: tail) := by
      cases tail with
      | nil => exact absurd rfl htail
      | cons t ts => rfl
    rw [mappifyLoop, if_neg hi0, hwrap,
      mappifyLoop_wrap v rest (i + 1) (n :: tail) (by simp) (by omega)]
    simp

/-- The map `mappifyValueOverride` builds is the nested map of the segments
of the name. -/
theorem mappifyValueOverride_eq (k : String) (v : Value) :
    mappifyValueOverride k v = (nestedMap v (stringsSplit k), none) := by
  have hne : stringsSplit k ≠ [] := by
    simp [stringsSplit, splitDots_ne_nil]
  unfold mappifyValueOverride
  rw [reverse_eq]
  rcases List.eq_nil_or_concat (stringsSplit k) with h | ⟨init, last, h⟩
  · exact absurd h hne
  · rw [h, List.concat_eq_append, List.reverse_append]
    simp only [List.reverse_cons, List.reverse_nil, List.nil_append, List.singleton_append]
    have hfirst : mappifyLoop v (last :: init.reverse) 0 [] =
        mappifyLoop v init.reverse 1 (nestedMap v [last]) := by
      simp [mappifyLoop, ValueMap.set, nestedMap]
    rw [hfirst, mappifyLoop_wrap v init.reverse 1 [last] (by simp) (by omega)]
    simp

theorem lookupPath_nestedMap (v : Value) :
    ∀ (segs : List String), segs ≠ [] → lookupPath segs (nestedMap v segs) = some v
  | [], h => absurd rfl h
  | [s], _ => by simp [lookupPath, nestedMap, ValueMap.get]
  | s :: s2 :: rest, _ => by
    have ih := lookupPath_nestedMap v (s2 :: rest) (by simp)
    simp [lookupPath, nestedMap, ValueMap.get, ih]

theorem stringsSplit_ne_nil (k : String) : stringsSplit k ≠ [] := by
  simp [stringsSplit, splitDots_ne_nil]

/-- The value `collectValues` merges for a parameter is no map. -/
theorem overrideValue_not_map (env : ValuesEnv) (v : String) (vu : Value)
    (h : overrideValue env v = Except.ok vu) : vu.isMap = false := by
  unfold overrideValue at h
  split at h
  · unfold unwrap at h
    split at h
    · simp at h
    · simp only [Except.ok.injEq] at h
      rw [← h]
      rfl
  · simp only [Except.ok.injEq] at h
    rw [← h]
    rfl

/-- Claim C14: for every name `k` and value `v`, `mappifyValueOverride(k, v)`
returns no error and the nested map of the segments of `k`, the segments
being what `k` splits into at its dots: the one non-empty list of strings
without dot that `k` is the dotted join of. For a name without dot this is
the one-entry map from `k` to `v`. -/
theorem mappifyValueOverride_spec (k : String) (v : Value) :
    mappifyValueOverride k v = (nestedMap v (stringsSplit k), none) ∧
    stringsSplit k ≠ [] ∧ dotted (stringsSplit k) = k ∧
    (∀ s ∈ stringsSplit k, '.' ∉ s.data) ∧
    (∀ segs : List String, segs ≠ [] → (∀ s ∈ segs, '.' ∉ s.data) →
      mappifyValueOverride (dotted segs) v = (nestedMap v segs, none)) ∧
    ('.' ∉ k.data → mappifyValueOverride k v = ([(k, v)], none)) := by
  refine ⟨mappifyValueOverride_eq k v, stringsSplit_ne_nil k, dotted_stringsSplit k, ?_, ?_, ?_⟩
  · intro s hs
    simp only [stringsSplit, List.mem_map] at hs
    obtain ⟨seg, hseg, rfl⟩ := hs
    exact splitDots_no_dot k.data seg hseg
  · intro segs hne hdot
    rw [mappifyValueOverride_eq, stringsSplit_dotted segs hne hdot]
  · intro hk
    have h := stringsSplit_dotted [k] (by simp) (by simpa using hk)
    simp only [dotted] at h
    rw [mappifyValueOverride_eq, h]
    rfl

/-- Witness for claim C14: the name "a.b.c". -/
theorem mappifyValueOverride_spec_witness :
    mappifyValueOverride (dotted ["a", "b", "c"]) (Value.str "x") =
      ([("a", Value.map [("b", Value.map [("c", Value.str "x")])])], none) :=
  (mappifyValueOverride_spec "" (Value.str "x")).2.2.2.2.1 ["a", "b", "c"]
    (by decide) (by decide)

/-! ## Facts about values in the heap -/

theorem GoMap.lookup_assign (k : String) (v : GoValue) (k1 : String) :
    ∀ (m : GoMap), (m.set k v).get k1 = if k = k1 then some v else m.get k1
  | [] => by simp [GoMap.set, GoMap.get]
  | (k0, v0) :: t => by
    have ih := GoMap.lookup_assign k v k1 t
    by_cases h0 : k0 = k
    · by_cases h1 : k = k1
      · simp [GoMap.set, GoMap.get, h0, h1]
      · simp [GoMap.set, GoMap.get, h0, h1]
    · by_cases h1 : k = k1
      · have h2 : ¬ k0 = k1 := fun e => h0 (e.trans h1.symm)
        subst h1
        simpa [GoMap.set, GoMap.get, h0] using ih
      · simp [GoMap.set, GoMap.get, h0, h1, ih]

mutual
/-- Reading a value as a tree looks only at the map objects of its
footprint: a heap with the same objects there reads it the same way. -/
theorem denotes_frame (b : Bool) (h h2 : Heap) :
    ∀ (t : Value) (gv : GoValue), (∀ r ∈ footprint h t gv, h2[r]? = h[r]?) →
      denotes b h2 t gv = denotes b h t gv ∧ footprint h2 t gv = footprint h t gv
  | Value.str s, gv, _ => by cases gv <;> simp [denotes, footprint]
  | Value.scalar s, gv, _ => by cases gv <;> simp [denotes, footprint]
  | Value.list xs, gv, hf => by
    cases gv with
    | list gxs =>
      have ih := denotesList_frame b h h2 xs gxs (by simpa [footprint] using hf)
      simp [denotes, footprint, ih.1, ih.2]
    | str s => simp [denotes, footprint]
    | scalar s => simp [denotes, footprint]
    | map r => simp [denotes, footprint]
  | Value.map es, gv, hf => by
    cases gv with
    | map ref =>
      cases ref with
      | none => simp [denotes, footprint]
      | some r =>
        have hr : h2[r]? = h[r]? := by
          apply hf
          simp only [footprint]
          split <;> simp
        simp only [denotes, footprint, hr]
        cases hg : h[r]? with
        | none => simp
        | some ges =>
          have ih := denotesEntries_frame b h h2 es ges (by
            intro x hx
            apply hf
            simp only [footprint, hg]
            exact List.mem_cons_of_mem _ hx)
          simp [ih.1, ih.2]
    | str s => simp [denotes, footprint]
    | scalar s => simp [denotes, footprint]
    | list gxs => simp [denotes, footprint]
theorem denotesEntries_frame (b : Bool) (h h2 : Heap) :
    ∀ (es : List (String × Value)) (ges : GoMap),
      (∀ r ∈ footprintEntries h es ges, h2[r]? = h[r]?) →
      denotesEntries b h2 es ges = denotesEntries b h es ges ∧
        footprintEntries h2 es ges = footprintEntries h es ges
  | [], ges, _ => by cases ges <;> simp [denotesEntries, footprintEntries]
  | (k, v) :: es, [], _ => by simp [denotesEntries, footprintEntries]
  | (k, v) :: es, (k1, gv) :: ges, hf => by
    have ih1 := denotes_frame b h h2 v gv (fun r hr => hf r (by simp [footprintEntries, hr]))
    have ih2 := denotesEntries_frame b h h2 es ges
      (fun r hr => hf r (by simp [footprintEntries, hr]))
    simp [denotesEntries, footprintEntries, ih1.1, ih1.2, ih2.1, ih2.2]
theorem denotesList_frame (b : Bool) (h h2 : Heap) :
    ∀ (xs : List Value) (gxs : List GoValue),
      (∀ r ∈ footprintList h xs gxs, h2[r]? = h[r]?) →
      denotesList b h2 xs gxs = denotesList b h xs gxs ∧
        footprintList h2 xs gxs = footprintList h xs gxs
  | [], gxs, _ => by cases gxs <;> simp [denotesList, footprintList]
  | v :: xs, [], _ => by simp [denotesList, footprintList]
  | v :: xs, gv :: gxs, hf => by
    have ih1 := denotes_frame b h h2 v gv (fun r hr => hf r (by simp [footprintList, hr]))
    have ih2 := denotesList_frame b h h2 xs gxs
      (fun r hr => hf r (by simp [footprintList, hr]))
    simp [denotesList, footprintList, ih1.1, ih1.2, ih2.1, ih2.2]
end

mutual
/-- A value read without nil maps is read the same way when they are let
in. -/
theorem denotes_mono (b : Bool) (h : Heap) :
    ∀ (t : Value) (gv : GoValue), denotes false h t gv = true → denotes b h t gv = true
  | Value.str s, gv, hd => by cases gv <;> simp_all [denotes]
  | Value.scalar s, gv, hd => by cases gv <;> simp_all [denotes]
  | Value.list xs, gv, hd => by
    cases gv with
    | list gxs => exact (by simpa [denotes] using denotesList_mono b h xs gxs (by simpa [denotes] using hd))
    | str s => simp [denotes] at hd
    | scalar s => simp [denotes] at hd
    | map r => simp [denotes] at hd
  | Value.map es, gv, hd => by
    cases gv with
    | map ref =>
      cases ref with
      | none => simp [denotes] at hd
      | some r =>
        simp only [denotes] at hd ⊢
        cases hg : h[r]? with
        | none => simp [hg] at hd
        | some ges =>
          simp only [hg] at hd ⊢
          exact denotesEntries_mono b h es ges hd
    | str s => simp [denotes] at hd
    | scalar s => simp [denotes] at hd
    | list gxs => simp [denotes] at hd
theorem denotesEntries_mono (b : Bool) (h : Heap) :
    ∀ (es : List (String × Value)) (ges : GoMap),
      denotesEntries false h es ges = true → denotesEntries b h es ges = true
  | [], ges, hd => by cases ges <;> simp_all [denotesEntries]
  | (k, v) :: es, [], hd => by simp [denotesEntries] at hd
  | (k, v) :: es, (k1, gv) :: ges, hd => by
    simp only [denotesEntries, Bool.and_eq_true] at hd ⊢
    exact ⟨⟨hd.1.1, denotes_mono b h v gv hd.1.2⟩, denotesEntries_mono b h es ges hd.2⟩
theorem denotesList_mono (b : Bool) (h : Heap) :
    ∀ (xs : List Value) (gxs : List GoValue),
      denotesList false h xs gxs = true → denotesList b h xs gxs = true
  | [], gxs, hd => by cases gxs <;> simp_all [denotesList]
  | v :: xs, [], hd => by simp [denotesList] at hd
  | v :: xs, gv :: gxs, hd => by
    simp only [denotesList, Bool.and_eq_true] at hd ⊢
    exact ⟨denotes_mono b h v gv hd.1, denotesList_mono b h xs gxs hd.2⟩
end

mutual
/-- The map objects of a value that reads as a tree are objects of the
heap. -/
theorem footprint_lt (b : Bool) (h : Heap) :
    ∀ (t : Value) (gv : GoValue), denotes b h t gv = true →
      ∀ r ∈ footprint h t gv, r < h.length
  | Value.str s, gv, _ => by cases gv <;> simp [footprint]
  | Value.scalar s, gv, _ => by cases gv <;> simp [footprint]
  | Value.list xs, gv, hd => by
    cases gv with
    | list gxs =>
      simpa [footprint] using footprintList_lt b h xs gxs (by simpa [denotes] using hd)
    | str s => simp [footprint]
    | scalar s => simp [footprint]
    | map r => simp [footprint]
  | Value.map es, gv, hd => by
    cases gv with
    | map ref =>
      cases ref with
      | none => simp [footprint]
      | some r =>
        simp only [denotes] at hd
        simp only [footprint]
        cases hg : h[r]? with
        | none => simp [hg] at hd
        | some ges =>
          simp only [hg] at hd
          have hlt : r < h.length := by
            by_contra hcon
            rw [List.getElem?_eq_none (by omega)] at hg
            simp at hg
          intro x hx
          rcases List.mem_cons.1 hx with hx | hx
          · rw [hx]; exact hlt
          · exact footprintEntries_lt b h es ges hd x hx
    | str s => simp [footprint]
    | scalar s => simp [footprint]
    | list gxs => simp [footprint]
theorem footprintEntries_lt (b : Bool) (h : Heap) :
    ∀ (es : List (String × Value)) (ges : GoMap), denotesEntries b h es ges = true →
      ∀ r ∈ footprintEntries h es ges, r < h.length
  | [], ges, _ => by cases ges <;> simp [footprintEntries]
  | (k, v) :: es, [], _ => by simp [footprintEntries]
  | (k, v) :: es, (k1, gv) :: ges, hd => by
    simp only [denotesEntries, Bool.and_eq_true] at hd
    intro r hr
    simp only [footprintEntries, List.mem_append] at hr
    rcases hr with hr | hr
    · exact footprint_lt b h v gv hd.1.2 r hr
    · exact footprintEntries_lt b h es ges hd.2 r hr
theorem footprintList_lt (b : Bool) (h : Heap) :
    ∀ (xs : List Value) (gxs : List GoValue), denotesList b h xs gxs = true →
      ∀ r ∈ footprintList h xs gxs, r < h.length
  | [], gxs, _ => by cases gxs <;> simp [footprintList]
  | v :: xs, [], _ => by simp [footprintList]
  | v :: xs, gv :: gxs, hd => by
    simp only [denotesList, Bool.and_eq_true] at hd
    intro r hr
    simp only [footprintList, List.mem_append] at hr
    rcases hr with hr | hr
    · exact footprint_lt b h v gv hd.1 r hr
    · exact footprintList_lt b h xs gxs hd.2 r hr
end

theorem denotesEntries_keys (b : Bool) (h : Heap) :
    ∀ (es : List (String × Value)) (ges : GoMap), denotesEntries b h es ges = true →
      GoMap.keys ges = ValueMap.keys es
  | [], ges, hd => by cases ges <;> simp_all [denotesEntries, GoMap.keys, ValueMap.keys]
  | (k, v) :: es, [], hd => by simp [denotesEntries] at hd
  | (k, v) :: es, (k1, gv) :: ges, hd => by
    simp only [denotesEntries, Bool.and_eq_true, decide_eq_true_eq] at hd
    have ih := denotesEntries_keys b h es ges hd.2
    simp only [GoMap.keys, ValueMap.keys] at ih ⊢
    simp [ih, hd.1.1]

/-- Under a key, the entries of a map object that reads as a tree hold the
value that reads as the value of the tree, or nothing when the tree holds
nothing. -/
theorem denotesEntries_get (b : Bool) (h : Heap) (k : String) :
    ∀ (es : List (String × Value)) (ges : GoMap), denotesEntries b h es ges = true →
      (ValueMap.get es k = none → GoMap.get ges k = none ∧ entryFootprint h es ges k = []) ∧
      (∀ v, ValueMap.get es k = some v → ∃ gv, GoMap.get ges k = some gv ∧ denotes b h v gv = true ∧
        entryFootprint h es ges k = footprint h v gv)
  | [], ges, hd => by
    cases ges <;> simp_all [denotesEntries, ValueMap.get, GoMap.get, entryFootprint]
  | (k0, v0) :: es, [], hd => by simp [denotesEntries] at hd
  | (k0, v0) :: es, (k1, gv) :: ges, hd => by
    simp only [denotesEntries, Bool.and_eq_true, decide_eq_true_eq] at hd
    have ih := denotesEntries_get b h k es ges hd.2
    obtain ⟨⟨hk, hv⟩, _⟩ := hd
    subst hk
    by_cases h0 : k0 = k
    · simp [ValueMap.get, GoMap.get, entryFootprint, h0, hv]
    · simpa [ValueMap.get, GoMap.get, entryFootprint, h0] using ih

theorem footprintOfKeys_nil_left (h : Heap) (ges : GoMap) :
    ∀ (ks : List String), footprintOfKeys h [] ges ks = []
  | [] => rfl
  | k :: ks => by simp [footprintOfKeys, entryFootprint, footprintOfKeys_nil_left h ges ks]

theorem footprintOfKeys_nil_right (h : Heap) (es : List (String × Value)) :
    ∀ (ks : List String), footprintOfKeys h es [] ks = []
  | [] => rfl
  | k :: ks => by
    cases es <;> simp [footprintOfKeys, entryFootprint, footprintOfKeys_nil_right h _ ks]

theorem count_footprintOfKeys_cons (h : Heap) (r : Nat) (k1 k2 : String) (v : Value)
    (gv : GoValue) (es : List (String × Value)) (ges : GoMap) :
    ∀ (ks : List String),
      List.count r (footprintOfKeys h ((k1, v) :: es) ((k2, gv) :: ges) ks) ≤
        List.count k1 ks * List.count r (footprint h v gv) +
          List.count r (footprintOfKeys h es ges ks)
  | [] => by simp [footprintOfKeys]
  | k :: ks => by
    have ih := count_footprintOfKeys_cons h r k1 k2 v gv es ges ks
    by_cases h0 : k1 = k
    · subst h0
      simp only [footprintOfKeys, entryFootprint, if_true, List.count_append,
        List.count_cons_self]
      nlinarith
    · simp only [footprintOfKeys, entryFootprint, h0, if_false, List.count_append]
      rw [List.count_cons_of_ne h0]
      omega

/-- The values under distinct keys lie side by side in the entries: a map
object is met in them together no more often than in all the entries. -/
theorem count_footprintOfKeys_le (h : Heap) (r : Nat) :
    ∀ (es : List (String × Value)) (ges : GoMap) (ks : List String), ks.Nodup →
      List.count r (footprintOfKeys h es ges ks) ≤ List.count r (footprintEntries h es ges)
  | [], ges, ks, _ => by simp [footprintOfKeys_nil_left]
  | (k0, v0) :: es, [], ks, _ => by simp [footprintOfKeys_nil_right]
  | (k0, v0) :: es, (k1, gv) :: ges, ks, hnd => by
    have ih := count_footprintOfKeys_le h r es ges ks hnd
    have h1 := count_footprintOfKeys_cons h r k0 k1 v0 gv es ges ks
    have h2 : List.count k0 ks ≤ 1 := List.nodup_iff_count_le_one.1 hnd k0
    simp only [footprintEntries, List.count_append]
    have h3 : List.count k0 ks * List.count r (footprint h v0 gv) ≤
        List.count r (footprint h v0 gv) := by
      calc List.count k0 ks * List.count r (footprint h v0 gv)
          ≤ 1 * List.count r (footprint h v0 gv) := Nat.mul_le_mul_right _ h2
        _ = List.count r (footprint h v0 gv) := Nat.one_mul _
    omega

theorem count_entryFootprint_le (h : Heap) (r : Nat) (es : List (String × Value)) (ges : GoMap)
    (k : String) :
    List.count r (entryFootprint h es ges k) ≤ List.count r (footprintEntries h es ges) := by
  have := count_footprintOfKeys_le h r es ges [k] (by simp)
  simpa [footprintOfKeys] using this

theorem count_entryFootprint_two (h : Heap) (r : Nat) (es : List (String × Value)) (ges : GoMap)
    (k k2 : String) (hne : k ≠ k2) :
    List.count r (entryFootprint h es ges k) + List.count r (entryFootprint h es ges k2) ≤
      List.count r (footprintEntries h es ges) := by
  have := count_footprintOfKeys_le h r es ges [k, k2] (by simp [hne])
  simpa [footprintOfKeys, List.count_append] using this

/-- An assignment under the key `k`, seen from the tree: when the heap has
changed in no map object that the other entries go through, and the new
value reads as `v2`, the entries read as the entries of the tree with `v2`
under `k`; the map objects of the old value give way to those of the new
one. -/
theorem denotesEntries_set (b : Bool) (h h2 : Heap) (k : String) (v2 : Value) (gv2 : GoValue)
    (hnew : denotes b h2 v2 gv2 = true) :
    ∀ (es : List (String × Value)) (ges : GoMap), denotesEntries b h es ges = true →
      (∀ r, h2[r]? ≠ h[r]? →
        List.count r (footprintEntries h es ges) ≤ List.count r (entryFootprint h es ges k)) →
      denotesEntries b h2 (ValueMap.set es k v2) (GoMap.set ges k gv2) = true ∧
      ∀ r, List.count r (footprintEntries h2 (ValueMap.set es k v2) (GoMap.set ges k gv2)) +
          List.count r (entryFootprint h es ges k) =
        List.count r (footprintEntries h es ges) + List.count r (footprint h2 v2 gv2)
  | [], ges, hd, _ => by
    cases ges with
    | nil => simp [ValueMap.set, GoMap.set, denotesEntries, footprintEntries, entryFootprint, hnew]
    | cons g ges => simp [denotesEntries] at hd
  | (k0, v0) :: es, [], hd, _ => by simp [denotesEntries] at hd
  | (k0, v0) :: es, (k1, gv) :: ges, hd, hw => by
    simp only [denotesEntries, Bool.and_eq_true, decide_eq_true_eq] at hd
    obtain ⟨⟨hk, hv⟩, htail⟩ := hd
    subst hk
    by_cases h0 : k0 = k
    · subst h0
      have hfr : ∀ r ∈ footprintEntries h es ges, h2[r]? = h[r]? := by
        intro r hr
        by_contra hcon
        have := hw r hcon
        simp only [footprintEntries, entryFootprint, if_true, List.count_append] at this
        have hpos : 0 < List.count r (footprintEntries h es ges) := List.count_pos_iff.2 hr
        omega
      have hf := denotesEntries_frame b h h2 es ges hfr
      refine ⟨?_, ?_⟩
      · simp [ValueMap.set, GoMap.set, denotesEntries, hnew, hf.1, htail]
      · intro r
        simp only [ValueMap.set, GoMap.set, if_true, footprintEntries, entryFootprint,
          List.count_append, hf.2]
        omega
    · have hle := fun r => count_entryFootprint_le h r es ges k
      have hfr : ∀ r ∈ footprint h v0 gv, h2[r]? = h[r]? := by
        intro r hr
        by_contra hcon
        have := hw r hcon
        simp only [footprintEntries, entryFootprint, h0, if_false, List.count_append] at this
        have hpos : 0 < List.count r (footprint h v0 gv) := List.count_pos_iff.2 hr
        have := hle r
        omega
      have hf := denotes_frame b h h2 v0 gv hfr
      have ih := denotesEntries_set b h h2 k v2 gv2 hnew es ges htail (by
        intro r hcon
        have := hw r hcon
        simp only [footprintEntries, entryFootprint, h0, if_false, List.count_append] at this
        omega)
      refine ⟨?_, ?_⟩
      · simp [ValueMap.set, GoMap.set, h0, denotesEntries, hf.1, hv, ih.1]
      · intro r
        have := ih.2 r
        simp only [ValueMap.set, GoMap.set, h0, if_false, footprintEntries, entryFootprint,
          List.count_append, hf.2]
        omega

theorem MergeInv.count_dest_zero {b : Bool} {h0 : Heap} {owned : List Nat} {ts : ValueMap}
    {gsrc : GoMap} {d : Nat} {ks : List String} {h : Heap} {tcur : ValueMap} {gcur : GoMap}
    (inv : MergeInv b h0 owned ts gsrc d ks h tcur gcur)
    (hown : owned.Nodup) (hsep : ∀ r ∈ owned, r ∉ footprintEntries h0 ts gsrc) (hd : d ∈ owned) :
    List.count d (footprintEntries h tcur gcur) = 0 := by
  have h1 := inv.budget d
  have h2 : List.count d owned = 1 := List.count_eq_one_of_mem hown hd
  have h3 : List.count d (footprintEntries h0 ts gsrc) = 0 :=
    List.count_eq_zero_of_not_mem (hsep d hd)
  simp only [List.count_cons_self] at h1
  omega

theorem MergeInv.count_owned_le {b : Bool} {h0 : Heap} {owned : List Nat} {ts : ValueMap}
    {gsrc : GoMap} {d : Nat} {ks : List String} {h : Heap} {tcur : ValueMap} {gcur : GoMap}
    (inv : MergeInv b h0 owned ts gsrc d ks h tcur gcur)
    (hown : owned.Nodup) (hsep : ∀ r ∈ owned, r ∉ footprintEntries h0 ts gsrc)
    (r : Nat) (hr : r ∈ owned) :
    List.count r (footprintEntries h tcur gcur) ≤ 1 := by
  have h1 := inv.budget r
  have h2 : List.count r owned = 1 := List.count_eq_one_of_mem hown hr
  have h3 : List.count r (footprintEntries h0 ts gsrc) = 0 :=
    List.count_eq_zero_of_not_mem (hsep r hr)
  have h4 : List.count r (footprintEntries h tcur gcur) ≤
      List.count r (d :: footprintEntries h tcur gcur) := by
    rw [List.count_cons]
    omega
  omega

/-- One round of the loop keeps what holds between the rounds, when it
leaves under the key `k` a value that reads as `v2`, has written only into
`dest` and into owned objects of the value `dest` held under `k`, and the
new value is made of objects of the old one and of what `src` holds under
`k`. -/
theorem MergeInv.step {b : Bool} {h0 : Heap} {owned : List Nat} {ts : ValueMap}
    {gsrc : GoMap} {d : Nat} {k : String} {ks : List String} {h : Heap} {tcur : ValueMap}
    {gcur : GoMap}
    (inv : MergeInv b h0 owned ts gsrc d (k :: ks) h tcur gcur)
    (hown : owned.Nodup) (hsep : ∀ r ∈ owned, r ∉ footprintEntries h0 ts gsrc) (hd : d ∈ owned)
    (hnd : (k :: ks).Nodup) (h2 : Heap) (v2 : Value) (gv2 : GoValue)
    (hobj : h2[d]? = some (GoMap.set gcur k gv2))
    (hwr : ∀ r, h2[r]? ≠ h[r]? → r = d ∨ (r ∈ entryFootprint h tcur gcur k ∧ r ∈ owned))
    (hnew : denotes b h2 v2 gv2 = true)
    (hcount : ∀ r, List.count r (footprint h2 v2 gv2) ≤
      List.count r (entryFootprint h tcur gcur k) + List.count r (entryFootprint h0 ts gsrc k)) :
    MergeInv b h0 owned ts gsrc d ks h2 (ValueMap.set tcur k v2) (GoMap.set gcur k gv2) := by
  have hcd := inv.count_dest_zero hown hsep hd
  have hle := inv.count_owned_le hown hsep
  have hset := denotesEntries_set b h h2 k v2 gv2 hnew tcur gcur inv.reads (by
    intro r hcon
    rcases hwr r hcon with hr | ⟨hr1, hr2⟩
    · rw [hr, hcd]
      exact Nat.zero_le _
    · have := hle r hr2
      have hpos : 0 < List.count r (entryFootprint h tcur gcur k) := List.count_pos_iff.2 hr1
      omega)
  have hk : k ∉ ks := (List.nodup_cons.1 hnd).1
  refine ⟨hobj, hset.1, ?_, ?_, ?_⟩
  · intro r hr
    rw [← inv.outside r hr]
    by_contra hcon
    rcases hwr r hcon with h1 | ⟨_, h1⟩
    · exact hr (h1 ▸ hd)
    · exact hr h1
  · intro r
    have h1 := inv.budget r
    have h2 := hset.2 r
    have h3 := hcount r
    simp only [footprintOfKeys, List.count_append, List.count_cons] at h1 ⊢
    omega
  · intro k2 hk2 v gv hv hgv
    have hne : k ≠ k2 := fun e => hk (e ▸ hk2)
    rw [ValueMap.lookup_set, if_neg hne] at hv
    rw [GoMap.lookup_assign, if_neg hne] at hgv
    obtain ⟨hden, hsub⟩ := inv.untouched k2 (List.mem_cons_of_mem _ hk2) v gv hv hgv
    obtain ⟨gv1, hgv1, _, hfp⟩ := (denotesEntries_get b h k2 tcur gcur inv.reads).2 v hv
    rw [hgv] at hgv1
    simp only [Option.some.injEq] at hgv1
    subst hgv1
    have hfr : ∀ r ∈ footprint h v gv, h2[r]? = h[r]? := by
      intro r hr
      by_contra hcon
      have hpos : 0 < List.count r (entryFootprint h tcur gcur k2) := by
        rw [hfp]
        exact List.count_pos_iff.2 hr
      rcases hwr r hcon with h1 | ⟨h1, h3⟩
      · have := count_entryFootprint_le h r tcur gcur k2
        rw [h1] at this hpos
        omega
      · have := count_entryFootprint_two h r tcur gcur k k2 hne
        have hpos2 : 0 < List.count r (entryFootprint h tcur gcur k) := List.count_pos_iff.2 h1
        have := hle r h3
        omega
    have hf := denotes_frame false h h2 v gv hfr
    rw [hf.1, hf.2]
    exact ⟨hden, hsub⟩

theorem denotes_map_some (b : Bool) (h : Heap) (es : List (String × Value)) (r : Nat) :
    denotes b h (Value.map es) (GoValue.map (some r)) = true ↔
      ∃ ges, h[r]? = some ges ∧ denotesEntries b h es ges = true := by
  simp only [denotes]
  cases h[r]? <;> simp

theorem footprint_map_some (h : Heap) (es : List (String × Value)) (r : Nat) (ges : GoMap)
    (hr : h[r]? = some ges) :
    footprint h (Value.map es) (GoValue.map (some r)) = r :: footprintEntries h es ges := by
  simp only [footprint, hr]

theorem entriesKeysDistinct_get (k : String) (v : Value) :
    ∀ (es : List (String × Value)), entriesKeysDistinct es = true →
      ValueMap.get es k = some v → v.keysDistinct = true
  | [], _, hg => by simp [ValueMap.get] at hg
  | (k0, v0) :: es, hd, hg => by
    simp only [entriesKeysDistinct, Bool.and_eq_true] at hd
    by_cases h0 : k0 = k
    · simp only [ValueMap.get, h0, if_true, Option.some.injEq] at hg
      rw [← hg]
      exact hd.1
    · simp only [ValueMap.get, h0, if_false] at hg
      exact entriesKeysDistinct_get k v es hd.2 hg

theorem Heap.assign_some (h : Heap) (d : Nat) (es : GoMap) (k : String) (v : GoValue)
    (hd : h[d]? = some es) :
    Heap.assign h (some d) k v = Except.ok (h.set d (GoMap.set es k v)) := by
  simp only [Heap.assign, hd]

theorem Heap.lookup_some (h : Heap) (d : Nat) (es : GoMap) (k : String) (hd : h[d]? = some es) :
    Heap.lookup h (some d) k = GoMap.get es k := by
  simp only [Heap.lookup, hd]

theorem Heap.getElem?_set_self (h : Heap) (d : Nat) (es x : GoMap) (hd : h[d]? = some es) :
    (h.set d x)[d]? = some x := by
  have hlt : d < h.length := by
    by_contra hcon
    rw [List.getElem?_eq_none (by omega)] at hd
    simp at hd
  simp [List.getElem?_set, hlt]

theorem Heap.getElem?_set_other (h : Heap) (d r : Nat) (x : GoMap) (hne : r ≠ d) :
    (h.set d x)[r]? = h[r]? := by
  rw [List.getElem?_set]
  have hne2 : ¬ d = r := fun e => hne e.symm
  simp [hne2]

/-- The body of the loop of `mergeValues` is one assignment, after a merge
when both values are maps. -/
theorem mergeValuesAt_eq (merge : Heap → Option Nat → Option Nat → Except Panic Heap) (h : Heap)
    (dest : Option Nat) (k : String) (v : GoValue) :
    mergeValuesAt merge h dest k v =
      match v, Heap.lookup h dest k with
      | GoValue.map nextMap, some (GoValue.map destMap) =>
        match merge h destMap nextMap with
        | Except.error e => Except.error e
        | Except.ok h1 => Heap.assign h1 dest k (GoValue.map destMap)
      | _, _ => Heap.assign h dest k v := by
  unfold mergeValuesAt
  cases hl : Heap.lookup h dest k with
  | none => cases v <;> rfl
  | some dv => cases v <;> cases dv <;> rfl

/-- The body of the loop of a merge of trees is one assignment, after a
merge when both values are maps. -/
theorem mergeTreesAt_eq (merge : ValueMap → ValueMap → Option ValueMap) (dest : ValueMap)
    (k : String) (v : Value) :
    mergeTreesAt merge dest k v =
      match v, ValueMap.get dest k with
      | Value.map nextMap, some (Value.map destMap) =>
        match merge destMap nextMap with
        | none => none
        | some m => some (ValueMap.set dest k (Value.map m))
      | _, _ => some (ValueMap.set dest k v) := by
  unfold mergeTreesAt
  cases hl : ValueMap.get dest k with
  | none => cases v <;> rfl
  | some dv => cases v <;> cases dv <;> rfl

/-- A value that reads as a map is a map, and one that reads as no map is
none. -/
theorem denotes_map_iff (b : Bool) (h : Heap) (t : Value) (gv : GoValue)
    (hd : denotes b h t gv = true) :
    (∀ es, t = Value.map es → ∃ r, gv = GoValue.map r) ∧
      (∀ r, gv = GoValue.map r → ∃ es, t = Value.map es) := by
  cases t <;> cases gv <;> simp_all [denotes]

/-- One round of the loop of `mergeValues` on the heap does what the round
of the merge of trees does: it leaves a value that reads as the value of the
tree under the key, and has kept its writing to `dest` and to the owned
objects of the value `dest` held there. -/
theorem mergeValuesAt_refines {b : Bool}
    {mergeH : Heap → Option Nat → Option Nat → Except Panic Heap}
    {mergeT : ValueMap → ValueMap → Option ValueMap} (hrec : MergeRefines b mergeH mergeT)
    {h0 : Heap} {owned : List Nat} {ts : ValueMap} {gsrc : GoMap} {d : Nat} {k : String}
    {ks : List String} {h : Heap} {tcur : ValueMap} {gcur : GoMap}
    (inv : MergeInv b h0 owned ts gsrc d (k :: ks) h tcur gcur)
    (hown : owned.Nodup) (hsep : ∀ r ∈ owned, r ∉ footprintEntries h0 ts gsrc) (hd : d ∈ owned)
    (hkd : entriesKeysDistinct ts = true)
    (v : Value) (gv : GoValue) (hv : ValueMap.get ts k = some v)
    (hden0 : denotes b h0 v gv = true)
    (hfp0 : entryFootprint h0 ts gsrc k = footprint h0 v gv)
    (tcur1 : ValueMap) (hat : mergeTreesAt mergeT tcur k v = some tcur1) :
    ∃ h1 v2 gv2, mergeValuesAt mergeH h (some d) k gv = Except.ok h1 ∧
      tcur1 = ValueMap.set tcur k v2 ∧
      h1[d]? = some (GoMap.set gcur k gv2) ∧
      (∀ r, h1[r]? ≠ h[r]? → r = d ∨ (r ∈ entryFootprint h tcur gcur k ∧ r ∈ owned)) ∧
      denotes b h1 v2 gv2 = true ∧
      ∀ r, List.count r (footprint h1 v2 gv2) ≤
        List.count r (entryFootprint h tcur gcur k) +
          List.count r (entryFootprint h0 ts gsrc k) := by
  have hcd := inv.count_dest_zero hown hsep hd
  have hle := inv.count_owned_le hown hsep
  have hfv : ∀ r ∈ footprint h0 v gv, r ∉ owned := by
    intro r hr hro
    have hpos : 0 < List.count r (entryFootprint h0 ts gsrc k) := by
      rw [hfp0]
      exact List.count_pos_iff.2 hr
    have := count_entryFootprint_le h0 r ts gsrc k
    exact hsep r hro (List.count_pos_iff.1 (by omega))
  have hfrv := denotes_frame b h0 h v gv (fun r hr => inv.outside r (hfv r hr))
  have hdenv : denotes b h v gv = true := hfrv.1.trans hden0
  have hfpv : footprint h v gv = footprint h0 v gv := hfrv.2
  -- the rounds that end in the assignment `dest[k] = v`
  have hassign : ∀ t1, some (ValueMap.set tcur k v) = some t1 →
      ∃ h1 v2 gv2, Heap.assign h (some d) k gv = Except.ok h1 ∧
      t1 = ValueMap.set tcur k v2 ∧
      h1[d]? = some (GoMap.set gcur k gv2) ∧
      (∀ r, h1[r]? ≠ h[r]? → r = d ∨ (r ∈ entryFootprint h tcur gcur k ∧ r ∈ owned)) ∧
      denotes b h1 v2 gv2 = true ∧
      ∀ r, List.count r (footprint h1 v2 gv2) ≤
        List.count r (entryFootprint h tcur gcur k) +
          List.count r (entryFootprint h0 ts gsrc k) := by
    intro t1 ht1
    have hfr : ∀ r ∈ footprint h v gv, (h.set d (GoMap.set gcur k gv))[r]? = h[r]? := by
      intro r hr
      apply Heap.getElem?_set_other
      intro e
      rw [hfpv] at hr
      exact hfv r hr (e ▸ hd)
    have hf := denotes_frame b h (h.set d (GoMap.set gcur k gv)) v gv hfr
    refine ⟨h.set d (GoMap.set gcur k gv), v, gv, Heap.assign_some h d gcur k gv inv.obj,
      (Option.some.inj ht1).symm, Heap.getElem?_set_self h d gcur _ inv.obj, ?_, ?_, ?_⟩
    · intro r hr
      left
      by_contra hne
      exact hr (Heap.getElem?_set_other h d r _ hne)
    · rw [hf.1]
      exact hdenv
    · intro r
      rw [hf.2, hfpv, hfp0]
      omega
  obtain ⟨hnone, hsome⟩ := denotesEntries_get b h k tcur gcur inv.reads
  cases htv : ValueMap.get tcur k with
  | none =>
    simp only [mergeTreesAt, htv] at hat
    simp only [mergeValuesAt, Heap.lookup_some h d gcur k inv.obj, (hnone htv).1]
    exact hassign tcur1 hat
  | some tv =>
    obtain ⟨dv, hdv, hdend, hfpd⟩ := hsome tv htv
    simp only [mergeTreesAt, htv] at hat
    simp only [mergeValuesAt, Heap.lookup_some h d gcur k inv.obj, hdv]
    cases v with
    | str s =>
      cases gv <;> simp [denotes] at hdenv
      exact hassign tcur1 hat
    | scalar s =>
      cases gv <;> simp [denotes] at hdenv
      exact hassign tcur1 hat
    | list xs =>
      cases gv <;> simp only [denotes, Bool.false_eq_true] at hdenv
      exact hassign tcur1 hat
    | map nm =>
      cases gv with
      | str s => simp [denotes] at hdenv
      | scalar s => simp [denotes] at hdenv
      | list gxs => simp [denotes] at hdenv
      | map nr =>
        cases tv with
        | str s =>
          cases dv <;> simp [denotes] at hdend
          exact hassign tcur1 hat
        | scalar s =>
          cases dv <;> simp [denotes] at hdend
          exact hassign tcur1 hat
        | list xs =>
          cases dv <;> simp only [denotes, Bool.false_eq_true] at hdend
          exact hassign tcur1 hat
        | map tdm =>
          cases dv with
          | str s => simp [denotes] at hdend
          | scalar s => simp [denotes] at hdend
          | list gxs => simp [denotes] at hdend
          | map dr =>
            obtain ⟨hown1, hsub⟩ := inv.untouched k (List.mem_cons_self _ _) _ _ htv hdv
            cases dr with
            | none => simp [denotes] at hown1
            | some dm =>
              simp only at hat ⊢
              cases hm : mergeT tdm nm with
              | none => simp [hm] at hat
              | some m =>
                simp only [hm, Option.some.injEq] at hat
                have hcfk : ∀ r, List.count r (footprint h (Value.map tdm)
                    (GoValue.map (some dm))) ≤ List.count r (footprintEntries h tcur gcur) := by
                  intro r
                  rw [← hfpd]
                  exact count_entryFootprint_le h r tcur gcur k
                have hnd : (footprint h (Value.map tdm) (GoValue.map (some dm))).Nodup := by
                  rw [List.nodup_iff_count_le_one]
                  intro r
                  by_cases hr : r ∈ footprint h (Value.map tdm) (GoValue.map (some dm))
                  · have := hle r (hsub r hr)
                    have := hcfk r
                    omega
                  · rw [List.count_eq_zero_of_not_mem hr]
                    omega
                have hdis : ∀ r ∈ footprint h (Value.map tdm) (GoValue.map (some dm)),
                    r ∉ footprint h (Value.map nm) (GoValue.map nr) := by
                  intro r hr hr2
                  rw [hfpv] at hr2
                  exact hfv r hr2 (hsub r hr)
                obtain ⟨h1, hrun, hden1, hout1, hcnt1⟩ := hrec h dm nr tdm nm m hown1 hnd hdenv
                  hdis (entriesKeysDistinct_get k _ ts hkd hv) hm
                have hdfk : d ∉ footprint h (Value.map tdm) (GoValue.map (some dm)) := by
                  intro hmem
                  have hpos := List.count_pos_iff.2 hmem
                  have := hcfk d
                  omega
                have hobj1 : h1[d]? = some gcur := (hout1 d hdfk).trans inv.obj
                have hdfv : d ∉ footprint h (Value.map nm) (GoValue.map nr) := by
                  intro hmem
                  rw [hfpv] at hmem
                  exact hfv d hmem hd
                have hfr : ∀ r ∈ footprint h1 (Value.map m) (GoValue.map (some dm)),
                    (h1.set d (GoMap.set gcur k (GoValue.map (some dm))))[r]? = h1[r]? := by
                  intro r hr
                  apply Heap.getElem?_set_other
                  intro e
                  subst e
                  have hpos := List.count_pos_iff.2 hr
                  have := hcnt1 r
                  rw [List.count_eq_zero_of_not_mem hdfk,
                    List.count_eq_zero_of_not_mem hdfv] at this
                  omega
                have hf := denotes_frame b h1 (h1.set d (GoMap.set gcur k
                  (GoValue.map (some dm)))) (Value.map m) (GoValue.map (some dm)) hfr
                refine ⟨h1.set d (GoMap.set gcur k (GoValue.map (some dm))), Value.map m,
                  GoValue.map (some dm), ?_, hat.symm,
                  Heap.getElem?_set_self h1 d gcur _ hobj1, ?_, ?_, ?_⟩
                · rw [hrun]
                  exact Heap.assign_some h1 d gcur k _ hobj1
                · intro r hr
                  by_cases hrd : r = d
                  · exact Or.inl hrd
                  · right
                    rw [Heap.getElem?_set_other h1 d r _ hrd] at hr
                    have hmem : r ∈ footprint h (Value.map tdm) (GoValue.map (some dm)) := by
                      by_contra hcon
                      exact hr (hout1 r hcon)
                    exact ⟨hfpd ▸ hmem, hsub r hmem⟩
                · rw [hf.1]
                  exact hden1
                · intro r
                  rw [hf.2, hfpd, hfp0, ← hfpv]
                  exact hcnt1 r

/-- The loop of `mergeValues` on the heap does what the loop of the merge of
trees does. -/
theorem mergeValuesLoop_refines {b : Bool}
    {mergeH : Heap → Option Nat → Option Nat → Except Panic Heap}
    {mergeT : ValueMap → ValueMap → Option ValueMap} (hrec : MergeRefines b mergeH mergeT)
    {h0 : Heap} {owned : List Nat} {ts : ValueMap} {gsrc : GoMap} {d s : Nat}
    (hown : owned.Nodup) (hsep : ∀ r ∈ owned, r ∉ footprintEntries h0 ts gsrc) (hd : d ∈ owned)
    (hs : s ∉ owned) (hsobj : h0[s]? = some gsrc) (hsrc : denotesEntries b h0 ts gsrc = true)
    (hkd : entriesKeysDistinct ts = true) :
    ∀ (ks : List String), ks.Nodup → ∀ (h : Heap) (tcur : ValueMap) (gcur : GoMap),
      MergeInv b h0 owned ts gsrc d ks h tcur gcur →
      ∀ tres, mergeTreesLoop mergeT ts ks tcur = some tres →
      ∃ h2 gres, mergeValuesLoop mergeH (some d) s ks h = Except.ok h2 ∧
        MergeInv b h0 owned ts gsrc d [] h2 tres gres
  | [], _, h, tcur, gcur, inv, tres, hres => by
    simp only [mergeTreesLoop, Option.some.injEq] at hres
    subst hres
    exact ⟨h, gcur, rfl, inv⟩
  | k :: ks, hnd, h, tcur, gcur, inv, tres, hres => by
    have hsh : h[s]? = some gsrc := (inv.outside s hs).trans hsobj
    obtain ⟨hnone, hsome⟩ := denotesEntries_get b h0 k ts gsrc hsrc
    simp only [mergeTreesLoop] at hres
    simp only [mergeValuesLoop, Heap.lookup_some h s gsrc k hsh]
    cases hv : ValueMap.get ts k with
    | none =>
      obtain ⟨hg, hf⟩ := hnone hv
      simp only [hv] at hres
      simp only [hg]
      refine mergeValuesLoop_refines hrec hown hsep hd hs hsobj hsrc hkd ks
        (List.nodup_cons.1 hnd).2 h tcur gcur ⟨inv.obj, inv.reads, inv.outside, ?_, ?_⟩ tres hres
      · intro r
        have := inv.budget r
        simpa [footprintOfKeys, hf] using this
      · intro k2 hk2
        exact inv.untouched k2 (List.mem_cons_of_mem _ hk2)
    | some v =>
      obtain ⟨gv, hg, hden0, hfp0⟩ := hsome v hv
      simp only [hv] at hres
      simp only [hg]
      cases hat : mergeTreesAt mergeT tcur k v with
      | none => simp [hat] at hres
      | some tcur1 =>
        simp only [hat] at hres
        obtain ⟨h1, v2, gv2, hrun, htc, hobj, hwr, hnew, hcount⟩ :=
          mergeValuesAt_refines hrec inv hown hsep hd hkd v gv hv hden0 hfp0 tcur1 hat
        simp only [hrun]
        subst htc
        exact mergeValuesLoop_refines hrec hown hsep hd hs hsobj hsrc hkd ks
          (List.nodup_cons.1 hnd).2 h1 _ _
          (inv.step hown hsep hd hnd h1 v2 gv2 hobj hwr hnew hcount) tres hres

/-- On a destination that is a tree of map objects of its own, apart from
the source, `mergeValues` on the heap does what the merge of trees does, for
every order of ranging over the keys and every bound on the depth. -/
theorem mergeValues_refines (range : List String → List String)
    (hrange : ∀ ks : List String, ks.Nodup → (range ks).Perm ks) (b : Bool) :
    ∀ (fuel : Nat), MergeRefines b (mergeValues range fuel) (mergeTrees range fuel)
  | 0 => by
    intro h d src td ts tres _ _ _ _ _ hmt
    simp [mergeTrees] at hmt
  | fuel + 1 => by
    intro h d src td ts tres hdd hnd hds hdis hkd hmt
    have hrec := mergeValues_refines range hrange b fuel
    obtain ⟨gd, hgd, hed⟩ := (denotes_map_some false h td d).1 hdd
    have hfd := footprint_map_some h td d gd hgd
    simp only [mergeTrees] at hmt
    cases src with
    | none =>
      have hts : ts = [] := by
        simp only [denotes, Bool.and_eq_true, List.isEmpty_iff] at hds
        exact hds.2
      subst hts
      have hr : range (ValueMap.keys []) = [] := (hrange [] List.nodup_nil).eq_nil
      rw [hr] at hmt
      simp only [mergeTreesLoop, Option.some.injEq] at hmt
      subst hmt
      refine ⟨h, by simp [mergeValues], denotes_mono b h _ _ hdd, fun _ _ => rfl, ?_⟩
      intro r
      omega
    | some s =>
      obtain ⟨gsrc, hgs, hes⟩ := (denotes_map_some b h ts s).1 hds
      have hfs := footprint_map_some h ts s gsrc hgs
      rw [hfd] at hnd hdis
      rw [hfs] at hdis
      simp only [Value.keysDistinct, Bool.and_eq_true, decide_eq_true_eq] at hkd
      have hks : (range (ValueMap.keys ts)).Nodup := (hrange _ hkd.1).nodup_iff.2 hkd.1
      have hsep : ∀ r ∈ d :: footprintEntries h td gd, r ∉ footprintEntries h ts gsrc :=
        fun r hr hr2 => hdis r hr (List.mem_cons_of_mem _ hr2)
      have hs : s ∉ d :: footprintEntries h td gd :=
        fun hmem => hdis s hmem (List.mem_cons_self _ _)
      have inv : MergeInv b h (d :: footprintEntries h td gd) ts gsrc d
          (range (ValueMap.keys ts)) h td gd := by
        refine ⟨hgd, denotesEntries_mono b h td gd hed, fun _ _ => rfl, ?_, ?_⟩
        · intro r
          have := count_footprintOfKeys_le h r ts gsrc _ hks
          omega
        · intro k _ v gv hv hgv
          obtain ⟨gv1, hgv1, hden, hfp⟩ := (denotesEntries_get false h k td gd hed).2 v hv
          rw [hgv] at hgv1
          simp only [Option.some.injEq] at hgv1
          subst hgv1
          refine ⟨hden, fun r hr => ?_⟩
          have hpos : 0 < List.count r (entryFootprint h td gd k) := by
            rw [hfp]
            exact List.count_pos_iff.2 hr
          have := count_entryFootprint_le h r td gd k
          exact List.mem_cons_of_mem _ (List.count_pos_iff.1 (by omega))
      obtain ⟨h2, gres, hrun, inv2⟩ := mergeValuesLoop_refines hrec hnd hsep
        (List.mem_cons_self _ _) hs hgs hes hkd.2 _ hks h td gd inv tres hmt
      refine ⟨h2, ?_, (denotes_map_some b h2 tres d).2 ⟨gres, inv2.obj, inv2.reads⟩, ?_, ?_⟩
      · simp only [mergeValues, hgs, denotesEntries_keys b h ts gsrc hes]
        exact hrun
      · rw [hfd]
        exact inv2.outside
      · intro r
        rw [footprint_map_some h2 tres d gres inv2.obj, hfd, hfs]
        have := inv2.budget r
        simp only [footprintOfKeys, List.count_nil, Nat.add_zero] at this
        have h4 : List.count r (footprintEntries h ts gsrc) ≤
            List.count r (s :: footprintEntries h ts gsrc) := by
          rw [List.count_cons]
          omega
        omega

theorem mergeTreesAt_eq_mergedTree (merge : ValueMap → ValueMap → Option ValueMap)
    (dest : ValueMap) (k : String) (v : Value) :
    mergeTreesAt merge dest k v =
      match mergedTree merge dest k v with
      | none => none
      | some v2 => some (ValueMap.set dest k v2) := by
  rw [mergeTreesAt_eq]
  unfold mergedTree
  cases v with
  | map nm =>
    cases hg : ValueMap.get dest k with
    | none => rfl
    | some dv =>
      cases dv with
      | map dm =>
        simp only
        cases merge dm nm <;> rfl
      | str s => rfl
      | scalar s => rfl
      | list xs => rfl
  | str s => rfl
  | scalar s => rfl
  | list xs => rfl

theorem mergedTree_congr (merge : ValueMap → ValueMap → Option ValueMap) (d1 d2 : ValueMap)
    (k : String) (v : Value) (h : ValueMap.get d1 k = ValueMap.get d2 k) :
    mergedTree merge d1 k v = mergedTree merge d2 k v := by
  unfold mergedTree
  rw [h]

/-- What the loop of the merge of trees leaves under each key, for distinct
keys to go through. -/
theorem mergeTreesLoop_get (merge : ValueMap → ValueMap → Option ValueMap) (src : ValueMap) :
    ∀ (ks : List String), ks.Nodup → ∀ (dest tres : ValueMap),
      mergeTreesLoop merge src ks dest = some tres → ∀ k,
      ValueMap.get tres k =
        if k ∈ ks then
          match ValueMap.get src k with
          | none => ValueMap.get dest k
          | some v => mergedTree merge dest k v
        else ValueMap.get dest k
  | [], _, dest, tres, h, k => by
    simp only [mergeTreesLoop, Option.some.injEq] at h
    simp [h]
  | k0 :: ks, hnd, dest, tres, h, k => by
    have hnd2 := List.nodup_cons.1 hnd
    simp only [mergeTreesLoop] at h
    cases hv : ValueMap.get src k0 with
    | none =>
      simp only [hv] at h
      rw [mergeTreesLoop_get merge src ks hnd2.2 dest tres h k]
      by_cases hk : k = k0
      · subst hk
        simp [hnd2.1, hv]
      · simp [hk]
    | some v =>
      simp only [hv, mergeTreesAt_eq_mergedTree] at h
      cases hm : mergedTree merge dest k0 v with
      | none => simp [hm] at h
      | some v2 =>
        simp only [hm] at h
        rw [mergeTreesLoop_get merge src ks hnd2.2 _ tres h k]
        by_cases hk : k = k0
        · subst hk
          simp [hnd2.1, hv, hm, ValueMap.lookup_set]
        · have hk2 : ¬ k0 = k := fun e => hk e.symm
          have hget : ValueMap.get (ValueMap.set dest k0 v2) k = ValueMap.get dest k := by
            rw [ValueMap.lookup_set, if_neg hk2]
          simp only [List.mem_cons, hk, false_or, hget]
          split
          · cases hs : ValueMap.get src k with
            | none => rfl
            | some w => exact mergedTree_congr merge _ _ k w hget
          · rfl

/-- The keys the loop of the merge of trees leaves. -/
theorem mergeTreesLoop_keys (merge : ValueMap → ValueMap → Option ValueMap) (src : ValueMap) :
    ∀ (ks : List String) (dest tres : ValueMap),
      mergeTreesLoop merge src ks dest = some tres → ∀ k,
      (k ∈ ValueMap.keys tres ↔ k ∈ ValueMap.keys dest ∨ (k ∈ ks ∧ k ∈ ValueMap.keys src))
  | [], dest, tres, h, k => by
    simp only [mergeTreesLoop, Option.some.injEq] at h
    simp [h]
  | k0 :: ks, dest, tres, h, k => by
    simp only [mergeTreesLoop] at h
    cases hv : ValueMap.get src k0 with
    | none =>
      simp only [hv] at h
      rw [mergeTreesLoop_keys merge src ks dest tres h k]
      have hk0 : k0 ∉ ValueMap.keys src := (ValueMap.lookup_eq_none_iff k0 src).1 hv
      constructor
      · rintro (h1 | ⟨h1, h2⟩)
        · exact Or.inl h1
        · exact Or.inr ⟨List.mem_cons_of_mem _ h1, h2⟩
      · rintro (h1 | ⟨h1, h2⟩)
        · exact Or.inl h1
        · rcases List.mem_cons.1 h1 with h3 | h3
          · exact absurd (h3 ▸ h2) hk0
          · exact Or.inr ⟨h3, h2⟩
    | some v =>
      simp only [hv, mergeTreesAt_eq_mergedTree] at h
      cases hm : mergedTree merge dest k0 v with
      | none => simp [hm] at h
      | some v2 =>
        simp only [hm] at h
        rw [mergeTreesLoop_keys merge src ks _ tres h k]
        have hk0 : k0 ∈ ValueMap.keys src := (ValueMap.mem_keys_iff_lookup k0 src).2 ⟨v, hv⟩
        have hset : k ∈ ValueMap.keys (ValueMap.set dest k0 v2) ↔
            k ∈ ValueMap.keys dest ∨ k = k0 := by
          rw [ValueMap.mem_keys_iff_lookup, ValueMap.mem_keys_iff_lookup, ValueMap.lookup_set]
          by_cases hk : k0 = k
          · simp [hk]
          · have hk2 : ¬ k = k0 := fun e => hk e.symm
            simp [hk, hk2]
        rw [hset]
        constructor
        · rintro ((h1 | h1) | ⟨h1, h2⟩)
          · exact Or.inl h1
          · exact Or.inr ⟨h1 ▸ List.mem_cons_self _ _, h1 ▸ hk0⟩
          · exact Or.inr ⟨List.mem_cons_of_mem _ h1, h2⟩
        · rintro (h1 | ⟨h1, h2⟩)
          · exact Or.inl (Or.inl h1)
          · rcases List.mem_cons.1 h1 with h3 | h3
            · exact Or.inl (Or.inr h3)
            · exact Or.inr ⟨h3, h2⟩

/-- Under each key the merge of two trees leaves the value of `dest` when
`src` holds nothing there, and else the value of `src`, or the merge of the
two values when both are maps. -/
theorem mergeTrees_get (range : List String → List String)
    (hrange : ∀ ks : List String, ks.Nodup → (range ks).Perm ks) (fuel : Nat)
    (dest src tres : ValueMap) (hnd : (ValueMap.keys src).Nodup)
    (h : mergeTrees range (fuel + 1) dest src = some tres) (k : String) :
    ValueMap.get tres k =
      match ValueMap.get src k with
      | none => ValueMap.get dest k
      | some v => mergedTree (mergeTrees range fuel) dest k v := by
  simp only [mergeTrees] at h
  have hp := hrange _ hnd
  rw [mergeTreesLoop_get _ src _ (hp.nodup_iff.2 hnd) dest tres h k]
  by_cases hk : k ∈ range (ValueMap.keys src)
  · simp [hk]
  · have hk2 : k ∉ ValueMap.keys src := fun hmem => hk (hp.mem_iff.2 hmem)
    rw [if_neg hk, (ValueMap.lookup_eq_none_iff k src).2 hk2]

/-- The keys of the merge of two trees are the keys of both. -/
theorem mergeTrees_keys (range : List String → List String)
    (hrange : ∀ ks : List String, ks.Nodup → (range ks).Perm ks) (fuel : Nat)
    (dest src tres : ValueMap) (hnd : (ValueMap.keys src).Nodup)
    (h : mergeTrees range (fuel + 1) dest src = some tres) (k : String) :
    k ∈ ValueMap.keys tres ↔ k ∈ ValueMap.keys dest ∨ k ∈ ValueMap.keys src := by
  simp only [mergeTrees] at h
  have hp := hrange _ hnd
  rw [mergeTreesLoop_keys _ src _ dest tres h k]
  constructor
  · rintro (h1 | ⟨_, h2⟩)
    · exact Or.inl h1
    · exact Or.inr h2
  · rintro (h1 | h2)
    · exact Or.inl h1
    · exact Or.inr ⟨hp.mem_iff.2 h2, h2⟩

theorem mapDepth_le_entriesDepth (k : String) (v : Value) :
    ∀ (es : List (String × Value)), ValueMap.get es k = some v →
      v.mapDepth ≤ entriesDepth es
  | [], h => by simp [ValueMap.get] at h
  | (k0, v0) :: es, h => by
    simp only [entriesDepth]
    by_cases h0 : k0 = k
    · simp only [ValueMap.get, h0, if_true, Option.some.injEq] at h
      rw [h]
      exact Nat.le_max_left _ _
    · simp only [ValueMap.get, h0, if_false] at h
      exact le_trans (mapDepth_le_entriesDepth k v es h) (Nat.le_max_right _ _)

theorem mergeTreesLoop_some (merge : ValueMap → ValueMap → Option ValueMap) (src : ValueMap)
    (hm : ∀ k nm dm, ValueMap.get src k = some (Value.map nm) → ∃ m, merge dm nm = some m) :
    ∀ (ks : List String) (dest : ValueMap), ∃ tres, mergeTreesLoop merge src ks dest = some tres
  | [], dest => ⟨dest, rfl⟩
  | k :: ks, dest => by
    simp only [mergeTreesLoop]
    cases hv : ValueMap.get src k with
    | none => exact mergeTreesLoop_some merge src hm ks dest
    | some v =>
      have hat : ∃ d1, mergeTreesAt merge dest k v = some d1 := by
        rw [mergeTreesAt_eq_mergedTree]
        unfold mergedTree
        cases v with
        | map nm =>
          cases hg : ValueMap.get dest k with
          | none => exact ⟨_, rfl⟩
          | some dv =>
            cases dv with
            | map dm =>
              obtain ⟨m, hm1⟩ := hm k nm dm hv
              simp only [hm1]
              exact ⟨_, rfl⟩
            | str s => exact ⟨_, rfl⟩
            | scalar s => exact ⟨_, rfl⟩
            | list xs => exact ⟨_, rfl⟩
        | str s => exact ⟨_, rfl⟩
        | scalar s => exact ⟨_, rfl⟩
        | list xs => exact ⟨_, rfl⟩
      obtain ⟨d1, hd1⟩ := hat
      simp only [hd1]
      exact mergeTreesLoop_some merge src hm ks d1

/-- The merge of two trees gives a tree when the bound is no less than the
depth of the nesting of `src`. -/
theorem mergeTrees_some (range : List String → List String) :
    ∀ (fuel : Nat) (dest src : ValueMap), (Value.map src).mapDepth ≤ fuel →
      ∃ tres, mergeTrees range fuel dest src = some tres
  | 0, _, src, h => by simp [Value.mapDepth] at h
  | fuel + 1, dest, src, h => by
    simp only [mergeTrees]
    apply mergeTreesLoop_some
    intro k nm dm hk
    apply mergeTrees_some range fuel dm nm
    have := mapDepth_le_entriesDepth k _ src hk
    simp only [Value.mapDepth] at h this ⊢
    omega

theorem mergeTreesLoop_mono (m1 m2 : ValueMap → ValueMap → Option ValueMap) (src : ValueMap)
    (hm : ∀ d s r, m1 d s = some r → m2 d s = some r) :
    ∀ (ks : List String) (dest tres : ValueMap),
      mergeTreesLoop m1 src ks dest = some tres → mergeTreesLoop m2 src ks dest = some tres
  | [], dest, tres, h => h
  | k :: ks, dest, tres, h => by
    simp only [mergeTreesLoop] at h ⊢
    cases hv : ValueMap.get src k with
    | none =>
      simp only [hv] at h ⊢
      exact mergeTreesLoop_mono m1 m2 src hm ks dest tres h
    | some v =>
      simp only [hv] at h ⊢
      cases hat : mergeTreesAt m1 dest k v with
      | none => simp [hat] at h
      | some d1 =>
        simp only [hat] at h
        have hat2 : mergeTreesAt m2 dest k v = some d1 := by
          rw [mergeTreesAt_eq] at hat ⊢
          cases v with
          | map nm =>
            cases hg : ValueMap.get dest k with
            | none => simpa [hg] using hat
            | some dv =>
              cases dv with
              | map dm =>
                simp only [hg] at hat ⊢
                cases h1 : m1 dm nm with
                | none => simp [h1] at hat
                | some r =>
                  simp only [h1] at hat
                  simp only [hm dm nm r h1]
                  exact hat
              | str s => simpa [hg] using hat
              | scalar s => simpa [hg] using hat
              | list xs => simpa [hg] using hat
          | str s => exact hat
          | scalar s => exact hat
          | list xs => exact hat
        simp only [hat2]
        exact mergeTreesLoop_mono m1 m2 src hm ks d1 tres h

/-- A greater bound does not change the merge of two trees. -/
theorem mergeTrees_mono (range : List String → List String) :
    ∀ (f1 f2 : Nat) (dest src tres : ValueMap), f1 ≤ f2 →
      mergeTrees range f1 dest src = some tres → mergeTrees range f2 dest src = some tres
  | 0, _, _, _, _, _, h => by simp [mergeTrees] at h
  | f1 + 1, 0, _, _, _, hle, _ => by omega
  | f1 + 1, f2 + 1, dest, src, tres, hle, h => by
    simp only [mergeTrees] at h ⊢
    exact mergeTreesLoop_mono _ _ src
      (fun d s r hr => mergeTrees_mono range f1 f2 d s r (by omega) hr) _ dest tres h

/-- Claim C16 as stated fails on maps that are not trees of their own. With
`dest` holding one map `{p}` under both "a" and "b" and `src` holding `{y}`
under "a" and `{q}` under "b", `mergeValues` writes both merges into that
one map: "a" and "b" end with `{p, y, q}`, where `mergeValues` of the two
values under "a" leaves `{p, y}`. With `dest` the nil map and `src` not
empty, `mergeValues` panics, and so it does with `dest` holding the nil map
under "a" and `src` holding `{y}` there. And with `src` holding under "b"
the map `{p}` that `dest` holds under "a", the key "b", which only `src`
holds, ends with `{p, y}`. -/
theorem mergeValues_shared_counterexample :
    mergeValues (fun ks => ks) 2 sharedHeap (some 0) (some 2) =
      Except.ok [[("a", GoValue.map (some 1)), ("b", GoValue.map (some 1))],
        [("p", GoValue.str "1"), ("y", GoValue.str "2"), ("q", GoValue.str "3")],
        [("a", GoValue.map (some 3)), ("b", GoValue.map (some 4))],
        [("y", GoValue.str "2")],
        [("q", GoValue.str "3")]] ∧
    mergeValues (fun ks => ks) 1 sharedHeap (some 1) (some 3) =
      Except.ok [[("a", GoValue.map (some 1)), ("b", GoValue.map (some 1))],
        [("p", GoValue.str "1"), ("y", GoValue.str "2")],
        [("a", GoValue.map (some 3)), ("b", GoValue.map (some 4))],
        [("y", GoValue.str "2")],
        [("q", GoValue.str "3")]] ∧
    mergeValues (fun ks => ks) 2 sharedHeap none (some 2) = Except.error Panic.nilMap ∧
    mergeValues (fun ks => ks) 2 nilHeap (some 0) (some 1) = Except.error Panic.nilMap ∧
    mergeValues (fun ks => ks) 2 crossedHeap (some 0) (some 2) =
      Except.ok [[("a", GoValue.map (some 1)), ("b", GoValue.map (some 1))],
        [("p", GoValue.str "1"), ("y", GoValue.str "2")],
        [("a", GoValue.map (some 3)), ("b", GoValue.map (some 1))],
        [("y", GoValue.str "2")]] :=
  ⟨rfl, rfl, rfl, rfl, rfl⟩

/-- Claim C16, as amended: let `dest` be a map that is not nil and reads as
a tree `td` without nil maps in which no map object is met twice, let `src`
read as a tree `ts` (nil maps let in or not) whose maps have distinct keys,
as every Go map has, and let no map object of `dest` be met in `src`. Then
for every order of ranging over the keys and every bound no less than the
depth of `src`, `mergeValues(dest, src)` returns, and `dest` then reads as
a tree `tres` whose keys are the keys of `td` together with the keys of
`ts`; a key only in `td` keeps its value, a key only in `ts` takes the value
of `ts`, and a key in both takes the value of `ts` unless both values are
maps, in which case it takes the tree that `mergeValues` of the two values
leaves. -/
theorem mergeValues_spec (range : List String → List String)
    (hrange : ∀ ks : List String, ks.Nodup → (range ks).Perm ks) (b : Bool)
    (h : Heap) (d : Nat) (src : Option Nat) (td ts : ValueMap)
    (hdest : denotes false h (Value.map td) (GoValue.map (some d)) = true)
    (htree : (footprint h (Value.map td) (GoValue.map (some d))).Nodup)
    (hsrc : denotes b h (Value.map ts) (GoValue.map src) = true)
    (hapart : ∀ r ∈ footprint h (Value.map td) (GoValue.map (some d)),
      r ∉ footprint h (Value.map ts) (GoValue.map src))
    (hkeys : (Value.map ts).keysDistinct = true)
    (fuel : Nat) (hfuel : (Value.map ts).mapDepth ≤ fuel) :
    ∃ h2 tres, mergeValues range fuel h (some d) src = Except.ok h2 ∧
      denotes b h2 (Value.map tres) (GoValue.map (some d)) = true ∧
      (∀ k, k ∈ ValueMap.keys tres ↔ k ∈ ValueMap.keys td ∨ k ∈ ValueMap.keys ts) ∧
      (∀ k, ValueMap.get ts k = none → ValueMap.get tres k = ValueMap.get td k) ∧
      (∀ k v, ValueMap.get ts k = some v → ValueMap.get td k = none →
        ValueMap.get tres k = some v) ∧
      (∀ k v dv, ValueMap.get ts k = some v → ValueMap.get td k = some dv →
        ¬ (v.isMap = true ∧ dv.isMap = true) → ValueMap.get tres k = some v) ∧
      (∀ k nextMap destMap, ValueMap.get ts k = some (Value.map nextMap) →
        ValueMap.get td k = some (Value.map destMap) →
        ∃ rd rn m, Heap.lookup h (some d) k = some (GoValue.map (some rd)) ∧
          Heap.lookup h src k = some (GoValue.map rn) ∧
          ValueMap.get tres k = some (Value.map m) ∧
          ∀ fuel2, (Value.map nextMap).mapDepth ≤ fuel2 →
            ∃ h3, mergeValues range fuel2 h (some rd) rn = Except.ok h3 ∧
              denotes b h3 (Value.map m) (GoValue.map (some rd)) = true) := by
  obtain ⟨tres, hmt⟩ := mergeTrees_some range fuel td ts hfuel
  obtain ⟨h2, hrun, hden, _, _⟩ := mergeValues_refines range hrange b fuel h d src td ts tres
    hdest htree hsrc hapart hkeys hmt
  cases fuel with
  | zero => simp [mergeTrees] at hmt
  | succ f =>
    have hkd := hkeys
    simp only [Value.keysDistinct, Bool.and_eq_true, decide_eq_true_eq] at hkd
    have hget := mergeTrees_get range hrange f td ts tres hkd.1 hmt
    refine ⟨h2, tres, hrun, hden, mergeTrees_keys range hrange f td ts tres hkd.1 hmt,
      ?_, ?_, ?_, ?_⟩
    · intro k hs
      rw [hget k, hs]
    · intro k v hs hd
      rw [hget k, hs]
      unfold mergedTree
      cases v <;> simp [hd]
    · intro k v dv hs hd hnot
      rw [hget k, hs]
      unfold mergedTree
      cases v with
      | map nm =>
        cases dv with
        | map dm => simp [Value.isMap] at hnot
        | str s => simp [hd]
        | scalar s => simp [hd]
        | list xs => simp [hd]
      | str s => rfl
      | scalar s => rfl
      | list xs => rfl
    · intro k nm dm hs hd
      obtain ⟨gd, hgd, hed⟩ := (denotes_map_some false h td d).1 hdest
      have hfd := footprint_map_some h td d gd hgd
      obtain ⟨gdv, hgdv, hdend, hfpd⟩ := (denotesEntries_get false h k td gd hed).2 _ hd
      have hdepth : (Value.map nm).mapDepth ≤ f := by
        have := mapDepth_le_entriesDepth k _ ts hs
        simp only [Value.mapDepth] at hfuel this ⊢
        omega
      obtain ⟨m, hm⟩ := mergeTrees_some range f dm nm hdepth
      cases src with
      | none =>
        simp only [denotes, Bool.and_eq_true, List.isEmpty_iff] at hsrc
        rw [hsrc.2] at hs
        simp [ValueMap.get] at hs
      | some s =>
        obtain ⟨gsrc, hgs, hes⟩ := (denotes_map_some b h ts s).1 hsrc
        have hfs := footprint_map_some h ts s gsrc hgs
        obtain ⟨gnv, hgnv, hdenn, hfpn⟩ := (denotesEntries_get b h k ts gsrc hes).2 _ hs
        cases gdv with
        | str x => simp [denotes] at hdend
        | scalar x => simp [denotes] at hdend
        | list xs => simp [denotes] at hdend
        | map dr =>
          cases dr with
          | none => simp [denotes] at hdend
          | some rd =>
            cases gnv with
            | str x => simp [denotes] at hdenn
            | scalar x => simp [denotes] at hdenn
            | list xs => simp [denotes] at hdenn
            | map rn =>
              refine ⟨rd, rn, m, ?_, ?_, ?_, ?_⟩
              · rw [Heap.lookup_some h d gd k hgd, hgdv]
              · rw [Heap.lookup_some h s gsrc k hgs, hgnv]
              · rw [hget k, hs]
                simp only [mergedTree, hd, hm]
              · intro fuel2 hf2
                have hm2 : mergeTrees range fuel2 dm nm = some m := by
                  rcases Nat.le_total f fuel2 with hle | hle
                  · exact mergeTrees_mono range f fuel2 dm nm m hle hm
                  · obtain ⟨m2, hm2⟩ := mergeTrees_some range fuel2 dm nm hf2
                    have := mergeTrees_mono range fuel2 f dm nm m2 hle hm2
                    rw [hm] at this
                    rw [hm2, Option.some.inj this]
                have hcd : ∀ r, List.count r (footprint h (Value.map dm)
                    (GoValue.map (some rd))) ≤
                    List.count r (footprint h (Value.map td) (GoValue.map (some d))) := by
                  intro r
                  rw [← hfpd, hfd, List.count_cons]
                  have := count_entryFootprint_le h r td gd k
                  omega
                have hcs : ∀ r, List.count r (footprint h (Value.map nm) (GoValue.map rn)) ≤
                    List.count r (footprint h (Value.map ts) (GoValue.map (some s))) := by
                  intro r
                  rw [← hfpn, hfs, List.count_cons]
                  have := count_entryFootprint_le h r ts gsrc k
                  omega
                have hnd : (footprint h (Value.map dm) (GoValue.map (some rd))).Nodup := by
                  rw [List.nodup_iff_count_le_one] at htree ⊢
                  exact fun r => le_trans (hcd r) (htree r)
                have hdis : ∀ r ∈ footprint h (Value.map dm) (GoValue.map (some rd)),
                    r ∉ footprint h (Value.map nm) (GoValue.map rn) := by
                  intro r hr hr2
                  have h1 := List.count_pos_iff.2 hr
                  have h2 := List.count_pos_iff.2 hr2
                  have h3 := hcd r
                  have h4 := hcs r
                  exact hapart r (List.count_pos_iff.1 (by omega)) (List.count_pos_iff.1 (by omega))
                obtain ⟨h3, hrun3, hden3, _, _⟩ := mergeValues_refines range hrange b fuel2 h rd rn
                  dm nm m hdend hnd hdenn hdis (entriesKeysDistinct_get k _ ts hkd.2 hs) hm2
                exact ⟨h3, hrun3, hden3⟩

/-- Witness for claim C16, as amended: a destination and a source, trees of
their own, that share the key "b", a map in both. -/
theorem mergeValues_spec_witness :
    ∃ h2 tres, mergeValues (fun ks => ks) 2 treeHeap (some 0) (some 2) = Except.ok h2 ∧
      denotes false h2 (Value.map tres) (GoValue.map (some 0)) = true ∧
      (∀ k, k ∈ ValueMap.keys tres ↔
        k ∈ ValueMap.keys [("a", Value.str "1"), ("b", Value.map [("c", Value.str "2")])] ∨
          k ∈ ValueMap.keys [("b", Value.map [("d", Value.str "3")])]) ∧
      (∀ k, ValueMap.get [("b", Value.map [("d", Value.str "3")])] k = none →
        ValueMap.get tres k =
          ValueMap.get [("a", Value.str "1"), ("b", Value.map [("c", Value.str "2")])] k) ∧
      (∀ k v, ValueMap.get [("b", Value.map [("d", Value.str "3")])] k = some v →
        ValueMap.get [("a", Value.str "1"), ("b", Value.map [("c", Value.str "2")])] k = none →
        ValueMap.get tres k = some v) ∧
      (∀ k v dv, ValueMap.get [("b", Value.map [("d", Value.str "3")])] k = some v →
        ValueMap.get [("a", Value.str "1"), ("b", Value.map [("c", Value.str "2")])] k = some dv →
        ¬ (v.isMap = true ∧ dv.isMap = true) → ValueMap.get tres k = some v) ∧
      (∀ k nextMap destMap,
        ValueMap.get [("b", Value.map [("d", Value.str "3")])] k = some (Value.map nextMap) →
        ValueMap.get [("a", Value.str "1"), ("b", Value.map [("c", Value.str "2")])] k =
          some (Value.map destMap) →
        ∃ rd rn m, Heap.lookup treeHeap (some 0) k = some (GoValue.map (some rd)) ∧
          Heap.lookup treeHeap (some 2) k = some (GoValue.map rn) ∧
          ValueMap.get tres k = some (Value.map m) ∧
          ∀ fuel2, (Value.map nextMap).mapDepth ≤ fuel2 →
            ∃ h3, mergeValues (fun ks => ks) fuel2 treeHeap (some rd) rn = Except.ok h3 ∧
              denotes false h3 (Value.map m) (GoValue.map (some rd)) = true) :=
  mergeValues_spec (fun ks => ks) (fun _ _ => List.Perm.refl _) false treeHeap 0 (some 2)
    [("a", Value.str "1"), ("b", Value.map [("c", Value.str "2")])]
    [("b", Value.map [("d", Value.str "3")])] rfl (by decide) rfl (by decide) rfl 2 (by decide)

theorem Heap.getElem?_append_old (h ext : Heap) (r : Nat) (hr : r < h.length) :
    (h ++ ext)[r]? = h[r]? :=
  List.getElem?_append_left hr

mutual
/-- A value built of new map objects reads as the tree it is built from,
without nil maps; its map objects are new, and none is met twice. The
objects there before are as they were. -/
theorem allocValue_spec :
    ∀ (v : Value) (h : Heap), ∃ ext, (allocValue h v).1 = h ++ ext ∧
      denotes false (allocValue h v).1 v (allocValue h v).2 = true ∧
      (footprint (allocValue h v).1 v (allocValue h v).2).Nodup ∧
      ∀ r ∈ footprint (allocValue h v).1 v (allocValue h v).2, h.length ≤ r
  | Value.str s, h => ⟨[], by simp [allocValue, denotes, footprint]⟩
  | Value.scalar s, h => ⟨[], by simp [allocValue, denotes, footprint]⟩
  | Value.list xs, h => by
    obtain ⟨ext, h1, h2, h3, h4⟩ := allocList_spec xs h
    refine ⟨ext, ?_, ?_, ?_, ?_⟩
    · simpa [allocValue] using h1
    · simpa [allocValue, denotes] using h2
    · simpa [allocValue, footprint] using h3
    · simpa [allocValue, footprint] using h4
  | Value.map es, h => by
    obtain ⟨ext, h1, h2, h3, h4⟩ := allocEntries_spec es h
    have hlt := footprintEntries_lt false _ es _ h2
    have hobj : ((allocEntries h es).1 ++ [(allocEntries h es).2])[(allocEntries h es).1.length]? =
        some (allocEntries h es).2 := by simp
    have hf := denotesEntries_frame false (allocEntries h es).1
      ((allocEntries h es).1 ++ [(allocEntries h es).2]) es (allocEntries h es).2
      (fun r hr => Heap.getElem?_append_old _ _ r (hlt r hr))
    have hval : allocValue h (Value.map es) = ((allocEntries h es).1 ++ [(allocEntries h es).2],
        GoValue.map (some (allocEntries h es).1.length)) := by
      simp only [allocValue]
    rw [hval]
    refine ⟨ext ++ [(allocEntries h es).2], ?_, ?_, ?_, ?_⟩
    · simp [h1]
    · simp only [denotes, hobj, hf.1, h2]
    · simp only [footprint, hobj, hf.2, List.nodup_cons]
      exact ⟨fun hmem => Nat.lt_irrefl _ (hlt _ hmem), h3⟩
    · simp only [footprint, hobj, hf.2]
      intro r hr
      rcases List.mem_cons.1 hr with hr | hr
      · rw [hr, h1]
        simp
      · exact h4 r hr
theorem allocEntries_spec :
    ∀ (es : List (String × Value)) (h : Heap), ∃ ext, (allocEntries h es).1 = h ++ ext ∧
      denotesEntries false (allocEntries h es).1 es (allocEntries h es).2 = true ∧
      (footprintEntries (allocEntries h es).1 es (allocEntries h es).2).Nodup ∧
      ∀ r ∈ footprintEntries (allocEntries h es).1 es (allocEntries h es).2, h.length ≤ r
  | [], h => ⟨[], by simp [allocEntries, denotesEntries, footprintEntries]⟩
  | (k, v) :: es, h => by
    obtain ⟨ext1, a1, a2, a3, a4⟩ := allocValue_spec v h
    obtain ⟨ext2, b1, b2, b3, b4⟩ := allocEntries_spec es (allocValue h v).1
    have hval : allocEntries h ((k, v) :: es) = ((allocEntries (allocValue h v).1 es).1,
        (k, (allocValue h v).2) :: (allocEntries (allocValue h v).1 es).2) := by
      simp only [allocEntries]
    have hlt := footprint_lt false _ v _ a2
    have hf := denotes_frame false (allocValue h v).1 (allocEntries (allocValue h v).1 es).1 v
      (allocValue h v).2 (fun r hr => by
        rw [b1]
        exact Heap.getElem?_append_old _ _ r (hlt r hr))
    rw [hval]
    refine ⟨ext1 ++ ext2, ?_, ?_, ?_, ?_⟩
    · show _ = h ++ (ext1 ++ ext2)
      rw [← List.append_assoc, ← a1]
      exact b1
    · simp only [denotesEntries, decide_True, Bool.true_and, Bool.and_eq_true]
      exact ⟨hf.1.trans a2, b2⟩
    · simp only [footprintEntries, hf.2]
      rw [List.nodup_append]
      refine ⟨a3, b3, ?_⟩
      intro r hr1 hr2
      have := hlt r hr1
      have := b4 r hr2
      omega
    · simp only [footprintEntries, hf.2]
      intro r hr
      rcases List.mem_append.1 hr with hr | hr
      · exact a4 r hr
      · have := b4 r hr
        rw [a1] at this
        simp only [List.length_append] at this
        omega
theorem allocList_spec :
    ∀ (xs : List Value) (h : Heap), ∃ ext, (allocList h xs).1 = h ++ ext ∧
      denotesList false (allocList h xs).1 xs (allocList h xs).2 = true ∧
      (footprintList (allocList h xs).1 xs (allocList h xs).2).Nodup ∧
      ∀ r ∈ footprintList (allocList h xs).1 xs (allocList h xs).2, h.length ≤ r
  | [], h => ⟨[], by simp [allocList, denotesList, footprintList]⟩
  | v :: xs, h => by
    obtain ⟨ext1, a1, a2, a3, a4⟩ := allocValue_spec v h
    obtain ⟨ext2, b1, b2, b3, b4⟩ := allocList_spec xs (allocValue h v).1
    have hval : allocList h (v :: xs) = ((allocList (allocValue h v).1 xs).1,
        (allocValue h v).2 :: (allocList (allocValue h v).1 xs).2) := by
      simp only [allocList]
    have hlt := footprint_lt false _ v _ a2
    have hf := denotes_frame false (allocValue h v).1 (allocList (allocValue h v).1 xs).1 v
      (allocValue h v).2 (fun r hr => by
        rw [b1]
        exact Heap.getElem?_append_old _ _ r (hlt r hr))
    rw [hval]
    refine ⟨ext1 ++ ext2, ?_, ?_, ?_, ?_⟩
    · show _ = h ++ (ext1 ++ ext2)
      rw [← List.append_assoc, ← a1]
      exact b1
    · simp only [denotesList, Bool.and_eq_true]
      exact ⟨hf.1.trans a2, b2⟩
    · simp only [footprintList, hf.2]
      rw [List.nodup_append]
      refine ⟨a3, b3, ?_⟩
      intro r hr1 hr2
      have := hlt r hr1
      have := b4 r hr2
      omega
    · simp only [footprintList, hf.2]
      intro r hr
      rcases List.mem_append.1 hr with hr | hr
      · exact a4 r hr
      · have := b4 r hr
        rw [a1] at this
        simp only [List.length_append] at this
        omega
end

/-- A new map object with the entries of a tree reads as that tree; see
`allocValue_spec`. -/
theorem allocMap_spec (es : ValueMap) (h : Heap) :
    ∃ ext, (allocMap h es).1 = h ++ ext ∧
      denotes false (allocMap h es).1 (Value.map es) (GoValue.map (some (allocMap h es).2)) = true ∧
      (footprint (allocMap h es).1 (Value.map es) (GoValue.map (some (allocMap h es).2))).Nodup ∧
      ∀ r ∈ footprint (allocMap h es).1 (Value.map es) (GoValue.map (some (allocMap h es).2)),
        h.length ≤ r := by
  have hval : allocValue h (Value.map es) =
      ((allocMap h es).1, GoValue.map (some (allocMap h es).2)) := by
    simp only [allocValue, allocMap]
  have := allocValue_spec (Value.map es) h
  rw [hval] at this
  exact this

theorem Value.mapDepth_of_not_map (v : Value) (hv : v.isMap = false) : v.mapDepth = 0 := by
  cases v <;> simp_all [Value.isMap, Value.mapDepth]

theorem Value.keysDistinct_of_not_map (v : Value) (hv : v.isMap = false) :
    v.keysDistinct = true := by
  cases v <;> simp_all [Value.isMap, Value.keysDistinct]

/-- The nested map of a name is as deep as the name has segments. -/
theorem mapDepth_nestedMap (v : Value) (hv : v.isMap = false) :
    ∀ (segs : List String), segs ≠ [] → (Value.map (nestedMap v segs)).mapDepth = segs.length
  | [], h => absurd rfl h
  | [s], _ => by
    simp [nestedMap, Value.mapDepth, entriesDepth, Value.mapDepth_of_not_map v hv]
  | s :: s2 :: rest, _ => by
    have ih := mapDepth_nestedMap v hv (s2 :: rest) (by simp)
    simp only [nestedMap, Value.mapDepth, entriesDepth] at ih ⊢
    simp only [List.length_cons] at ih ⊢
    omega

theorem keysDistinct_nestedMap (v : Value) (hv : v.isMap = false) :
    ∀ (segs : List String), (Value.map (nestedMap v segs)).keysDistinct = true
  | [] => by simp [nestedMap, Value.keysDistinct, entriesKeysDistinct, ValueMap.keys]
  | [s] => by
    simp [nestedMap, Value.keysDistinct, entriesKeysDistinct, ValueMap.keys,
      Value.keysDistinct_of_not_map v hv]
  | s :: s2 :: rest => by
    have ih := keysDistinct_nestedMap v hv (s2 :: rest)
    simp only [nestedMap, Value.keysDistinct, entriesKeysDistinct, ValueMap.keys] at ih ⊢
    simp [ih]

/-- The merge of a tree with a map of one entry is one round of the loop. -/
theorem mergeTrees_single (range : List String → List String)
    (hrange : ∀ ks : List String, ks.Nodup → (range ks).Perm ks) (fuel : Nat) (t : ValueMap)
    (s : String) (x : Value) :
    mergeTrees range (fuel + 1) t [(s, x)] = mergeTreesAt (mergeTrees range fuel) t s x := by
  have hr : range [s] = [s] := List.perm_singleton.1 (hrange [s] (List.nodup_singleton s))
  simp only [mergeTrees, ValueMap.keys, List.map_cons, List.map_nil, hr, mergeTreesLoop,
    ValueMap.get, if_true]
  cases mergeTreesAt (mergeTrees range fuel) t s x <;> rfl

/-- Following a path of keys looks at the first key only through the value
the map holds there. -/
theorem lookupPath_congr (s : String) (rest : List String) (m1 m2 : ValueMap)
    (h : ValueMap.get m1 s = ValueMap.get m2 s) :
    lookupPath (s :: rest) m1 = lookupPath (s :: rest) m2 := by
  cases rest with
  | nil => simpa [lookupPath] using h
  | cons s2 rest => simp only [lookupPath, h]

/-- In the nested map of a name, a path that does not begin the segments of
the name leads nowhere. -/
theorem lookupPath_nestedMap_none (v : Value) (hv : v.isMap = false) :
    ∀ (segs path : List String), ¬ path <+: segs → lookupPath path (nestedMap v segs) = none
  | _, [], h => absurd List.nil_prefix h
  | [], p :: prest, _ => by
    cases prest <;> simp [lookupPath, nestedMap, ValueMap.get]
  | [s], p :: prest, h => by
    cases prest with
    | nil =>
      have hne : ¬ s = p := by
        intro e
        apply h
        rw [e]
      simp [lookupPath, nestedMap, ValueMap.get, hne]
    | cons p2 prest =>
      by_cases hsp : s = p
      · subst hsp
        cases v <;> simp_all [lookupPath, nestedMap, ValueMap.get, Value.isMap]
      · simp [lookupPath, nestedMap, ValueMap.get, hsp]
  | s :: s2 :: rest, p :: prest, h => by
    by_cases hsp : s = p
    · subst hsp
      cases prest with
      | nil =>
        exfalso
        apply h
        exact ⟨s2 :: rest, rfl⟩
      | cons p2 prest =>
        have h2 : ¬ (p2 :: prest) <+: (s2 :: rest) := by
          intro hp
          apply h
          rw [List.cons_prefix_cons]
          exact ⟨rfl, hp⟩
        have ih := lookupPath_nestedMap_none v hv (s2 :: rest) (p2 :: prest) h2
        simpa [lookupPath, nestedMap, ValueMap.get] using ih
    · cases prest <;> simp [lookupPath, nestedMap, ValueMap.get, hsp]

/-- Merging the nested map of a name and a value that is no map into a tree
leaves the value at the end of the name's path, and leaves what every path
led to that neither begins the segments of the name nor begins with them. -/
theorem mergeTrees_nestedMap (range : List String → List String)
    (hrange : ∀ ks : List String, ks.Nodup → (range ks).Perm ks) (v : Value)
    (hv : v.isMap = false) :
    ∀ (segs : List String) (t : ValueMap) (fuel : Nat), segs ≠ [] → segs.length ≤ fuel →
      ∃ t2, mergeTrees range fuel t (nestedMap v segs) = some t2 ∧
        lookupPath segs t2 = some v ∧
        ∀ path, ¬ path <+: segs → ¬ segs <+: path → lookupPath path t2 = lookupPath path t
  | [], _, _, h, _ => absurd rfl h
  | [s], t, 0, _, hf => by simp at hf
  | [s], t, fuel + 1, _, _ => by
    have hat : mergeTreesAt (mergeTrees range fuel) t s v = some (ValueMap.set t s v) := by
      rw [mergeTreesAt_eq]
      cases v <;> simp_all [Value.isMap]
    refine ⟨ValueMap.set t s v, ?_, ?_, ?_⟩
    · simp only [nestedMap]
      rw [mergeTrees_single range hrange, hat]
    · simp [lookupPath, ValueMap.lookup_set]
    · intro path h1 h2
      cases path with
      | nil => exact absurd List.nil_prefix h1
      | cons p prest =>
        have hne : ¬ s = p := by
          intro e
          apply h2
          rw [e]
          exact ⟨prest, rfl⟩
        apply lookupPath_congr
        rw [ValueMap.lookup_set, if_neg hne]
  | s :: s2 :: rest, t, 0, _, hf => by simp at hf
  | s :: s2 :: rest, t, fuel + 1, _, hf => by
    have hlen : (s2 :: rest).length ≤ fuel := by
      simp only [List.length_cons] at hf ⊢
      omega
    -- what the paths that begin with another key lead to
    have hother : ∀ (x : Value) (path : List String), ¬ path <+: s :: s2 :: rest →
        (∀ prest, path = s :: prest → False) →
        lookupPath path (ValueMap.set t s x) = lookupPath path t := by
      intro x path h1 h3
      cases path with
      | nil => exact absurd List.nil_prefix h1
      | cons p prest =>
        have hne : ¬ s = p := fun e => h3 prest (by rw [e])
        apply lookupPath_congr
        rw [ValueMap.lookup_set, if_neg hne]
    -- the rounds that end in the assignment of the nested map
    have hset : (∀ dm, ValueMap.get t s ≠ some (Value.map dm)) →
        ∃ t2, mergeTreesAt (mergeTrees range fuel) t s (Value.map (nestedMap v (s2 :: rest))) =
          some t2 ∧ lookupPath (s :: s2 :: rest) t2 = some v ∧
          ∀ path, ¬ path <+: s :: s2 :: rest → ¬ (s :: s2 :: rest) <+: path →
            lookupPath path t2 = lookupPath path t := by
      intro hnm
      refine ⟨ValueMap.set t s (Value.map (nestedMap v (s2 :: rest))), ?_, ?_, ?_⟩
      · rw [mergeTreesAt_eq]
        cases hg : ValueMap.get t s with
        | none => rfl
        | some dv =>
          cases dv with
          | map dm => exact absurd hg (hnm dm)
          | str x => rfl
          | scalar x => rfl
          | list xs => rfl
      · simp only [lookupPath, ValueMap.lookup_set, if_true]
        exact lookupPath_nestedMap v (s2 :: rest) (by simp)
      · intro path h1 h2
        by_cases hp : ∃ prest, path = s :: prest
        · obtain ⟨prest, rfl⟩ := hp
          cases prest with
          | nil =>
            exfalso
            apply h1
            exact ⟨s2 :: rest, rfl⟩
          | cons p2 prest =>
            have h3 : ¬ (p2 :: prest) <+: (s2 :: rest) := by
              intro hpre
              apply h1
              rw [List.cons_prefix_cons]
              exact ⟨rfl, hpre⟩
            simp only [lookupPath, ValueMap.lookup_set, if_true]
            rw [lookupPath_nestedMap_none v hv (s2 :: rest) (p2 :: prest) h3]
        · exact hother _ path h1 (fun prest e => hp ⟨prest, e⟩)
    simp only [nestedMap]
    rw [mergeTrees_single range hrange]
    by_cases hmap : ∃ dm, ValueMap.get t s = some (Value.map dm)
    · obtain ⟨dm, hdm⟩ := hmap
      obtain ⟨m, hm, hpath, hkeep⟩ :=
        mergeTrees_nestedMap range hrange v hv (s2 :: rest) dm fuel (by simp) hlen
      refine ⟨ValueMap.set t s (Value.map m), ?_, ?_, ?_⟩
      · rw [mergeTreesAt_eq]
        simp only [hdm, hm]
      · simp only [lookupPath, ValueMap.lookup_set, if_true]
        exact hpath
      · intro path h1 h2
        by_cases hp : ∃ prest, path = s :: prest
        · obtain ⟨prest, rfl⟩ := hp
          cases prest with
          | nil =>
            exfalso
            apply h1
            exact ⟨s2 :: rest, rfl⟩
          | cons p2 prest =>
            have h3 : ¬ (p2 :: prest) <+: (s2 :: rest) := by
              intro hpre
              apply h1
              rw [List.cons_prefix_cons]
              exact ⟨rfl, hpre⟩
            have h4 : ¬ (s2 :: rest) <+: (p2 :: prest) := by
              intro hpre
              apply h2
              rw [List.cons_prefix_cons]
              exact ⟨rfl, hpre⟩
            simp only [lookupPath, ValueMap.lookup_set, if_true, hdm]
            exact hkeep (p2 :: prest) h3 h4
        · exact hother _ path h1 (fun prest e => hp ⟨prest, e⟩)
    · exact hset (fun dm hdm => hmap ⟨dm, hdm⟩)

/-- Merging the map of a parameter, built of new map objects, into a map
that is a tree of map objects of its own: `mergeValues` returns, does what
the merge of trees does, and leaves a tree of map objects of its own. -/
theorem mergeValues_nestedMap (range : List String → List String)
    (hrange : ∀ ks : List String, ks.Nodup → (range ks).Perm ks)
    (h : Heap) (base : Nat) (tb : ValueMap)
    (hbase : denotes false h (Value.map tb) (GoValue.map (some base)) = true)
    (htree : (footprint h (Value.map tb) (GoValue.map (some base))).Nodup)
    (v : Value) (hv : v.isMap = false) (segs : List String) (hne : segs ≠ [])
    (fuel : Nat) (hf : segs.length ≤ fuel) :
    ∃ h2 t2, mergeValues range fuel (allocMap h (nestedMap v segs)).1 (some base)
        (some (allocMap h (nestedMap v segs)).2) = Except.ok h2 ∧
      mergeTrees range fuel tb (nestedMap v segs) = some t2 ∧
      denotes false h2 (Value.map t2) (GoValue.map (some base)) = true ∧
      (footprint h2 (Value.map t2) (GoValue.map (some base))).Nodup := by
  obtain ⟨ext, a1, a2, a3, a4⟩ := allocMap_spec (nestedMap v segs) h
  have hlt := footprint_lt false h _ _ hbase
  have hfr := denotes_frame false h (allocMap h (nestedMap v segs)).1 (Value.map tb)
    (GoValue.map (some base)) (fun r hr => by
      rw [a1]
      exact Heap.getElem?_append_old _ _ r (hlt r hr))
  obtain ⟨t2, hm, _, _⟩ := mergeTrees_nestedMap range hrange v hv segs tb fuel hne hf
  have hdis : ∀ r ∈ footprint (allocMap h (nestedMap v segs)).1 (Value.map tb)
      (GoValue.map (some base)),
      r ∉ footprint (allocMap h (nestedMap v segs)).1 (Value.map (nestedMap v segs))
        (GoValue.map (some (allocMap h (nestedMap v segs)).2)) := by
    intro r hr hr2
    rw [hfr.2] at hr
    have := hlt r hr
    have := a4 r hr2
    omega
  obtain ⟨h2, hrun, hden, _, hcnt⟩ := mergeValues_refines range hrange false fuel
    (allocMap h (nestedMap v segs)).1 base (some (allocMap h (nestedMap v segs)).2) tb
    (nestedMap v segs) t2 (hfr.1.trans hbase) (hfr.2 ▸ htree) a2 hdis
    (keysDistinct_nestedMap v hv segs) hm
  refine ⟨h2, t2, hrun, hm, hden, ?_⟩
  rw [List.nodup_iff_count_le_one]
  intro r
  have h1 := hcnt r
  have h2 : List.count r (footprint (allocMap h (nestedMap v segs)).1 (Value.map tb)
      (GoValue.map (some base))) ≤ 1 :=
    List.nodup_iff_count_le_one.1 (hfr.2 ▸ htree) r
  have h3 := List.nodup_iff_count_le_one.1 a3 r
  by_cases hr : r ∈ footprint (allocMap h (nestedMap v segs)).1 (Value.map tb)
      (GoValue.map (some base))
  · have h4 := List.count_eq_zero_of_not_mem (hdis r hr)
    omega
  · have h4 := List.count_eq_zero_of_not_mem hr
    omega

/-- The loop of `collectValues`, started on a map that is a tree of map
objects of its own, does not panic; when it ends without error the map is
such a tree again, and every path that neither begins the segments of the
name of a parameter gone through nor begins with them leads to what it led
to before. -/
theorem collectLoop_tree (env : ValuesEnv)
    (hrange : ∀ ks : List String, ks.Nodup → (env.range ks).Perm ks) (base : Nat) :
    ∀ (qs : List HelmChartParam) (h : Heap) (tb : ValueMap),
      denotes false h (Value.map tb) (GoValue.map (some base)) = true →
      (footprint h (Value.map tb) (GoValue.map (some base))).Nodup →
      (∀ e, collectLoop env qs h base ≠ Except.error (ValuesError.panic e)) ∧
      ∀ h2, collectLoop env qs h base = Except.ok h2 →
        ∃ t2, denotes false h2 (Value.map t2) (GoValue.map (some base)) = true ∧
          (footprint h2 (Value.map t2) (GoValue.map (some base))).Nodup ∧
          ∀ path, (∀ q ∈ qs, (cleanup env q.Name q.Value).1 ≠ "" →
              ¬ path <+: stringsSplit (cleanup env q.Name q.Value).1 ∧
              ¬ stringsSplit (cleanup env q.Name q.Value).1 <+: path) →
            lookupPath path t2 = lookupPath path tb
  | [], h, tb, hb, ht => by
    refine ⟨fun e => by simp [collectLoop], fun h2 hh2 => ?_⟩
    simp only [collectLoop, Except.ok.injEq] at hh2
    subst hh2
    exact ⟨tb, hb, ht, fun _ _ => rfl⟩
  | q :: qs, h, tb, hb, ht => by
    simp only [collectLoop]
    by_cases hname : (cleanup env q.Name q.Value).1 = ""
    · simp only [hname, if_true]
      obtain ⟨ih1, ih2⟩ := collectLoop_tree env hrange base qs h tb hb ht
      refine ⟨ih1, fun h2 hh2 => ?_⟩
      obtain ⟨t2, hd2, hn2, hp2⟩ := ih2 h2 hh2
      exact ⟨t2, hd2, hn2, fun path hpath =>
        hp2 path (fun q2 hq2 => hpath q2 (List.mem_cons_of_mem _ hq2))⟩
    · simp only [hname, if_false]
      cases hvu : overrideValue env (cleanup env q.Name q.Value).2 with
      | error e => simp
      | ok vu =>
        have hnm := overrideValue_not_map env _ vu hvu
        simp only [mappifyValueOverride_eq]
        rw [mapDepth_nestedMap vu hnm _ (stringsSplit_ne_nil _)]
        obtain ⟨h1, t1, hrun, hmt, hden, hnd⟩ := mergeValues_nestedMap env.range hrange h base tb
          hb ht vu hnm (stringsSplit (cleanup env q.Name q.Value).1) (stringsSplit_ne_nil _)
          _ (le_refl _)
        simp only [hrun]
        obtain ⟨ih1, ih2⟩ := collectLoop_tree env hrange base qs h1 t1 hden hnd
        refine ⟨ih1, fun h2 hh2 => ?_⟩
        obtain ⟨t2, hd2, hn2, hp2⟩ := ih2 h2 hh2
        refine ⟨t2, hd2, hn2, fun path hpath => ?_⟩
        rw [hp2 path (fun q2 hq2 => hpath q2 (List.mem_cons_of_mem _ hq2))]
        obtain ⟨t3, hm3, _, hkeep⟩ := mergeTrees_nestedMap env.range hrange vu hnm
          (stringsSplit (cleanup env q.Name q.Value).1) tb _ (stringsSplit_ne_nil _) (le_refl _)
        rw [hmt] at hm3
        rw [Option.some.inj hm3]
        have := hpath q (List.mem_cons_self _ _) hname
        exact hkeep path this.1 this.2

theorem collectLoop_append (env : ValuesEnv) (qs : List HelmChartParam) (base : Nat) :
    ∀ (ps : List HelmChartParam) (h : Heap),
      collectLoop env (ps ++ qs) h base =
        match collectLoop env ps h base with
        | Except.error e => Except.error e
        | Except.ok h1 => collectLoop env qs h1 base
  | [], h => by simp [collectLoop]
  | p :: ps, h => by
    simp only [List.cons_append, collectLoop]
    split
    · exact collectLoop_append env qs base ps h
    · split
      · rfl
      · split
        · rfl
        · split
          · rfl
          · exact collectLoop_append env qs base ps _

/-- The loop of `collectValues`, started on a map that is a tree of map
objects of its own, ends without error when every value in brackets
unwraps. -/
theorem collectLoop_returns (env : ValuesEnv)
    (hrange : ∀ ks : List String, ks.Nodup → (env.range ks).Perm ks) (base : Nat) :
    ∀ (qs : List HelmChartParam) (h : Heap) (tb : ValueMap),
      denotes false h (Value.map tb) (GoValue.map (some base)) = true →
      (footprint h (Value.map tb) (GoValue.map (some base))).Nodup →
      (∀ q ∈ qs, (cleanup env q.Name q.Value).1 ≠ "" →
        ∃ vu, overrideValue env (cleanup env q.Name q.Value).2 = Except.ok vu) →
      ∃ h2, collectLoop env qs h base = Except.ok h2
  | [], h, _, _, _, _ => ⟨h, rfl⟩
  | q :: qs, h, tb, hb, ht, hall => by
    simp only [collectLoop]
    by_cases hname : (cleanup env q.Name q.Value).1 = ""
    · simp only [hname, if_true]
      exact collectLoop_returns env hrange base qs h tb hb ht
        (fun q2 hq2 => hall q2 (List.mem_cons_of_mem _ hq2))
    · simp only [hname, if_false]
      obtain ⟨vu, hvu⟩ := hall q (List.mem_cons_self _ _) hname
      have hnm := overrideValue_not_map env _ vu hvu
      simp only [hvu, mappifyValueOverride_eq]
      rw [mapDepth_nestedMap vu hnm _ (stringsSplit_ne_nil _)]
      obtain ⟨h1, t1, hrun, _, hden, hnd⟩ := mergeValues_nestedMap env.range hrange h base tb
        hb ht vu hnm (stringsSplit (cleanup env q.Name q.Value).1) (stringsSplit_ne_nil _)
        _ (le_refl _)
      simp only [hrun]
      exact collectLoop_returns env hrange base qs h1 t1 hden hnd
        (fun q2 hq2 => hall q2 (List.mem_cons_of_mem _ hq2))

/-- Claim C15 as stated fails. Given "a.b" with the values "1" and "2" and
then "a" with the value "3", `collectValues` ends with the map `{a: "3"}`,
which holds nothing at the path of "a.b", not the later value "2". Nor does
merging reach `v` in every map `base`: with `base` the nil map
`mergeValues` panics, and with `base` a map that holds itself under "a",
merging "a.a" with the value "x" leaves `base` holding itself under "a", so
that the path of "a.a" leads to `base` and not to "x"; with `base` holding
the nil map under "a", merging "a.b" panics. And on a `base` that holds one
map under "a" and "c", the parameter "c.b" with the value "2", given after
"a.b" with the value "1", leaves "2" at the path of "a.b". -/
theorem later_parameter_counterexample :
    collectLoop sampleValuesEnv [HelmChartParam.mk "a.b" "1", HelmChartParam.mk "a.b" "2",
        HelmChartParam.mk "a" "3"] [[]] 0 =
      Except.ok [[("a", GoValue.str "3")], [("b", GoValue.str "2")],
        [("a", GoValue.map (some 1))], [("b", GoValue.str "2")],
        [("a", GoValue.map (some 3))], [("a", GoValue.str "3")]] ∧
    lookupPath (stringsSplit "a.b") [("a", Value.str "3")] = none ∧
    mergeValues (fun ks => ks) 2 (allocMap [] (mappifyValueOverride "a.b" (Value.str "2")).1).1
        none (some (allocMap [] (mappifyValueOverride "a.b" (Value.str "2")).1).2) =
      Except.error Panic.nilMap ∧
    mergeValues (fun ks => ks) 2
        (allocMap [[("a", GoValue.map (some 0))]]
          (mappifyValueOverride "a.a" (Value.str "x")).1).1 (some 0)
        (some (allocMap [[("a", GoValue.map (some 0))]]
          (mappifyValueOverride "a.a" (Value.str "x")).1).2) =
      Except.ok [[("a", GoValue.map (some 0))], [("a", GoValue.str "x")],
        [("a", GoValue.map (some 1))]] ∧
    mergeValues (fun ks => ks) 2
        (allocMap [[("a", GoValue.map none)]]
          (mappifyValueOverride "a.b" (Value.str "2")).1).1 (some 0)
        (some (allocMap [[("a", GoValue.map none)]]
          (mappifyValueOverride "a.b" (Value.str "2")).1).2) =
      Except.error Panic.nilMap ∧
    collectLoop sampleValuesEnv [HelmChartParam.mk "a.b" "1", HelmChartParam.mk "c.b" "2"]
        sharedBase 0 =
      Except.ok [[("a", GoValue.map (some 1)), ("c", GoValue.map (some 1))],
        [("b", GoValue.str "2")], [("b", GoValue.str "1")], [("a", GoValue.map (some 2))],
        [("b", GoValue.str "2")], [("c", GoValue.map (some 4))]] :=
  ⟨rfl, rfl, rfl, rfl, rfl, rfl⟩

/-- Claim C15, as amended: let `base` be a map that is not nil and reads as
a tree without nil maps in which no map object is met twice. Then for every
name `k` and every value `v` that is no map, `mergeValues(base,
mappifyValueOverride(k, v))` returns, for every bound no less than the
number of segments of `k`, and following the segments of `k` in `base`
then reaches `v`. The loop of `collectValues` started on `base` does not
panic, and ends without error when every value in brackets unwraps; and
when it ends without error, `base` holds at the path of the name of a
parameter the value of that parameter, whatever earlier parameters, of the
same name or not, had put there, provided no parameter after it has a name
whose segments begin the segments of that name or begin with them. -/
theorem later_parameter_overwrites (env : ValuesEnv)
    (hrange : ∀ ks : List String, ks.Nodup → (env.range ks).Perm ks)
    (h : Heap) (base : Nat) (tb : ValueMap)
    (hbase : denotes false h (Value.map tb) (GoValue.map (some base)) = true)
    (htree : (footprint h (Value.map tb) (GoValue.map (some base))).Nodup) :
    (∀ (k : String) (v : Value), v.isMap = false → ∀ fuel, (stringsSplit k).length ≤ fuel →
      ∃ h2 t2, mergeValues env.range fuel (allocMap h (mappifyValueOverride k v).1).1 (some base)
          (some (allocMap h (mappifyValueOverride k v).1).2) = Except.ok h2 ∧
        denotes false h2 (Value.map t2) (GoValue.map (some base)) = true ∧
        lookupPath (stringsSplit k) t2 = some v) ∧
    (∀ (params : List HelmChartParam) (e : Panic),
      collectLoop env params h base ≠ Except.error (ValuesError.panic e)) ∧
    (∀ (params : List HelmChartParam),
      (∀ q ∈ params, (cleanup env q.Name q.Value).1 ≠ "" →
        ∃ vu, overrideValue env (cleanup env q.Name q.Value).2 = Except.ok vu) →
      ∃ h2, collectLoop env params h base = Except.ok h2) ∧
    (∀ (ps qs : List HelmChartParam) (p : HelmChartParam) (h2 : Heap),
      collectLoop env (ps ++ p :: qs) h base = Except.ok h2 →
      (cleanup env p.Name p.Value).1 ≠ "" →
      (∀ q ∈ qs, (cleanup env q.Name q.Value).1 ≠ "" →
        ¬ stringsSplit (cleanup env p.Name p.Value).1 <+:
            stringsSplit (cleanup env q.Name q.Value).1 ∧
          ¬ stringsSplit (cleanup env q.Name q.Value).1 <+:
            stringsSplit (cleanup env p.Name p.Value).1) →
      ∃ vu t2, overrideValue env (cleanup env p.Name p.Value).2 = Except.ok vu ∧
        denotes false h2 (Value.map t2) (GoValue.map (some base)) = true ∧
        lookupPath (stringsSplit (cleanup env p.Name p.Value).1) t2 = some vu) := by
  refine ⟨?_, ?_,
    fun params => collectLoop_returns env hrange base params h tb hbase htree, ?_⟩
  · intro k v hv fuel hf
    rw [mappifyValueOverride_eq]
    obtain ⟨h2, t2, hrun, hmt, hden, _⟩ := mergeValues_nestedMap env.range hrange h base tb
      hbase htree v hv (stringsSplit k) (stringsSplit_ne_nil k) fuel hf
    obtain ⟨t3, hm3, hpath, _⟩ := mergeTrees_nestedMap env.range hrange v hv (stringsSplit k) tb
      fuel (stringsSplit_ne_nil k) hf
    rw [hmt] at hm3
    rw [← Option.some.inj hm3] at hpath
    exact ⟨h2, t2, hrun, hden, hpath⟩
  · intro params e
    exact (collectLoop_tree env hrange base params h tb hbase htree).1 e
  · intro ps qs p h2 hrun hname hqs
    rw [collectLoop_append] at hrun
    obtain ⟨_, hp2⟩ := collectLoop_tree env hrange base ps h tb hbase htree
    cases hps : collectLoop env ps h base with
    | error e => simp [hps] at hrun
    | ok h1 =>
      obtain ⟨t1, hd1, hn1, _⟩ := hp2 h1 hps
      simp only [hps, collectLoop, hname, if_false] at hrun
      cases hvu : overrideValue env (cleanup env p.Name p.Value).2 with
      | error e => simp [hvu] at hrun
      | ok vu =>
        have hnm := overrideValue_not_map env _ vu hvu
        simp only [hvu, mappifyValueOverride_eq] at hrun
        rw [mapDepth_nestedMap vu hnm _ (stringsSplit_ne_nil _)] at hrun
        obtain ⟨h1b, t1b, hrunb, hmt, hden, hnd⟩ := mergeValues_nestedMap env.range hrange h1
          base t1 hd1 hn1 vu hnm (stringsSplit (cleanup env p.Name p.Value).1)
          (stringsSplit_ne_nil _) _ (le_refl _)
        simp only [hrunb] at hrun
        obtain ⟨_, hq2⟩ := collectLoop_tree env hrange base qs h1b t1b hden hnd
        obtain ⟨t2, hd2, _, hkeep⟩ := hq2 h2 hrun
        refine ⟨vu, t2, rfl, hd2, ?_⟩
        rw [hkeep _ hqs]
        obtain ⟨t3, hm3, hpath, _⟩ := mergeTrees_nestedMap env.range hrange vu hnm
          (stringsSplit (cleanup env p.Name p.Value).1) t1 _ (stringsSplit_ne_nil _) (le_refl _)
        rw [hmt] at hm3
        rw [Option.some.inj hm3]
        exact hpath

/-- Witness for claim C15, as amended: on the new, empty map of
`collectValues`, the parameter "a.b" merged alone, and then given twice,
with the values "1" and "2", before the parameter "c". -/
theorem later_parameter_overwrites_witness :
    (∃ h2 t2, mergeValues sampleValuesEnv.range 2
          (allocMap [[]] (mappifyValueOverride "a.b" (Value.str "2")).1).1 (some 0)
          (some (allocMap [[]] (mappifyValueOverride "a.b" (Value.str "2")).1).2) =
          Except.ok h2 ∧
        denotes false h2 (Value.map t2) (GoValue.map (some 0)) = true ∧
        lookupPath (stringsSplit "a.b") t2 = some (Value.str "2")) ∧
    (∃ vu t2, overrideValue sampleValuesEnv
          (cleanup sampleValuesEnv (HelmChartParam.mk "a.b" "2").Name
            (HelmChartParam.mk "a.b" "2").Value).2 = Except.ok vu ∧
        denotes false [[("a", GoValue.map (some 1)), ("c", GoValue.str "3")],
            [("b", GoValue.str "2")], [("a", GoValue.map (some 1))], [("b", GoValue.str "2")],
            [("a", GoValue.map (some 3))], [("c", GoValue.str "3")]]
          (Value.map t2) (GoValue.map (some 0)) = true ∧
        lookupPath (stringsSplit (cleanup sampleValuesEnv (HelmChartParam.mk "a.b" "2").Name
            (HelmChartParam.mk "a.b" "2").Value).1) t2 = some vu) :=
  ⟨(later_parameter_overwrites sampleValuesEnv (fun _ _ => List.Perm.refl _) [[]] 0 [] rfl
      (by decide)).1 "a.b" (Value.str "2") rfl 2 (by decide),
    (later_parameter_overwrites sampleValuesEnv (fun _ _ => List.Perm.refl _) [[]] 0 [] rfl
      (by decide)).2.2.2 [HelmChartParam.mk "a.b" "1"] [HelmChartParam.mk "c" "3"]
      (HelmChartParam.mk "a.b" "2") _ rfl (by decide) (by decide)⟩

end Flux
